import Mathlib

/-!
A shallow embedding of the bfr Brainfuck engine (src/brainfuck.rs, src/ir.rs,
src/jit/x86.rs, src/jit/mod.rs) and proofs about it.

Machine integers are modelled as Nat/Int with explicit reductions modulo
2^8 / 2^32 / 2^64 where the source relies on wrapping behaviour.  Rust panics
(array indexing out of range, explicit panic calls, slice range violations,
tinyvec capacity overflow) are modelled by a dedicated `panicked` result
constructor.  I/O streams are modelled as lists of bytes; the host streams of
the model never raise io::Error, so the FailedToWrite/FailedToRead paths are
dead (as they are for in-memory streams in the source).
-/

namespace Bfr

/-- Two's-complement wraparound of an arbitrary integer into the i32 range,
modelling Rust release-mode wrapping i32 arithmetic. -/
def wrap32 (z : Int) : Int := (z + 2 ^ 31) % 2 ^ 32 - 2 ^ 31

/-- Reinterpretation of an i32 value as a usize (`as usize` in Rust:
sign-extension followed by a bit cast, i.e. reduction modulo 2^64). -/
def usizeOfI32 (z : Int) : Nat := (z % 2 ^ 64).toNat

/-- Truncation of an integer to a u8 (`as u8` in Rust). -/
def u8OfInt (z : Int) : Nat := (z % 256).toNat

/-- usize wrapping addition (`usize::wrapping_add`). -/
def wAdd (a b : Nat) : Nat := (a + b) % 2 ^ 64

/-- usize wrapping subtraction (`usize::wrapping_sub`). -/
def wSub (a b : Nat) : Nat := (((a : Int) - (b : Int)) % 2 ^ 64).toNat

/-- Result of executing a single VM step: normal result, recoverable error, or
Rust panic. -/
inductive StepResult (ε σ : Type) where
  | ok (s : σ)
  | err (e : ε)
  | panicked
deriving DecidableEq

/-- Result of driving a VM with a given amount of fuel. -/
inductive RunResult (ε : Type) where
  | finished (output : List Nat) (input : List Nat)
  | errored (e : ε)
  | panicked
  | outOfFuel
deriving DecidableEq

/-- Models `input.read(&mut self.cells[self.data_pointer..1])`, the read used
by both interpreters (src/brainfuck.rs line 120, src/ir.rs line 193).  The
range `p..1` panics for `p > 1`, is empty for `p = 1` (a zero-byte read), and
only for `p = 0` actually covers one byte, namely cell 0.  At end of input,
`read` returns `Ok(0)` and the cell is left unchanged. -/
def sliceRead (cells : Nat → Nat) (p : Nat) (input : List Nat) :
    Option ((Nat → Nat) × List Nat) :=
  if p > 1 then none
  else if p = 1 then some (cells, input)
  else
    match input with
    | [] => some (cells, input)
    | b :: rest => some (Function.update cells 0 b, rest)

namespace brainfuck

/-- src/brainfuck.rs: the eight primitive Brainfuck instructions. -/
inductive Instruction where
  | IncrementPointer
  | DecrementPointer
  | IncrementByte
  | DecrementByte
  | OutputByte
  | ReadByte
  | JumpForwardsIfZero
  | JumpBackwardsIfNotZero
deriving DecidableEq

/-- src/brainfuck.rs: errors of the direct interpreter. -/
inductive VmError where
  | NoMatchingJump
  | FailedToWrite
  | FailedToRead
deriving DecidableEq

/-- The forward bracket scan of `Instruction::JumpForwardsIfZero` in
`Vm::step` (src/brainfuck.rs lines 128-152): starting with `opened`
unmatched brackets, repeatedly advance `jump`, failing when it passes the end
of the program.  The nesting counter is an i32 in the source; it is bounded by
the remaining program length, so it is modelled as an unbounded integer. -/
def scanForward (program : List Instruction) (jump : Nat) (opened : Int) :
    Option Nat :=
  if h : jump + 1 ≥ program.length then none
  else
    have hj : jump + 1 < program.length := by omega
    let opened' :=
      match program.get ⟨jump + 1, hj⟩ with
      | Instruction.JumpForwardsIfZero => opened + 1
      | Instruction.JumpBackwardsIfNotZero => opened - 1
      | _ => opened
    if opened' = 0 then some (jump + 1) else scanForward program (jump + 1) opened'
termination_by program.length - jump

/-- The backward bracket scan of `Instruction::JumpBackwardsIfNotZero` in
`Vm::step` (src/brainfuck.rs lines 160-184).  In the source the cursor is a
usize decremented with `wrapping_sub`; at 0 it wraps to 2^64 - 1, which is
`≥ program.len()` for any realizable program, so the wrap surfaces as the
out-of-range failure modelled here. -/
def scanBackward (program : List Instruction) (jump : Nat) (closed : Int) :
    Option Nat :=
  match jump with
  | 0 => none
  | j + 1 =>
    if hj : j < program.length then
      let closed' :=
        match program.get ⟨j, hj⟩ with
        | Instruction.JumpForwardsIfZero => closed - 1
        | Instruction.JumpBackwardsIfNotZero => closed + 1
        | _ => closed
      if closed' = 0 then some j else scanBackward program j closed'
    else none

/-- src/brainfuck.rs: the state of the direct interpreter.  `cells` models the
`[u8; 30000]` tape as a total function; all in-contract accesses lie in
`[0, 30000)`. -/
structure Vm where
  program : List Instruction
  program_counter : Nat
  cells : Nat → Nat
  data_pointer : Nat

/-- `Vm::new` (src/brainfuck.rs lines 68-75). -/
def Vm.new (program : List Instruction) : Vm :=
  { program := program, program_counter := 0, cells := fun _ => 0,
    data_pointer := 0 }

/-- `Vm::step` of the direct interpreter (src/brainfuck.rs lines 83-192).
Rust panics (the explicit out-of-bounds panic and the slice-range panic in
`ReadByte`) are modelled as `StepResult.panicked`. -/
def Vm.step (vm : Vm) (input output : List Nat) :
    StepResult VmError (Vm × List Nat × List Nat) :=
  match vm.program[vm.program_counter]? with
  | none => StepResult.panicked
  | some instr =>
    match instr with
    | Instruction.IncrementPointer =>
      if wAdd vm.data_pointer 1 > 30000 then StepResult.panicked
      else
        StepResult.ok ({ vm with
          data_pointer := wAdd vm.data_pointer 1
          program_counter := wAdd vm.program_counter 1 }, input, output)
    | Instruction.DecrementPointer =>
      if wSub vm.data_pointer 1 > 30000 then StepResult.panicked
      else
        StepResult.ok ({ vm with
          data_pointer := wSub vm.data_pointer 1
          program_counter := wAdd vm.program_counter 1 }, input, output)
    | Instruction.IncrementByte =>
      let v := vm.cells vm.data_pointer
      StepResult.ok ({ vm with
        cells := Function.update vm.cells vm.data_pointer (u8OfInt ((v : Int) + 1))
        program_counter := wAdd vm.program_counter 1 }, input, output)
    | Instruction.DecrementByte =>
      let v := vm.cells vm.data_pointer
      StepResult.ok ({ vm with
        cells := Function.update vm.cells vm.data_pointer (u8OfInt ((v : Int) - 1))
        program_counter := wAdd vm.program_counter 1 }, input, output)
    | Instruction.OutputByte =>
      StepResult.ok ({ vm with program_counter := wAdd vm.program_counter 1 },
        input, output ++ [vm.cells vm.data_pointer])
    | Instruction.ReadByte =>
      match sliceRead vm.cells vm.data_pointer input with
      | none => StepResult.panicked
      | some (cells', input') =>
        StepResult.ok ({ vm with
          cells := cells'
          program_counter := vm.program_counter + 1 }, input', output)
    | Instruction.JumpForwardsIfZero =>
      if vm.cells vm.data_pointer = 0 then
        match scanForward vm.program vm.program_counter 1 with
        | none => StepResult.err VmError.NoMatchingJump
        | some jump =>
          StepResult.ok ({ vm with program_counter := jump }, input, output)
      else
        StepResult.ok ({ vm with program_counter := wAdd vm.program_counter 1 },
          input, output)
    | Instruction.JumpBackwardsIfNotZero =>
      if vm.cells vm.data_pointer ≠ 0 then
        match scanBackward vm.program vm.program_counter 1 with
        | none => StepResult.err VmError.NoMatchingJump
        | some jump =>
          StepResult.ok ({ vm with program_counter := jump }, input, output)
      else
        StepResult.ok ({ vm with program_counter := wAdd vm.program_counter 1 },
          input, output)

/-- `Vm::vm_loop` (src/brainfuck.rs lines 195-201), with explicit fuel. -/
def Vm.run : Nat → Vm → List Nat → List Nat → RunResult VmError
  | 0, vm, input, output =>
    if vm.program_counter < vm.program.length then RunResult.outOfFuel
    else RunResult.finished output input
  | fuel + 1, vm, input, output =>
    if vm.program_counter < vm.program.length then
      match vm.step input output with
      | StepResult.ok (vm', input', output') => Vm.run fuel vm' input' output'
      | StepResult.err e => RunResult.errored e
      | StepResult.panicked => RunResult.panicked
    else RunResult.finished output input

end brainfuck

namespace ir

/-- src/ir.rs: the BFR IR instruction set. -/
inductive Instruction where
  | IncrementPointer (inc : Int)
  | IncrementByte (inc : Int)
  | OutputByte
  | ReadByte
  | JumpForwardsIfZero (jmp : Nat)
  | JumpBackwardsIfNotZero (jmp : Nat)
deriving DecidableEq

/-- `aggregate_byte_ops` (src/ir.rs lines 29-41): consume the maximal run of
`+`/`-` from the front, left-folding the signed contributions with i32
arithmetic.  The accumulator is threaded explicitly to model the left fold. -/
def aggregate_byte_ops (agg : Int) :
    List brainfuck.Instruction → Int × List brainfuck.Instruction
  | [] => (agg, [])
  | x :: xs =>
    if x = brainfuck.Instruction.IncrementByte then
      aggregate_byte_ops (wrap32 (agg + 1)) xs
    else if x = brainfuck.Instruction.DecrementByte then
      aggregate_byte_ops (wrap32 (agg - 1)) xs
    else (agg, x :: xs)

/-- `aggregate_pointer_ops` (src/ir.rs lines 43-55). -/
def aggregate_pointer_ops (agg : Int) :
    List brainfuck.Instruction → Int × List brainfuck.Instruction
  | [] => (agg, [])
  | x :: xs =>
    if x = brainfuck.Instruction.IncrementPointer then
      aggregate_pointer_ops (wrap32 (agg + 1)) xs
    else if x = brainfuck.Instruction.DecrementPointer then
      aggregate_pointer_ops (wrap32 (agg - 1)) xs
    else (agg, x :: xs)

theorem aggregate_byte_ops_sublist (agg : Int) (l : List brainfuck.Instruction) :
    (aggregate_byte_ops agg l).2.length ≤ l.length := by
  induction l generalizing agg with
  | nil => simp [aggregate_byte_ops]
  | cons x xs ih =>
    by_cases h1 : x = brainfuck.Instruction.IncrementByte
    · simpa [aggregate_byte_ops, h1] using
        Nat.le_succ_of_le (ih (wrap32 (agg + 1)))
    · by_cases h2 : x = brainfuck.Instruction.DecrementByte
      · simpa [aggregate_byte_ops, h1, h2] using
          Nat.le_succ_of_le (ih (wrap32 (agg - 1)))
      · simp [aggregate_byte_ops, h1, h2]

theorem aggregate_pointer_ops_sublist (agg : Int)
    (l : List brainfuck.Instruction) :
    (aggregate_pointer_ops agg l).2.length ≤ l.length := by
  induction l generalizing agg with
  | nil => simp [aggregate_pointer_ops]
  | cons x xs ih =>
    by_cases h1 : x = brainfuck.Instruction.IncrementPointer
    · simpa [aggregate_pointer_ops, h1] using
        Nat.le_succ_of_le (ih (wrap32 (agg + 1)))
    · by_cases h2 : x = brainfuck.Instruction.DecrementPointer
      · simpa [aggregate_pointer_ops, h1, h2] using
          Nat.le_succ_of_le (ih (wrap32 (agg - 1)))
      · simp [aggregate_pointer_ops, h1, h2]

/-- Pass 1 of `transform` (src/ir.rs lines 68-100): fuse runs of byte and
pointer increments, copy I/O instructions, and emit 0-distance placeholders
for brackets. -/
def pass1 : List brainfuck.Instruction → List Instruction
  | [] => []
  | instr :: rest =>
    match instr with
    | brainfuck.Instruction.IncrementByte =>
      let p := aggregate_byte_ops 0 rest
      Instruction.IncrementByte (wrap32 (1 + p.1)) :: pass1 p.2
    | brainfuck.Instruction.DecrementByte =>
      let p := aggregate_byte_ops 0 rest
      Instruction.IncrementByte (wrap32 (-1 + p.1)) :: pass1 p.2
    | brainfuck.Instruction.IncrementPointer =>
      let p := aggregate_pointer_ops 0 rest
      Instruction.IncrementPointer (wrap32 (1 + p.1)) :: pass1 p.2
    | brainfuck.Instruction.DecrementPointer =>
      let p := aggregate_pointer_ops 0 rest
      Instruction.IncrementPointer (wrap32 (-1 + p.1)) :: pass1 p.2
    | brainfuck.Instruction.OutputByte => Instruction.OutputByte :: pass1 rest
    | brainfuck.Instruction.ReadByte => Instruction.ReadByte :: pass1 rest
    | brainfuck.Instruction.JumpBackwardsIfNotZero =>
      Instruction.JumpBackwardsIfNotZero 0 :: pass1 rest
    | brainfuck.Instruction.JumpForwardsIfZero =>
      Instruction.JumpForwardsIfZero 0 :: pass1 rest
termination_by l => l.length
decreasing_by
  all_goals simp_wf
  all_goals try exact Nat.lt_succ_of_le (aggregate_byte_ops_sublist 0 _)
  all_goals exact Nat.lt_succ_of_le (aggregate_pointer_ops_sublist 0 _)

/-- src/ir.rs: `TransformError`. -/
inductive TransformError where
  | NoMatchingJump
deriving DecidableEq

/-- Result of `transform`: success, the recoverable `TransformError`, or a
Rust panic (the bracket stack is a `tinyvec::ArrayVec<[usize; 32]>`, whose
`push` panics when the capacity of 32 is exceeded). -/
inductive TransformResult where
  | ok (instructions : List Instruction)
  | error (e : TransformError)
  | panicked
deriving DecidableEq

/-- Pass 2 of `transform` (src/ir.rs lines 102-124): match brackets with a
bounded stack of IR indices and rewrite both ends of each matched pair with
their distance. -/
def pass2 (transformed : List Instruction) (idx : Nat) (stack : List Nat) :
    TransformResult :=
  if h : idx < transformed.length then
    match transformed.get ⟨idx, h⟩ with
    | Instruction.JumpForwardsIfZero _ =>
      if stack.length ≥ 32 then TransformResult.panicked
      else pass2 transformed (idx + 1) (idx :: stack)
    | Instruction.JumpBackwardsIfNotZero _ =>
      match stack with
      | [] => TransformResult.error TransformError.NoMatchingJump
      | target_idx :: rest =>
        let distance := idx - target_idx
        pass2
          ((transformed.set target_idx
              (Instruction.JumpForwardsIfZero distance)).set idx
            (Instruction.JumpBackwardsIfNotZero distance))
          (idx + 1) rest
    | _ => pass2 transformed (idx + 1) stack
  else TransformResult.ok transformed
termination_by transformed.length - idx
decreasing_by
  all_goals simp_wf
  all_goals omega

/-- `transform` (src/ir.rs lines 64-127). -/
def transform (instructions : List brainfuck.Instruction) : TransformResult :=
  pass2 (pass1 instructions) 0 []

/-- src/ir.rs: errors of the IR interpreter. -/
inductive VmError where
  | FailedToWrite
  | FailedToRead
deriving DecidableEq

/-- src/ir.rs: the state of the IR interpreter. -/
structure Vm where
  program : List Instruction
  program_counter : Nat
  cells : Nat → Nat
  data_pointer : Nat

/-- `Vm::new` (src/ir.rs lines 149-156). -/
def Vm.new (program : List Instruction) : Vm :=
  { program := program, program_counter := 0, cells := fun _ => 0,
    data_pointer := 0 }

/-- `Vm::step` of the IR interpreter (src/ir.rs lines 169-220). -/
def Vm.step (vm : Vm) (input output : List Nat) :
    StepResult VmError (Vm × List Nat × List Nat) :=
  match vm.program[vm.program_counter]? with
  | none => StepResult.panicked
  | some instr =>
    match instr with
    | Instruction.IncrementPointer inc =>
      if wAdd vm.data_pointer (usizeOfI32 inc) > 30000 then StepResult.panicked
      else
        StepResult.ok ({ vm with
          data_pointer := wAdd vm.data_pointer (usizeOfI32 inc)
          program_counter := wAdd vm.program_counter 1 }, input, output)
    | Instruction.IncrementByte inc =>
      let extended : Int := vm.cells vm.data_pointer
      StepResult.ok ({ vm with
        cells := Function.update vm.cells vm.data_pointer
          (u8OfInt (wrap32 (extended + inc)))
        program_counter := wAdd vm.program_counter 1 }, input, output)
    | Instruction.OutputByte =>
      StepResult.ok ({ vm with program_counter := wAdd vm.program_counter 1 },
        input, output ++ [vm.cells vm.data_pointer])
    | Instruction.ReadByte =>
      match sliceRead vm.cells vm.data_pointer input with
      | none => StepResult.panicked
      | some (cells', input') =>
        StepResult.ok ({ vm with
          cells := cells'
          program_counter := wAdd vm.program_counter 1 }, input', output)
    | Instruction.JumpForwardsIfZero jmp =>
      if vm.cells vm.data_pointer = 0 then
        StepResult.ok ({ vm with program_counter := wAdd vm.program_counter jmp },
          input, output)
      else
        StepResult.ok ({ vm with program_counter := wAdd vm.program_counter 1 },
          input, output)
    | Instruction.JumpBackwardsIfNotZero jmp =>
      if vm.cells vm.data_pointer ≠ 0 then
        StepResult.ok ({ vm with program_counter := wSub vm.program_counter jmp },
          input, output)
      else
        StepResult.ok ({ vm with program_counter := wAdd vm.program_counter 1 },
          input, output)

/-- `Vm::vm_loop` (src/ir.rs lines 223-229), with explicit fuel. -/
def Vm.run : Nat → Vm → List Nat → List Nat → RunResult VmError
  | 0, vm, input, output =>
    if vm.program_counter < vm.program.length then RunResult.outOfFuel
    else RunResult.finished output input
  | fuel + 1, vm, input, output =>
    if vm.program_counter < vm.program.length then
      match vm.step input output with
      | StepResult.ok (vm', input', output') => Vm.run fuel vm' input' output'
      | StepResult.err e => RunResult.errored e
      | StepResult.panicked => RunResult.panicked
    else RunResult.finished output input

end ir

/-!
Computable mirrors.  `scanForward`, `pass1` and `pass2` are defined by
well-founded recursion, exactly following the loops of the source; the kernel
cannot reduce such definitions, so each gets a structurally recursive twin
(explicit fuel) together with a proof that the twin agrees with it.  Concrete
evaluations then go through the twins by `decide`. -/

namespace brainfuck

/-- Fuel-indexed twin of `scanForward`. -/
def scanForwardFuel (program : List Instruction) :
    Nat → Nat → Int → Option Nat
  | 0, _, _ => none
  | fuel + 1, jump, opened =>
    if jump + 1 ≥ program.length then none
    else
      match program[jump + 1]? with
      | none => none
      | some instr =>
        let opened' :=
          match instr with
          | Instruction.JumpForwardsIfZero => opened + 1
          | Instruction.JumpBackwardsIfNotZero => opened - 1
          | _ => opened
        if opened' = 0 then some (jump + 1)
        else scanForwardFuel program fuel (jump + 1) opened'

theorem scanForward_eq_fuel (program : List Instruction) (jump : Nat)
    (opened : Int) :
    scanForward program jump opened =
      scanForwardFuel program (program.length - jump) jump opened := by
  generalize hf : program.length - jump = fuel
  induction fuel generalizing jump opened with
  | zero =>
    rw [scanForward]
    have : jump + 1 ≥ program.length := by omega
    simp [scanForwardFuel, this]
  | succ f ih =>
    rw [scanForward]
    by_cases h : jump + 1 ≥ program.length
    · simp [scanForwardFuel, h]
    · have hlt : jump + 1 < program.length := by omega
      have hget : program[jump + 1]? = some (program.get ⟨jump + 1, hlt⟩) := by
        rw [List.getElem?_eq_getElem hlt]
        rfl
      have hrec : program.length - (jump + 1) = f := by omega
      simp only [scanForwardFuel, if_neg h, hget]
      split
      · simp_all
      · rw [ih _ _ hrec]

/-- Fuel-indexed twin of `Vm.step` (only the forward scan needs fuel). -/
def Vm.stepFuel (vm : Vm) (input output : List Nat) :
    StepResult VmError (Vm × List Nat × List Nat) :=
  match vm.program[vm.program_counter]? with
  | none => StepResult.panicked
  | some instr =>
    match instr with
    | Instruction.IncrementPointer =>
      if wAdd vm.data_pointer 1 > 30000 then StepResult.panicked
      else
        StepResult.ok ({ vm with
          data_pointer := wAdd vm.data_pointer 1
          program_counter := wAdd vm.program_counter 1 }, input, output)
    | Instruction.DecrementPointer =>
      if wSub vm.data_pointer 1 > 30000 then StepResult.panicked
      else
        StepResult.ok ({ vm with
          data_pointer := wSub vm.data_pointer 1
          program_counter := wAdd vm.program_counter 1 }, input, output)
    | Instruction.IncrementByte =>
      let v := vm.cells vm.data_pointer
      StepResult.ok ({ vm with
        cells := Function.update vm.cells vm.data_pointer (u8OfInt ((v : Int) + 1))
        program_counter := wAdd vm.program_counter 1 }, input, output)
    | Instruction.DecrementByte =>
      let v := vm.cells vm.data_pointer
      StepResult.ok ({ vm with
        cells := Function.update vm.cells vm.data_pointer (u8OfInt ((v : Int) - 1))
        program_counter := wAdd vm.program_counter 1 }, input, output)
    | Instruction.OutputByte =>
      StepResult.ok ({ vm with program_counter := wAdd vm.program_counter 1 },
        input, output ++ [vm.cells vm.data_pointer])
    | Instruction.ReadByte =>
      match sliceRead vm.cells vm.data_pointer input with
      | none => StepResult.panicked
      | some (cells', input') =>
        StepResult.ok ({ vm with
          cells := cells'
          program_counter := vm.program_counter + 1 }, input', output)
    | Instruction.JumpForwardsIfZero =>
      if vm.cells vm.data_pointer = 0 then
        match scanForwardFuel vm.program (vm.program.length - vm.program_counter)
            vm.program_counter 1 with
        | none => StepResult.err VmError.NoMatchingJump
        | some jump =>
          StepResult.ok ({ vm with program_counter := jump }, input, output)
      else
        StepResult.ok ({ vm with program_counter := wAdd vm.program_counter 1 },
          input, output)
    | Instruction.JumpBackwardsIfNotZero =>
      if vm.cells vm.data_pointer ≠ 0 then
        match scanBackward vm.program vm.program_counter 1 with
        | none => StepResult.err VmError.NoMatchingJump
        | some jump =>
          StepResult.ok ({ vm with program_counter := jump }, input, output)
      else
        StepResult.ok ({ vm with program_counter := wAdd vm.program_counter 1 },
          input, output)

theorem Vm.step_eq_fuel (vm : Vm) (input output : List Nat) :
    vm.step input output = vm.stepFuel input output := by
  unfold Vm.step Vm.stepFuel
  rw [scanForward_eq_fuel]

/-- Fuel-indexed twin of `Vm.run`. -/
def Vm.runFuel : Nat → Vm → List Nat → List Nat → RunResult VmError
  | 0, vm, input, output =>
    if vm.program_counter < vm.program.length then RunResult.outOfFuel
    else RunResult.finished output input
  | fuel + 1, vm, input, output =>
    if vm.program_counter < vm.program.length then
      match vm.stepFuel input output with
      | StepResult.ok (vm', input', output') => Vm.runFuel fuel vm' input' output'
      | StepResult.err e => RunResult.errored e
      | StepResult.panicked => RunResult.panicked
    else RunResult.finished output input

theorem Vm.run_eq_fuel (fuel : Nat) (vm : Vm) (input output : List Nat) :
    Vm.run fuel vm input output = Vm.runFuel fuel vm input output := by
  induction fuel generalizing vm input output with
  | zero => rfl
  | succ f ih =>
    unfold Vm.run Vm.runFuel
    rw [Vm.step_eq_fuel]
    cases vm.stepFuel input output with
    | ok s =>
      obtain ⟨vm', input', output'⟩ := s
      simp only [ih]
    | err e => cases e <;> rfl
    | panicked => rfl

end brainfuck

namespace ir

/-- Fuel-indexed twin of `pass1`. -/
def pass1Fuel : Nat → List brainfuck.Instruction → List Instruction
  | 0, _ => []
  | _, [] => []
  | fuel + 1, instr :: rest =>
    match instr with
    | brainfuck.Instruction.IncrementByte =>
      let p := aggregate_byte_ops 0 rest
      Instruction.IncrementByte (wrap32 (1 + p.1)) :: pass1Fuel fuel p.2
    | brainfuck.Instruction.DecrementByte =>
      let p := aggregate_byte_ops 0 rest
      Instruction.IncrementByte (wrap32 (-1 + p.1)) :: pass1Fuel fuel p.2
    | brainfuck.Instruction.IncrementPointer =>
      let p := aggregate_pointer_ops 0 rest
      Instruction.IncrementPointer (wrap32 (1 + p.1)) :: pass1Fuel fuel p.2
    | brainfuck.Instruction.DecrementPointer =>
      let p := aggregate_pointer_ops 0 rest
      Instruction.IncrementPointer (wrap32 (-1 + p.1)) :: pass1Fuel fuel p.2
    | brainfuck.Instruction.OutputByte => Instruction.OutputByte :: pass1Fuel fuel rest
    | brainfuck.Instruction.ReadByte => Instruction.ReadByte :: pass1Fuel fuel rest
    | brainfuck.Instruction.JumpBackwardsIfNotZero =>
      Instruction.JumpBackwardsIfNotZero 0 :: pass1Fuel fuel rest
    | brainfuck.Instruction.JumpForwardsIfZero =>
      Instruction.JumpForwardsIfZero 0 :: pass1Fuel fuel rest

theorem pass1_eq_fuel (fuel : Nat) (l : List brainfuck.Instruction)
    (h : l.length ≤ fuel) : pass1 l = pass1Fuel fuel l := by
  induction fuel generalizing l with
  | zero =>
    have : l = [] := by
      cases l with
      | nil => rfl
      | cons x xs => simp at h
    subst this
    simp [pass1, pass1Fuel]
  | succ f ih =>
    cases l with
    | nil => simp [pass1, pass1Fuel]
    | cons instr rest =>
      rw [pass1.eq_def]
      cases instr <;>
        simp only [pass1Fuel] <;>
        first
          | exact congrArg _ (ih _ (by
              have := aggregate_byte_ops_sublist 0 rest
              simp at h
              omega))
          | exact congrArg _ (ih _ (by
              have := aggregate_pointer_ops_sublist 0 rest
              simp at h
              omega))

/-- Fuel-indexed twin of `pass2`. -/
def pass2Fuel : Nat → List Instruction → Nat → List Nat → TransformResult
  | 0, transformed, _, _ => TransformResult.ok transformed
  | fuel + 1, transformed, idx, stack =>
    if idx < transformed.length then
      match transformed[idx]? with
      | none => TransformResult.ok transformed
      | some (Instruction.JumpForwardsIfZero _) =>
        if stack.length ≥ 32 then TransformResult.panicked
        else pass2Fuel fuel transformed (idx + 1) (idx :: stack)
      | some (Instruction.JumpBackwardsIfNotZero _) =>
        match stack with
        | [] => TransformResult.error TransformError.NoMatchingJump
        | target_idx :: rest =>
          let distance := idx - target_idx
          pass2Fuel fuel
            ((transformed.set target_idx
                (Instruction.JumpForwardsIfZero distance)).set idx
              (Instruction.JumpBackwardsIfNotZero distance))
            (idx + 1) rest
      | some _ => pass2Fuel fuel transformed (idx + 1) stack
    else TransformResult.ok transformed

theorem pass2_eq_fuel (fuel : Nat) (transformed : List Instruction) (idx : Nat)
    (stack : List Nat) (h : transformed.length - idx ≤ fuel) :
    pass2 transformed idx stack = pass2Fuel fuel transformed idx stack := by
  induction fuel generalizing transformed idx stack with
  | zero =>
    rw [pass2.eq_def]
    have : ¬ idx < transformed.length := by omega
    simp [pass2Fuel, this]
  | succ f ih =>
    rw [pass2.eq_def]
    by_cases hidx : idx < transformed.length
    · have hget : transformed[idx]? = some (transformed.get ⟨idx, hidx⟩) := by
        rw [List.getElem?_eq_getElem hidx]
        rfl
      simp only [pass2Fuel, if_pos hidx, hget, dif_pos hidx]
      cases hi : transformed.get ⟨idx, hidx⟩ with
      | JumpForwardsIfZero jmp =>
        by_cases hs : stack.length ≥ 32
        · simp [hs]
        · simp only [if_neg hs]
          exact ih _ _ _ (by omega)
      | JumpBackwardsIfNotZero jmp =>
        cases stack with
        | nil => rfl
        | cons target_idx rest =>
          exact ih _ _ _ (by simp only [List.length_set]; omega)
      | IncrementPointer inc => exact ih _ _ _ (by omega)
      | IncrementByte inc => exact ih _ _ _ (by omega)
      | OutputByte => exact ih _ _ _ (by omega)
      | ReadByte => exact ih _ _ _ (by omega)
    · simp [pass2Fuel, hidx]

/-- Fully structural twin of `transform`. -/
def transformFuel (instructions : List brainfuck.Instruction) : TransformResult :=
  let t := pass1Fuel instructions.length instructions
  pass2Fuel t.length t 0 []

theorem transform_eq_fuel (instructions : List brainfuck.Instruction) :
    transform instructions = transformFuel instructions := by
  unfold transform transformFuel
  rw [← pass1_eq_fuel instructions.length instructions (le_refl _)]
  exact pass2_eq_fuel _ _ 0 [] (by omega)

end ir

namespace x86

/-- src/jit/x86.rs: the 16 general-purpose registers, discriminants 0..15. -/
inductive Register where
  | Rax | Rcx | Rdx | Rbx | Rsp | Rbp | Rsi | Rdi
  | R8 | R9 | R10 | R11 | R12 | R13 | R14 | R15
deriving DecidableEq

/-- The `repr(u8)` discriminant of a register; Rust `PartialOrd` on the enum
compares these. -/
def Register.code : Register → Nat
  | Register.Rax => 0 | Register.Rcx => 1 | Register.Rdx => 2
  | Register.Rbx => 3 | Register.Rsp => 4 | Register.Rbp => 5
  | Register.Rsi => 6 | Register.Rdi => 7
  | Register.R8 => 8 | Register.R9 => 9 | Register.R10 => 10
  | Register.R11 => 11 | Register.R12 => 12 | Register.R13 => 13
  | Register.R14 => 14 | Register.R15 => 15

/-- `Emitter::modrm` (src/jit/x86.rs lines 41-47). -/
def modrm (mode reg rm : Nat) : Nat :=
  ((mode &&& 3) <<< 6) ||| ((reg &&& 7) <<< 3) ||| (rm &&& 7)

/-- `Emitter::rexw_r` (src/jit/x86.rs lines 49-57). -/
def rexw_r (register : Register) : Nat :=
  if Register.R8.code ≤ register.code then 0x48 ||| 0x04 else 0x48

/-- `Emitter::rexw_r_rm` (src/jit/x86.rs lines 59-67). -/
def rexw_r_rm (register rm : Register) : Nat :=
  if Register.R8.code ≤ rm.code then rexw_r register ||| 1 else rexw_r register

/-- `Emitter::rex_rm` (src/jit/x86.rs lines 69-75).  Note the source compares
with `>` (strictly greater than R8), not `>=`. -/
def rex_rm (register : Register) : Option Nat :=
  if Register.R8.code < register.code then some 0x41 else none

/-- Little-endian bytes of a u32 (`u32::to_le_bytes`). -/
def le_bytes32 (v : Nat) : List Nat :=
  [v % 256, v / 2 ^ 8 % 256, v / 2 ^ 16 % 256, v / 2 ^ 24 % 256]

/-- Little-endian bytes of an i32 (`i32::to_le_bytes`): two's complement. -/
def le_bytes32i (z : Int) : List Nat := le_bytes32 ((z % 2 ^ 32).toNat)

/-- The bytes appended by `Emitter::addu8_reg` (src/jit/x86.rs lines 77-86). -/
def addu8_reg (register : Register) (imm : Nat) : List Nat :=
  [rexw_r register, 0x83, modrm 3 0 register.code, imm]

/-- The bytes appended by `Emitter::subu8_reg` (src/jit/x86.rs lines 88-97). -/
def subu8_reg (register : Register) (imm : Nat) : List Nat :=
  [rexw_r register, 0x83, modrm 3 5 register.code, imm]

/-- The bytes appended by `Emitter::addu8_ptr` (src/jit/x86.rs lines 99-103). -/
def addu8_ptr (register : Register) (imm : Nat) : List Nat :=
  [0x80, modrm 0 0 register.code, imm]

/-- The bytes appended by `Emitter::subu8_ptr` (src/jit/x86.rs lines 105-109). -/
def subu8_ptr (register : Register) (imm : Nat) : List Nat :=
  [0x80, modrm 0 5 register.code, imm]

/-- The bytes appended by `Emitter::addu8_ptr_u8disp` (src/jit/x86.rs lines 111-115). -/
def addu8_ptr_u8disp (register : Register) (disp imm : Nat) : List Nat :=
  [0x80, modrm 1 0 register.code, disp, imm]

/-- The bytes appended by `Emitter::subu8_ptr_u8disp` (src/jit/x86.rs lines 117-121). -/
def subu8_ptr_u8disp (register : Register) (disp imm : Nat) : List Nat :=
  [0x80, modrm 1 5 register.code, disp, imm]

/-- The bytes appended by `Emitter::cmpu8_ptr` (src/jit/x86.rs lines 123-127). -/
def cmpu8_ptr (register : Register) (imm : Nat) : List Nat :=
  [0x80, modrm 0 7 register.code, imm]

/-- The bytes appended by `Emitter::jneu32` (src/jit/x86.rs lines 129-140). -/
def jneu32 (offset : Nat) : List Nat := [0x0f, 0x85] ++ le_bytes32 offset

/-- The bytes appended by `Emitter::jeu32` (src/jit/x86.rs lines 142-153). -/
def jeu32 (offset : Nat) : List Nat := [0x0f, 0x84] ++ le_bytes32 offset

/-- The bytes appended by `Emitter::call64` (src/jit/x86.rs lines 155-163). -/
def call64 (register : Register) : List Nat :=
  match rex_rm register with
  | some rexrm => [rexrm, 0xff, modrm 3 2 register.code]
  | none => [0xff, modrm 3 2 register.code]

/-- The bytes appended by `Emitter::push` (src/jit/x86.rs lines 165-173). -/
def push (register : Register) : List Nat :=
  match rex_rm register with
  | some rexrm => [rexrm, 0xff, modrm 3 6 register.code]
  | none => [0xff, modrm 3 6 register.code]

/-- The bytes appended by `Emitter::pop` (src/jit/x86.rs lines 175-183). -/
def pop (register : Register) : List Nat :=
  match rex_rm register with
  | some rexrm => [rexrm, 0x8f, modrm 3 0 register.code]
  | none => [0x8f, modrm 3 0 register.code]

/-- The bytes appended by `Emitter::mov64_reg` (src/jit/x86.rs lines 186-194). -/
def mov64_reg (dst src : Register) : List Nat :=
  [rexw_r_rm src dst, 0x89, modrm 3 src.code dst.code]

/-- Overwrite `bytes.length` bytes of `buffer` starting at `pos`. -/
def writeBytes (buffer : Nat → Nat) (pos : Nat) : List Nat → (Nat → Nat)
  | [] => buffer
  | b :: bs => writeBytes (Function.update buffer pos b) (pos + 1) bs

/-- src/jit/x86.rs: the emitter cursor over the program buffer.  The mutable
slice is modelled as a total byte function together with its length. -/
structure Emitter where
  index : Nat
  buffer : Nat → Nat
  size : Nat

/-- `Emitter::emit` (src/jit/x86.rs lines 35-38).  `copy_from_slice` through a
slice of the buffer panics when the range `index..index+len` overruns the
buffer; the overrun is modelled as `none`. -/
def Emitter.emit (e : Emitter) (emitted : List Nat) : Option Emitter :=
  if e.index + emitted.length ≤ e.size then
    some { e with buffer := writeBytes e.buffer e.index emitted
                  index := e.index + emitted.length }
  else none

end x86

namespace jit

def PAGE_SIZE : Nat := 4096

/-- `Program::new(8)` (src/jit/mod.rs line 139): eight pages. -/
def BUF_SIZE : Nat := 8 * PAGE_SIZE

/-- src/jit/mod.rs: `JumpInfo`. -/
structure JumpInfo where
  asm_offset : Nat
  target : Nat
deriving DecidableEq

/-- Emission state: emitter cursor plus the recorded jump map.  The
`BTreeMap<usize, JumpInfo>` is modelled as an association list; keys are
inserted in strictly increasing order, so list order equals the ascending key
order in which `values()` iterates. -/
structure TState where
  emitter : x86.Emitter
  jumps : List (Nat × JumpInfo)

/-- One iteration of the body-emission loop of `jit::transform`
(src/jit/mod.rs lines 165-244).  The source also has a match arm for an
`Instruction::IncrementPointerAndByte` variant that does not exist in the
`ir::Instruction` enum of src/ir.rs; that arm can never fire and has no
counterpart here. -/
def emitInstr (st : TState) (idx : Nat) (instr : ir.Instruction) :
    Option TState :=
  match instr with
  | ir.Instruction.IncrementPointer inc =>
    if 0 < inc then
      do
        let e ← st.emitter.emit (x86.addu8_reg x86.Register.Rdi (u8OfInt inc))
        some { st with emitter := e }
    else if inc < 0 then
      do
        let e ← st.emitter.emit (x86.subu8_reg x86.Register.Rdi
          (u8OfInt (wrap32 (-inc))))
        some { st with emitter := e }
    else some st
  | ir.Instruction.IncrementByte inc =>
    if 0 < inc then
      do
        let e ← st.emitter.emit (x86.addu8_ptr x86.Register.Rdi (u8OfInt inc))
        some { st with emitter := e }
    else if inc < 0 then
      do
        let e ← st.emitter.emit (x86.subu8_ptr x86.Register.Rdi
          (u8OfInt (wrap32 (-inc))))
        some { st with emitter := e }
    else some st
  | ir.Instruction.JumpBackwardsIfNotZero jmp =>
    do
      let e1 ← st.emitter.emit (x86.cmpu8_ptr x86.Register.Rdi 0)
      let jumpinfo : JumpInfo := { target := wSub idx jmp, asm_offset := e1.index }
      let e2 ← e1.emit (x86.jneu32 42)
      some { emitter := e2, jumps := st.jumps ++ [(idx, jumpinfo)] }
  | ir.Instruction.JumpForwardsIfZero jmp =>
    do
      let e1 ← st.emitter.emit (x86.cmpu8_ptr x86.Register.Rdi 0)
      let jumpinfo : JumpInfo := { target := wAdd idx jmp, asm_offset := e1.index }
      let e2 ← e1.emit (x86.jeu32 42)
      some { emitter := e2, jumps := st.jumps ++ [(idx, jumpinfo)] }
  | ir.Instruction.OutputByte =>
    do
      let e1 ← st.emitter.emit (x86.mov64_reg x86.Register.Rsi x86.Register.R12)
      let e2 ← e1.emit (x86.push x86.Register.Rdi)
      let e3 ← e2.emit (x86.call64 x86.Register.Rbp)
      let e4 ← e3.emit (x86.pop x86.Register.Rdi)
      some { st with emitter := e4 }
  | ir.Instruction.ReadByte =>
    do
      let e1 ← st.emitter.emit (x86.mov64_reg x86.Register.Rsi x86.Register.R14)
      let e2 ← e1.emit (x86.push x86.Register.Rdi)
      let e3 ← e2.emit (x86.call64 x86.Register.R13)
      let e4 ← e3.emit (x86.pop x86.Register.Rdi)
      some { st with emitter := e4 }

/-- The body-emission loop over the enumerated IR. -/
def emitBody (st : TState) : List (Nat × ir.Instruction) → Option TState
  | [] => some st
  | (idx, instr) :: rest =>
    match emitInstr st idx instr with
    | none => none
    | some st' => emitBody st' rest

/-- The prologue of `jit::transform` (src/jit/mod.rs lines 153-161). -/
def emitPrologue (e : x86.Emitter) : Option x86.Emitter :=
  do
    let e1 ← e.emit (x86.push x86.Register.Rbp)
    let e2 ← e1.emit (x86.push x86.Register.R12)
    let e3 ← e2.emit (x86.push x86.Register.R13)
    let e4 ← e3.emit (x86.push x86.Register.R14)
    let e5 ← e4.emit (x86.mov64_reg x86.Register.Rbp x86.Register.Rsi)
    let e6 ← e5.emit (x86.mov64_reg x86.Register.R12 x86.Register.Rdx)
    let e7 ← e6.emit (x86.mov64_reg x86.Register.R13 x86.Register.Rcx)
    e7.emit (x86.mov64_reg x86.Register.R14 x86.Register.R8)

/-- The epilogue of `jit::transform` (src/jit/mod.rs lines 246-249). -/
def emitEpilogue (e : x86.Emitter) : Option x86.Emitter :=
  do
    let e1 ← e.emit (x86.pop x86.Register.R14)
    let e2 ← e1.emit (x86.pop x86.Register.R13)
    let e3 ← e2.emit (x86.pop x86.Register.R12)
    e3.emit (x86.pop x86.Register.Rbp)

/-- The patch pass of `jit::transform` (src/jit/mod.rs lines 251-268): for
each recorded jump (in ascending key order) look up the partner
(`.unwrap()` panics when absent), compute the raw offset
`target.asm_offset - jumpinfo.asm_offset`, convert to i32
(`try_from(..).expect` panics on overflow), and write its four little-endian
bytes over the placeholder at `asm_offset + 2` (each slice write panics
past the buffer end). -/
def patch (jumps : List (Nat × JumpInfo)) (buffer : Nat → Nat) :
    List (Nat × JumpInfo) → Option (Nat → Nat)
  | [] => some buffer
  | (_, jumpinfo) :: rest =>
    match jumps.lookup jumpinfo.target with
    | none => none
    | some target =>
      let offset : Int := (target.asm_offset : Int) - (jumpinfo.asm_offset : Int)
      if offset < -(2 ^ 31) ∨ 2 ^ 31 ≤ offset then none
      else if jumpinfo.asm_offset + 5 < BUF_SIZE then
        patch jumps
          (x86.writeBytes buffer (jumpinfo.asm_offset + 2) (x86.le_bytes32i offset))
          rest
      else none

/-- `jit::transform` (src/jit/mod.rs lines 132-271), returning the final
program bytes, the recorded jump map and the final cursor.  The buffer is
prefilled with `0xc3` (`ret`) by `Program::new`. -/
def transform (instructions : List ir.Instruction) :
    Option ((Nat → Nat) × List (Nat × JumpInfo) × Nat) :=
  do
    let e0 : x86.Emitter := { index := 0, buffer := fun _ => 0xc3, size := BUF_SIZE }
    let e1 ← emitPrologue e0
    let st ← emitBody { emitter := e1, jumps := [] } instructions.enum
    let e2 ← emitEpilogue st.emitter
    let buf ← patch st.jumps e2.buffer st.jumps
    some (buf, st.jumps, e2.index)

end jit

/-!
Bracket-matching theory over IR instruction lists.  `pbal T k` is the running
bracket balance of the first `k` instructions, `Matches T a b` is the
canonical bracket pairing (the segment strictly between the two brackets is
balanced and never dips to the level of the opening bracket), and `Vis T h p`
says the opening bracket at `p` is still unmatched when the scan has reached
`h`.  `pass2_ok_spec` characterizes a successful pass-2 run of the lowerer in
these terms. -/

namespace ir

/-- Bracket weight of an IR instruction. -/
def bw : Instruction → Int
  | Instruction.JumpForwardsIfZero _ => 1
  | Instruction.JumpBackwardsIfNotZero _ => -1
  | _ => 0

/-- Bracket weight of the instruction at an index (0 outside the list). -/
def bwAt (T : List Instruction) (j : Nat) : Int :=
  match T[j]? with
  | some x => bw x
  | none => 0

/-- Running bracket balance of the first `k` instructions. -/
def pbal (T : List Instruction) (k : Nat) : Int :=
  ((List.range k).map (bwAt T)).sum

/-- There is a forward jump (any distance) at index `j`. -/
def IsFwdAt (T : List Instruction) (j : Nat) : Prop :=
  ∃ d, T[j]? = some (Instruction.JumpForwardsIfZero d)

/-- There is a backward jump (any distance) at index `j`. -/
def IsBackAt (T : List Instruction) (j : Nat) : Prop :=
  ∃ d, T[j]? = some (Instruction.JumpBackwardsIfNotZero d)

/-- Canonical bracket pairing: `a` opens, `b` closes, the balance right after
`b` returns to the balance before `a`, and strictly between them the balance
stays above it. -/
def Matches (T : List Instruction) (a b : Nat) : Prop :=
  a < b ∧ b < T.length ∧ IsFwdAt T a ∧ IsBackAt T b ∧
    pbal T (b + 1) = pbal T a ∧ ∀ m, a < m → m ≤ b → pbal T a < pbal T m

/-- The opening bracket at `p` is visible (unmatched) at horizon `h`. -/
def Vis (T : List Instruction) (h p : Nat) : Prop :=
  p < h ∧ IsFwdAt T p ∧ ∀ m, p < m → m ≤ h → pbal T p < pbal T m

theorem pbal_succ (T : List Instruction) (k : Nat) :
    pbal T (k + 1) = pbal T k + bwAt T k := by
  unfold pbal
  rw [List.range_succ, List.map_append, List.sum_append]
  simp

theorem bwAt_fwd {T : List Instruction} {j : Nat} (h : IsFwdAt T j) :
    bwAt T j = 1 := by
  obtain ⟨d, hd⟩ := h
  unfold bwAt
  rw [hd]
  rfl

theorem bwAt_back {T : List Instruction} {j : Nat} (h : IsBackAt T j) :
    bwAt T j = -1 := by
  obtain ⟨d, hd⟩ := h
  unfold bwAt
  rw [hd]
  rfl

/-- A forward jump matches at most one closing index. -/
theorem Matches.unique_right {T : List Instruction} {a b b' : Nat}
    (h : Matches T a b) (h' : Matches T a b') : b = b' := by
  obtain ⟨hab, _, _, _, heq, hint⟩ := h
  obtain ⟨hab', _, _, _, heq', hint'⟩ := h'
  by_contra hne
  rcases Nat.lt_or_ge b b' with hlt | hge
  · have := hint' (b + 1) (by omega) (by omega)
    omega
  · have := hint (b' + 1) (by omega) (by omega)
    omega

/-- A backward jump matches at most one opening index. -/
theorem Matches.unique_left {T : List Instruction} {a a' b : Nat}
    (h : Matches T a b) (h' : Matches T a' b) : a = a' := by
  obtain ⟨hab, _, _, _, heq, hint⟩ := h
  obtain ⟨hab', _, _, _, heq', hint'⟩ := h'
  by_contra hne
  rcases Nat.lt_or_ge a a' with hlt | hge
  · have := hint a' (by omega) (by omega)
    omega
  · have := hint' a (by omega) (by omega)
    omega

/-- An open bracket is, at any later horizon, either already matched before
the horizon or still visible. -/
theorem match_or_vis {T : List Instruction} {j : Nat} (hj : IsFwdAt T j)
    (h : Nat) (hjh : j < h) :
    (∃ b, b < h ∧ Matches T j b) ∨ Vis T h j := by
  induction h with
  | zero => omega
  | succ h ih =>
    rcases Nat.lt_or_ge j h with hjh' | hge
    · rcases ih hjh' with ⟨b, hb, hm⟩ | hvis
      · exact Or.inl ⟨b, by omega, hm⟩
      · by_cases hlev : pbal T j < pbal T (h + 1)
        · refine Or.inr ⟨by omega, hj, ?_⟩
          intro m hm1 hm2
          rcases Nat.lt_or_ge m (h + 1) with hm3 | hm3
          · exact hvis.2.2 m hm1 (by omega)
          · have : m = h + 1 := by omega
            rw [this]
            exact hlev
        · -- the balance comes back down to the level of j exactly at h
          left
          have hbal : pbal T (h + 1) = pbal T h + bwAt T h := pbal_succ T h
          have hup : pbal T j < pbal T h := hvis.2.2 h (by omega) (le_refl _)
          have hwlow : bwAt T h = -1 := by
            have hge1 : bwAt T h = 1 ∨ bwAt T h = -1 ∨ bwAt T h = 0 := by
              unfold bwAt
              cases hTh : T[h]? with
              | none => right; right; rfl
              | some x =>
                cases x <;> simp [bw]
            omega
          have hback : IsBackAt T h := by
            unfold bwAt at hwlow
            cases hTh : T[h]? with
            | none => rw [hTh] at hwlow; simp at hwlow
            | some x =>
              rw [hTh] at hwlow
              cases x
              case JumpBackwardsIfNotZero d => exact ⟨d, hTh⟩
              all_goals simp [bw] at hwlow
          have hhlen : h < T.length := by
            obtain ⟨d, hd⟩ := hback
            exact List.getElem?_eq_some_iff.mp hd |>.1
          refine ⟨h, by omega, by omega, hhlen, hj, hback, by omega, ?_⟩
          intro m hm1 hm2
          exact hvis.2.2 m hm1 hm2
    · -- j = h: the bracket itself was just passed
      have hjh2 : j = h := by omega
      subst hjh2
      refine Or.inr ⟨by omega, hj, ?_⟩
      intro m hm1 hm2
      have : m = j + 1 := by omega
      rw [this, pbal_succ, bwAt_fwd hj]
      omega

theorem not_fwd_and_back {T : List Instruction} {j : Nat}
    (hf : IsFwdAt T j) (hb : IsBackAt T j) : False := by
  obtain ⟨d, hd⟩ := hf
  obtain ⟨e, he⟩ := hb
  rw [hd] at he
  exact Instruction.noConfusion (Option.some_injective _ he)

/-- The stack invariant of pass 2: the stack holds exactly the still-visible
opening brackets, most recent first, their balances descending by one from
the current balance. -/
def StackOK (T : List Instruction) (idx : Nat) (stack : List Nat) : Prop :=
  ((stack.length : Int) = pbal T idx) ∧
  ∀ i, (hi : i < stack.length) → Vis T idx (stack.get ⟨i, hi⟩) ∧
    pbal T (stack.get ⟨i, hi⟩) = pbal T idx - 1 - i

theorem StackOK.flat {T : List Instruction} {idx : Nat} {stack : List Nat}
    (h : StackOK T idx stack) (hw : bwAt T idx = 0) :
    StackOK T (idx + 1) stack := by
  have hbal : pbal T (idx + 1) = pbal T idx := by rw [pbal_succ, hw]; ring
  refine ⟨by rw [hbal]; exact h.1, ?_⟩
  intro i hi
  obtain ⟨⟨hlt, hfwd, hvis⟩, hlev⟩ := h.2 i hi
  refine ⟨⟨by omega, hfwd, ?_⟩, by omega⟩
  intro m hm1 hm2
  rcases Nat.lt_or_ge m (idx + 1) with hm3 | hm3
  · exact hvis m hm1 (by omega)
  · have hmeq : m = idx + 1 := by omega
    rw [hmeq, hbal]
    exact hvis idx hlt (le_refl _)

theorem StackOK.push {T : List Instruction} {idx : Nat} {stack : List Nat}
    (h : StackOK T idx stack) (hw : IsFwdAt T idx) :
    StackOK T (idx + 1) (idx :: stack) := by
  have hbal : pbal T (idx + 1) = pbal T idx + 1 := by
    rw [pbal_succ, bwAt_fwd hw]
  have h1 := h.1
  constructor
  · simp only [List.length_cons]
    rw [hbal]
    push_cast
    omega
  · intro i hi
    match i with
    | 0 =>
      have hget : (idx :: stack).get ⟨0, hi⟩ = idx := rfl
      rw [hget]
      refine ⟨⟨by omega, hw, ?_⟩, by simp [hbal]⟩
      intro m hm1 hm2
      have hmeq : m = idx + 1 := by omega
      rw [hmeq, hbal]
      omega
    | i + 1 =>
      have hi' : i < stack.length := by
        simp only [List.length_cons] at hi
        omega
      obtain ⟨⟨hlt, hfwd, hvis⟩, hlev⟩ := h.2 i hi'
      have hget : (idx :: stack).get ⟨i + 1, hi⟩ = stack.get ⟨i, hi'⟩ := rfl
      rw [hget]
      refine ⟨⟨by omega, hfwd, ?_⟩, by rw [hbal]; push_cast; omega⟩
      intro m hm1 hm2
      rcases Nat.lt_or_ge m (idx + 1) with hm3 | hm3
      · exact hvis m hm1 (by omega)
      · have hmeq : m = idx + 1 := by omega
        rw [hmeq, hbal]
        have := hvis idx hlt (le_refl _)
        omega

theorem StackOK.pop {T : List Instruction} {idx t : Nat} {rest : List Nat}
    (h : StackOK T idx (t :: rest)) (hw : IsBackAt T idx) :
    StackOK T (idx + 1) rest := by
  have hbal : pbal T (idx + 1) = pbal T idx - 1 := by
    rw [pbal_succ, bwAt_back hw]
    ring
  have htop := h.2 0 (by simp)
  constructor
  · have := h.1
    simp only [List.length_cons] at this
    rw [hbal]
    push_cast at this ⊢
    omega
  · intro i hi
    have hi' : i + 1 < (t :: rest).length := by simp; omega
    obtain ⟨⟨hlt, hfwd, hvis⟩, hlev⟩ := h.2 (i + 1) hi'
    have hget : (t :: rest).get ⟨i + 1, hi'⟩ = rest.get ⟨i, hi⟩ := rfl
    rw [hget] at hlt hfwd hvis hlev
    refine ⟨⟨by omega, hfwd, ?_⟩, by rw [hbal]; push_cast at hlev ⊢; omega⟩
    intro m hm1 hm2
    rcases Nat.lt_or_ge m (idx + 1) with hm3 | hm3
    · exact hvis m hm1 (by omega)
    · have hmeq : m = idx + 1 := by omega
      rw [hmeq, hbal]
      push_cast at hlev ⊢
      omega

/-- At a closing bracket, the top of the pass-2 stack is its canonical
match. -/
theorem StackOK.top_matches {T : List Instruction} {idx t : Nat}
    {rest : List Nat} (h : StackOK T idx (t :: rest)) (hidx : idx < T.length)
    (hw : IsBackAt T idx) : Matches T t idx := by
  obtain ⟨⟨hlt, hfwd, hvis⟩, hlev⟩ := h.2 0 (by simp)
  refine ⟨hlt, hidx, hfwd, hw, ?_, hvis⟩
  rw [pbal_succ, bwAt_back hw]
  simp only [List.get] at hlev
  omega

/-- Master characterization of pass 2, by induction on the fuel of its
structural twin.  `A` is the current (partially rewritten) array, `T` the
original pass-1 output; along the run `A` agrees with `T` above `idx`, pairs
matched so far carry their distances, and the stack satisfies `StackOK`. -/
theorem pass2_spec_aux (T : List Instruction) :
    ∀ (fuel : Nat) (A : List Instruction) (idx : Nat) (stack : List Nat)
      (R : List Instruction),
      T.length - idx ≤ fuel →
      A.length = T.length →
      (∀ j, idx ≤ j → A[j]? = T[j]?) →
      (∀ a b, Matches T a b → b < idx →
        A[a]? = some (Instruction.JumpForwardsIfZero (b - a)) ∧
        A[b]? = some (Instruction.JumpBackwardsIfNotZero (b - a))) →
      (∀ j, j < idx → IsBackAt T j → ∃ a, Matches T a j) →
      (∀ j, j < idx → ¬(∃ b, b < idx ∧ Matches T j b) → ¬(∃ a, Matches T a j) →
        A[j]? = T[j]?) →
      StackOK T idx stack →
      pass2Fuel fuel A idx stack = TransformResult.ok R →
      (R.length = T.length ∧
       (∀ a b, Matches T a b →
         R[a]? = some (Instruction.JumpForwardsIfZero (b - a)) ∧
         R[b]? = some (Instruction.JumpBackwardsIfNotZero (b - a))) ∧
       (∀ j, j < T.length → IsBackAt T j → ∃ a, Matches T a j) ∧
       (∀ j, ¬(∃ b, Matches T j b) → ¬(∃ a, Matches T a j) → R[j]? = T[j]?)) := by
  intro fuel
  induction fuel with
  | zero =>
    intro A idx stack R hfuel hlen hagree hmatched hcloses hkeep _ hrun
    have hidx : T.length ≤ idx := by omega
    have hR : R = A := by
      simp only [pass2Fuel] at hrun
      exact (TransformResult.ok.injEq _ _ ▸ hrun).symm
    subst hR
    refine ⟨hlen, ?_, ?_, ?_⟩
    · intro a b hm
      exact hmatched a b hm (by have := hm.2.1; omega)
    · intro j hj hb
      exact hcloses j (by omega) hb
    · intro j hnb hna
      rcases Nat.lt_or_ge j idx with hj | hj
      · refine hkeep j hj ?_ hna
        rintro ⟨b, _, hmb⟩
        exact hnb ⟨b, hmb⟩
      · exact hagree j hj
  | succ fuel ih =>
    intro A idx stack R hfuel hlen hagree hmatched hcloses hkeep hstack hrun
    by_cases hidx : idx < T.length
    · have hidxA : idx < A.length := by omega
      obtain ⟨instr, hinstr⟩ : ∃ i, T[idx]? = some i :=
        ⟨T[idx], List.getElem?_eq_getElem hidx⟩
      have hAidx : A[idx]? = some instr := by rw [hagree idx (le_refl _), hinstr]
      simp only [pass2Fuel, if_pos hidxA, hAidx] at hrun
      cases instr with
      | JumpForwardsIfZero d =>
        have hfwd : IsFwdAt T idx := ⟨d, hinstr⟩
        by_cases hcap : stack.length ≥ 32
        · rw [if_pos hcap] at hrun
          exact absurd hrun (by simp)
        · rw [if_neg hcap] at hrun
          refine ih A (idx + 1) (idx :: stack) R (by omega) hlen ?_ ?_ ?_ ?_
            (hstack.push hfwd) hrun
          · intro j hj
            exact hagree j (by omega)
          · intro a b hm hb
            rcases Nat.lt_or_ge b idx with hb' | hb'
            · exact hmatched a b hm hb'
            · have hbeq : b = idx := by omega
              subst hbeq
              exact absurd hm.2.2.2.1 (fun hback => not_fwd_and_back hfwd hback)
          · intro j hj hback
            rcases Nat.lt_or_ge j idx with hj' | hj'
            · exact hcloses j hj' hback
            · have : j = idx := by omega
              subst this
              exact absurd hback (fun hb => not_fwd_and_back hfwd hb)
          · intro j hj hnb hna
            rcases Nat.lt_or_ge j idx with hj' | hj'
            · refine hkeep j hj' ?_ hna
              rintro ⟨b, hb, hmb⟩
              exact hnb ⟨b, by omega, hmb⟩
            · have : j = idx := by omega
              subst this
              exact hagree j (le_refl _)
      | JumpBackwardsIfNotZero d =>
        have hback : IsBackAt T idx := ⟨d, hinstr⟩
        cases stack with
        | nil => exact absurd hrun (by simp)
        | cons t rest =>
          have hmt : Matches T t idx := hstack.top_matches hidx hback
          have htlt : t < idx := hmt.1
          set dist := idx - t with hdist
          set A' := (A.set t (Instruction.JumpForwardsIfZero dist)).set idx
            (Instruction.JumpBackwardsIfNotZero dist) with hA'
          have hlen' : A'.length = T.length := by
            simp only [hA', List.length_set]
            exact hlen
          have hgetA' : ∀ j, j ≠ t → j ≠ idx → A'[j]? = A[j]? := by
            intro j hjt hji
            simp only [hA']
            rw [List.getElem?_set_ne (fun h => hji h.symm),
              List.getElem?_set_ne (fun h => hjt h.symm)]
          have hA't : A'[t]? = some (Instruction.JumpForwardsIfZero dist) := by
            simp only [hA']
            rw [List.getElem?_set_ne (by omega : idx ≠ t),
              List.getElem?_set_self (by omega : t < A.length)]
          have hA'i : A'[idx]? = some (Instruction.JumpBackwardsIfNotZero dist) := by
            simp only [hA']
            rw [List.getElem?_set_self]
            simp only [List.length_set]
            omega
          refine ih A' (idx + 1) rest R (by omega) hlen' ?_ ?_ ?_ ?_
            (hstack.pop hback) hrun
          · intro j hj
            rw [hgetA' j (by omega) (by omega)]
            exact hagree j (by omega)
          · intro a b hm hb
            by_cases hbeq : b = idx
            · subst hbeq
              have haeq : a = t := Matches.unique_left hm hmt
              subst haeq
              exact ⟨hA't, hA'i⟩
            · have hb' : b < idx := by omega
              have hat : a ≠ t := by
                intro h
                subst h
                exact hbeq (Matches.unique_right hm hmt)
              have hbt : b ≠ t := by
                intro h
                subst h
                exact not_fwd_and_back hmt.2.2.1 hm.2.2.2.1
              have hai : a ≠ idx := by have := hm.1; omega
              obtain ⟨h1, h2⟩ := hmatched a b hm hb'
              exact ⟨by rw [hgetA' a hat hai]; exact h1,
                by rw [hgetA' b hbt (by omega)]; exact h2⟩
          · intro j hj hbj
            rcases Nat.lt_or_ge j idx with hj' | hj'
            · exact hcloses j hj' hbj
            · have : j = idx := by omega
              subst this
              exact ⟨t, hmt⟩
          · intro j hj hnb hna
            by_cases hjt : j = t
            · subst hjt
              exact absurd ⟨idx, by omega, hmt⟩ hnb
            · by_cases hji : j = idx
              · subst hji
                exact absurd ⟨t, hmt⟩ hna
              · rw [hgetA' j hjt hji]
                refine hkeep j (by omega) ?_ hna
                rintro ⟨b, hb, hmb⟩
                exact hnb ⟨b, by omega, hmb⟩
      | IncrementPointer inc =>
        refine ih A (idx + 1) stack R (by omega) hlen
          (fun j hj => hagree j (by omega)) ?_ ?_ ?_
          (hstack.flat (by unfold bwAt; rw [hinstr]; rfl)) hrun
        · intro a b hm hb
          rcases Nat.lt_or_ge b idx with hb' | hb'
          · exact hmatched a b hm hb'
          · have : b = idx := by omega
            subst this
            obtain ⟨e, he⟩ := hm.2.2.2.1
            rw [hinstr] at he
            exact absurd he (by simp)
        · intro j hj hbj
          rcases Nat.lt_or_ge j idx with hj' | hj'
          · exact hcloses j hj' hbj
          · have : j = idx := by omega
            subst this
            obtain ⟨e, he⟩ := hbj
            rw [hinstr] at he
            exact absurd he (by simp)
        · intro j hj hnb hna
          rcases Nat.lt_or_ge j idx with hj' | hj'
          · refine hkeep j hj' ?_ hna
            rintro ⟨b, hb, hmb⟩
            exact hnb ⟨b, by omega, hmb⟩
          · have : j = idx := by omega
            subst this
            exact hagree j (le_refl _)
      | IncrementByte inc =>
        refine ih A (idx + 1) stack R (by omega) hlen
          (fun j hj => hagree j (by omega)) ?_ ?_ ?_
          (hstack.flat (by unfold bwAt; rw [hinstr]; rfl)) hrun
        · intro a b hm hb
          rcases Nat.lt_or_ge b idx with hb' | hb'
          · exact hmatched a b hm hb'
          · have : b = idx := by omega
            subst this
            obtain ⟨e, he⟩ := hm.2.2.2.1
            rw [hinstr] at he
            exact absurd he (by simp)
        · intro j hj hbj
          rcases Nat.lt_or_ge j idx with hj' | hj'
          · exact hcloses j hj' hbj
          · have : j = idx := by omega
            subst this
            obtain ⟨e, he⟩ := hbj
            rw [hinstr] at he
            exact absurd he (by simp)
        · intro j hj hnb hna
          rcases Nat.lt_or_ge j idx with hj' | hj'
          · refine hkeep j hj' ?_ hna
            rintro ⟨b, hb, hmb⟩
            exact hnb ⟨b, by omega, hmb⟩
          · have : j = idx := by omega
            subst this
            exact hagree j (le_refl _)
      | OutputByte =>
        refine ih A (idx + 1) stack R (by omega) hlen
          (fun j hj => hagree j (by omega)) ?_ ?_ ?_
          (hstack.flat (by unfold bwAt; rw [hinstr]; rfl)) hrun
        · intro a b hm hb
          rcases Nat.lt_or_ge b idx with hb' | hb'
          · exact hmatched a b hm hb'
          · have : b = idx := by omega
            subst this
            obtain ⟨e, he⟩ := hm.2.2.2.1
            rw [hinstr] at he
            exact absurd he (by simp)
        · intro j hj hbj
          rcases Nat.lt_or_ge j idx with hj' | hj'
          · exact hcloses j hj' hbj
          · have : j = idx := by omega
            subst this
            obtain ⟨e, he⟩ := hbj
            rw [hinstr] at he
            exact absurd he (by simp)
        · intro j hj hnb hna
          rcases Nat.lt_or_ge j idx with hj' | hj'
          · refine hkeep j hj' ?_ hna
            rintro ⟨b, hb, hmb⟩
            exact hnb ⟨b, by omega, hmb⟩
          · have : j = idx := by omega
            subst this
            exact hagree j (le_refl _)
      | ReadByte =>
        refine ih A (idx + 1) stack R (by omega) hlen
          (fun j hj => hagree j (by omega)) ?_ ?_ ?_
          (hstack.flat (by unfold bwAt; rw [hinstr]; rfl)) hrun
        · intro a b hm hb
          rcases Nat.lt_or_ge b idx with hb' | hb'
          · exact hmatched a b hm hb'
          · have : b = idx := by omega
            subst this
            obtain ⟨e, he⟩ := hm.2.2.2.1
            rw [hinstr] at he
            exact absurd he (by simp)
        · intro j hj hbj
          rcases Nat.lt_or_ge j idx with hj' | hj'
          · exact hcloses j hj' hbj
          · have : j = idx := by omega
            subst this
            obtain ⟨e, he⟩ := hbj
            rw [hinstr] at he
            exact absurd he (by simp)
        · intro j hj hnb hna
          rcases Nat.lt_or_ge j idx with hj' | hj'
          · refine hkeep j hj' ?_ hna
            rintro ⟨b, hb, hmb⟩
            exact hnb ⟨b, by omega, hmb⟩
          · have : j = idx := by omega
            subst this
            exact hagree j (le_refl _)
    · have hidxA : ¬ idx < A.length := by omega
      simp only [pass2Fuel, if_neg hidxA] at hrun
      have hR : R = A := by
        exact (TransformResult.ok.injEq _ _ ▸ hrun).symm
      subst hR
      refine ⟨hlen, ?_, ?_, ?_⟩
      · intro a b hm
        exact hmatched a b hm (by have := hm.2.1; omega)
      · intro j hj hb
        exact hcloses j (by omega) hb
      · intro j hnb hna
        rcases Nat.lt_or_ge j idx with hj | hj
        · refine hkeep j hj ?_ hna
          rintro ⟨b, _, hmb⟩
          exact hnb ⟨b, hmb⟩
        · exact hagree j hj

theorem pbal_zero (T : List Instruction) : pbal T 0 = 0 := rfl

/-- Characterization of a successful pass 2 in terms of canonical bracket
matching: every matched pair carries its distance on both ends, every closing
bracket is matched, and entries not participating in any pair are returned
unchanged. -/
theorem pass2_ok_spec {T R : List Instruction}
    (h : pass2 T 0 [] = TransformResult.ok R) :
    R.length = T.length ∧
    (∀ a b, Matches T a b →
      R[a]? = some (Instruction.JumpForwardsIfZero (b - a)) ∧
      R[b]? = some (Instruction.JumpBackwardsIfNotZero (b - a))) ∧
    (∀ j, j < T.length → IsBackAt T j → ∃ a, Matches T a j) ∧
    (∀ j, ¬(∃ b, Matches T j b) → ¬(∃ a, Matches T a j) → R[j]? = T[j]?) := by
  rw [pass2_eq_fuel T.length T 0 [] (by omega)] at h
  exact pass2_spec_aux T T.length T 0 [] R (by omega) rfl
    (fun j _ => rfl)
    (fun a b _ hb => absurd hb (by omega))
    (fun j hj _ => absurd hj (by omega))
    (fun j hj _ _ => absurd hj (by omega))
    ⟨by simp [pbal_zero], fun i hi => absurd hi (by simp)⟩
    h

/-- If every prefix balance of the current array is at most 32, pass 2 never
overflows its 32-entry bracket stack (it may still fail with the recoverable
`NoMatchingJump` error). -/
theorem pass2Fuel_no_panic :
    ∀ (fuel : Nat) (A : List Instruction) (idx : Nat) (stack : List Nat),
      ((stack.length : Int) = pbal A idx) →
      (∀ p, p ∈ stack → IsFwdAt A p) →
      (∀ k, k ≤ A.length → pbal A k ≤ 32) →
      pass2Fuel fuel A idx stack ≠ TransformResult.panicked := by
  intro fuel
  induction fuel with
  | zero => intro A idx stack _ _ _; simp [pass2Fuel]
  | succ fuel ih =>
    intro A idx stack hslen hsfwd hbound
    by_cases hidx : idx < A.length
    · obtain ⟨instr, hinstr⟩ : ∃ i, A[idx]? = some i :=
        ⟨A[idx], List.getElem?_eq_getElem hidx⟩
      simp only [pass2Fuel, if_pos hidx, hinstr]
      cases instr with
      | JumpForwardsIfZero d =>
        have hfwd : IsFwdAt A idx := ⟨d, hinstr⟩
        have hcap : ¬ stack.length ≥ 32 := by
          intro hge
          have h1 : pbal A (idx + 1) ≤ 32 := hbound (idx + 1) (by omega)
          have h2 : pbal A (idx + 1) = pbal A idx + 1 := by
            rw [pbal_succ, bwAt_fwd hfwd]
          omega
        rw [if_neg hcap]
        refine ih A (idx + 1) (idx :: stack) ?_ ?_ hbound
        · simp only [List.length_cons]
          rw [pbal_succ, bwAt_fwd hfwd]
          push_cast
          omega
        · intro p hp
          rcases List.mem_cons.mp hp with hpe | hpm
          · subst hpe; exact hfwd
          · exact hsfwd p hpm
      | JumpBackwardsIfNotZero d =>
        have hback : IsBackAt A idx := ⟨d, hinstr⟩
        cases stack with
        | nil => simp
        | cons t rest =>
          have htfwd : IsFwdAt A t := hsfwd t (List.mem_cons_self t rest)
          have htlen : t < A.length := by
            obtain ⟨e, he⟩ := htfwd
            exact (List.getElem?_eq_some_iff.mp he).1
          have htidx : t ≠ idx := fun h =>
            not_fwd_and_back (h ▸ htfwd) hback
          set dist := idx - t with hdist
          set A' := (A.set t (Instruction.JumpForwardsIfZero dist)).set idx
            (Instruction.JumpBackwardsIfNotZero dist) with hA'
          have hbw : ∀ j, bwAt A' j = bwAt A j := by
            intro j
            by_cases hjt : j = t
            · subst hjt
              unfold bwAt
              rw [show A'[j]? = some (Instruction.JumpForwardsIfZero dist) by
                simp only [hA']
                rw [List.getElem?_set_ne (fun h => htidx h.symm),
                  List.getElem?_set_self (by omega : j < A.length)]]
              obtain ⟨e, he⟩ := htfwd
              rw [he]
              rfl
            · by_cases hji : j = idx
              · subst hji
                unfold bwAt
                rw [show A'[j]? = some (Instruction.JumpBackwardsIfNotZero dist) by
                  simp only [hA']
                  rw [List.getElem?_set_self]
                  simp only [List.length_set]
                  omega]
                rw [hinstr]
                rfl
              · unfold bwAt
                rw [show A'[j]? = A[j]? by
                  simp only [hA']
                  rw [List.getElem?_set_ne (fun h => hji h.symm),
                    List.getElem?_set_ne (fun h => hjt h.symm)]]
          have hpb : ∀ k, pbal A' k = pbal A k := by
            intro k
            unfold pbal
            exact congrArg _ (List.map_congr_left (fun j _ => hbw j))
          have hlen' : A'.length = A.length := by
            simp only [hA', List.length_set]
          refine ih A' (idx + 1) rest ?_ ?_ ?_
          · rw [hpb, pbal_succ, bwAt_back hback]
            simp only [List.length_cons] at hslen
            push_cast at hslen ⊢
            omega
          · intro p hp
            have hpf : IsFwdAt A p := hsfwd p (List.mem_cons_of_mem t hp)
            by_cases hpt : p = t
            · subst hpt
              refine ⟨dist, ?_⟩
              simp only [hA']
              rw [List.getElem?_set_ne (fun h => htidx h.symm),
                List.getElem?_set_self (by omega : p < A.length)]
            · have hpi : p ≠ idx := fun h => not_fwd_and_back (h ▸ hpf) hback
              obtain ⟨e, he⟩ := hpf
              refine ⟨e, ?_⟩
              simp only [hA']
              rw [List.getElem?_set_ne (fun h => hpi h.symm),
                List.getElem?_set_ne (fun h => hpt h.symm)]
              exact he
          · intro k hk
            rw [hpb]
            exact hbound k (by omega)
      | IncrementPointer inc =>
        refine ih A (idx + 1) stack ?_ hsfwd hbound
        rw [pbal_succ]
        unfold bwAt
        rw [hinstr]
        simpa [bw] using hslen
      | IncrementByte inc =>
        refine ih A (idx + 1) stack ?_ hsfwd hbound
        rw [pbal_succ]
        unfold bwAt
        rw [hinstr]
        simpa [bw] using hslen
      | OutputByte =>
        refine ih A (idx + 1) stack ?_ hsfwd hbound
        rw [pbal_succ]
        unfold bwAt
        rw [hinstr]
        simpa [bw] using hslen
      | ReadByte =>
        refine ih A (idx + 1) stack ?_ hsfwd hbound
        rw [pbal_succ]
        unfold bwAt
        rw [hinstr]
        simpa [bw] using hslen
    · simp [pass2Fuel, if_neg hidx]

/-- pass 2 never panics when all prefix balances are at most 32. -/
theorem pass2_no_panic {T : List Instruction}
    (hbound : ∀ k, k ≤ T.length → pbal T k ≤ 32) :
    pass2 T 0 [] ≠ TransformResult.panicked := by
  rw [pass2_eq_fuel T.length T 0 [] (by omega)]
  exact pass2Fuel_no_panic T.length T 0 [] (by simp [pbal_zero])
    (fun p hp => absurd hp (List.not_mem_nil p)) hbound

end ir

/-! Bracket matching on the primitive instruction list, and soundness of the
runtime bracket scans of the direct interpreter with respect to it. -/

namespace brainfuck

/-- Bracket weight of a primitive instruction. -/
def bfw : Instruction → Int
  | Instruction.JumpForwardsIfZero => 1
  | Instruction.JumpBackwardsIfNotZero => -1
  | _ => 0

/-- Bracket weight at an index (0 outside the list). -/
def bwAt (P : List Instruction) (j : Nat) : Int :=
  match P[j]? with
  | some x => bfw x
  | none => 0

/-- Running bracket balance of the first `k` primitive instructions. -/
def pbal (P : List Instruction) (k : Nat) : Int :=
  ((List.range k).map (bwAt P)).sum

/-- Canonical bracket pairing on the primitive program. -/
def Matches (P : List Instruction) (a b : Nat) : Prop :=
  a < b ∧ b < P.length ∧ P[a]? = some Instruction.JumpForwardsIfZero ∧
    P[b]? = some Instruction.JumpBackwardsIfNotZero ∧
    pbal P (b + 1) = pbal P a ∧ ∀ m, a < m → m ≤ b → pbal P a < pbal P m

theorem pbal_succ_bf (P : List Instruction) (k : Nat) :
    pbal P (k + 1) = pbal P k + bwAt P k := by
  unfold pbal
  rw [List.range_succ, List.map_append, List.sum_append]
  simp

theorem bwAt_cases (P : List Instruction) (j : Nat) :
    bwAt P j = 1 ∧ P[j]? = some Instruction.JumpForwardsIfZero ∨
    bwAt P j = -1 ∧ P[j]? = some Instruction.JumpBackwardsIfNotZero ∨
    bwAt P j = 0 := by
  unfold bwAt
  cases hj : P[j]? with
  | none => right; right; rfl
  | some x => cases x <;> simp [bfw]

/-- Soundness of the forward bracket scan: a successful scan finds the
canonical match. -/
theorem scanForwardFuel_sound (P : List Instruction) (a : Nat)
    (ha : P[a]? = some Instruction.JumpForwardsIfZero) :
    ∀ (fuel : Nat) (jump : Nat) (opened : Int) (b : Nat),
      a ≤ jump →
      opened = pbal P (jump + 1) - pbal P a →
      0 < opened →
      (∀ m, a < m → m ≤ jump → pbal P a < pbal P (m + 1)) →
      scanForwardFuel P fuel jump opened = some b →
      Matches P a b := by
  intro fuel
  induction fuel with
  | zero => intro jump opened b _ _ _ _ h; simp [scanForwardFuel] at h
  | succ fuel ih =>
    intro jump opened b haj hop hpos hhist hscan
    simp only [scanForwardFuel] at hscan
    by_cases hend : jump + 1 ≥ P.length
    · rw [if_pos hend] at hscan
      exact absurd hscan (by simp)
    · rw [if_neg hend] at hscan
      have hlt : jump + 1 < P.length := by omega
      rw [List.getElem?_eq_getElem hlt] at hscan
      have hstep : pbal P (jump + 1 + 1) = pbal P (jump + 1) + bwAt P (jump + 1) :=
        pbal_succ_bf P (jump + 1)
      have key : ∀ o' : Int, o' = pbal P (jump + 1 + 1) - pbal P a →
          (if o' = 0 then some (jump + 1)
            else scanForwardFuel P fuel (jump + 1) o') = some b →
          Matches P a b := by
        intro o' ho' hscan2
        by_cases hzero : o' = 0
        · rw [if_pos hzero] at hscan2
          have hb : b = jump + 1 := (Option.some_injective _ hscan2).symm
          subst hb
          have hwb : bwAt P (jump + 1) = -opened := by omega
          have hback : P[jump + 1]? = some Instruction.JumpBackwardsIfNotZero := by
            rcases bwAt_cases P (jump + 1) with ⟨h1, _⟩ | ⟨_, h2⟩ | h3
            · omega
            · exact h2
            · omega
          refine ⟨by omega, hlt, ha, hback, by omega, ?_⟩
          intro m hm1 hm2
          rcases Nat.eq_or_lt_of_le hm1 with hm4 | hm4
          · rw [← hm4, pbal_succ_bf]
            unfold bwAt
            rw [ha]
            simp [bfw]
          · have := hhist (m - 1) (by omega) (by omega)
            have hmeq : m - 1 + 1 = m := by omega
            rw [hmeq] at this
            exact this
        · rw [if_neg hzero] at hscan2
          have hw3 : bwAt P (jump + 1) = 1 ∨ bwAt P (jump + 1) = -1 ∨
              bwAt P (jump + 1) = 0 := by
            rcases bwAt_cases P (jump + 1) with ⟨h1, _⟩ | ⟨h2, _⟩ | h3
            · exact Or.inl h1
            · exact Or.inr (Or.inl h2)
            · exact Or.inr (Or.inr h3)
          have hposnext : 0 < o' := by omega
          refine ih (jump + 1) o' b (by omega) ho' hposnext ?_ hscan2
          intro m hm1 hm2
          rcases Nat.lt_or_ge m (jump + 1) with hm3 | hm3
          · exact hhist m hm1 (by omega)
          · have hmeq : m = jump + 1 := by omega
            subst hmeq
            omega
      have hwj1 : ∀ v : Instruction, P[jump + 1] = v →
          bwAt P (jump + 1) = bfw v := by
        intro v hv
        unfold bwAt
        rw [List.getElem?_eq_getElem hlt, hv]
      revert hscan
      cases hxc : P[jump + 1] <;> intro hscan <;>
        refine key _ ?_ hscan <;>
        (dsimp only
         have hbw := hwj1 _ hxc
         simp only [bfw] at hbw
         omega)

/-- Soundness of the backward bracket scan. -/
theorem scanBackward_sound (P : List Instruction) (b : Nat)
    (hblen : b < P.length)
    (hb : P[b]? = some Instruction.JumpBackwardsIfNotZero) :
    ∀ (jump : Nat) (closed : Int) (a : Nat),
      jump ≤ b →
      closed = 1 + pbal P jump - pbal P b →
      0 < closed →
      (∀ m, jump ≤ m → m ≤ b - 1 → pbal P b ≤ pbal P m) →
      scanBackward P jump closed = some a →
      Matches P a b := by
  intro jump
  induction jump with
  | zero => intro closed a _ _ _ _ h; simp [scanBackward] at h
  | succ j ih =>
    intro closed a hjb hcl hpos hhist hscan
    simp only [scanBackward] at hscan
    have hjlt : j < P.length := by omega
    rw [dif_pos hjlt] at hscan
    have hstep : pbal P (j + 1) = pbal P j + bwAt P j := pbal_succ_bf P j
    have key : ∀ c' : Int, c' = 1 + pbal P j - pbal P b →
        (if c' = 0 then some j else scanBackward P j c') = some a →
        Matches P a b := by
      intro c' hc' hscan2
      by_cases hzero : c' = 0
      · rw [if_pos hzero] at hscan2
        have haj : a = j := (Option.some_injective _ hscan2).symm
        subst haj
        have hwj : bwAt P a = closed := by omega
        have hfwda : P[a]? = some Instruction.JumpForwardsIfZero := by
          rcases bwAt_cases P a with ⟨_, h1⟩ | ⟨h2, _⟩ | h3
          · exact h1
          · omega
          · omega
        have hbw : bwAt P b = -1 := by
          unfold bwAt
          rw [hb]
          rfl
        refine ⟨by omega, hblen, hfwda, hb, ?_, ?_⟩
        · rw [pbal_succ_bf, hbw]
          omega
        · intro m hm1 hm2
          rcases Nat.lt_or_ge m b with hm3 | hm3
          · have := hhist m (by omega) (by omega)
            omega
          · have hmeq : m = b := by omega
            subst hmeq
            omega
      · rw [if_neg hzero] at hscan2
        have hw3 : bwAt P j = 1 ∨ bwAt P j = -1 ∨ bwAt P j = 0 := by
          rcases bwAt_cases P j with ⟨h1, _⟩ | ⟨h2, _⟩ | h3
          · exact Or.inl h1
          · exact Or.inr (Or.inl h2)
          · exact Or.inr (Or.inr h3)
        have hposnext : 0 < c' := by omega
        refine ih c' a (by omega) hc' hposnext ?_ hscan2
        intro m hm1 hm2
        rcases Nat.lt_or_ge m (j + 1) with hm3 | hm3
        · have hmeq : m = j := by omega
          subst hmeq
          omega
        · exact hhist m (by omega) hm2
    have hwj1 : ∀ v : Instruction, P.get ⟨j, hjlt⟩ = v → bwAt P j = bfw v := by
      intro v hv
      unfold bwAt
      rw [List.getElem?_eq_getElem hjlt]
      exact congrArg bfw hv
    revert hscan
    cases hxc : P.get ⟨j, hjlt⟩ <;> intro hscan
    case JumpForwardsIfZero =>
      have hbw := hwj1 _ hxc
      simp only [bfw] at hbw
      exact key (closed - 1) (by omega) hscan
    case JumpBackwardsIfNotZero =>
      have hbw := hwj1 _ hxc
      simp only [bfw] at hbw
      exact key (closed + 1) (by omega) hscan
    all_goals
      (have hbw := hwj1 _ hxc
       simp only [bfw] at hbw
       exact key closed (by omega) hscan)

/-- Cell delta of a primitive instruction. -/
def byteDelta : Instruction → Int
  | Instruction.IncrementByte => 1
  | Instruction.DecrementByte => -1
  | _ => 0

/-- Pointer delta of a primitive instruction. -/
def ptrDelta : Instruction → Int
  | Instruction.IncrementPointer => 1
  | Instruction.DecrementPointer => -1
  | _ => 0

/-- Sum of a per-instruction weight over the first `m` entries. -/
def wsum (f : Instruction → Int) (Q : List Instruction) (m : Nat) : Int :=
  ((List.range m).map (fun j =>
    match Q[j]? with
    | some x => f x
    | none => 0)).sum

theorem wsum_zero (f : Instruction → Int) (Q : List Instruction) :
    wsum f Q 0 = 0 := rfl

theorem wsum_succ (f : Instruction → Int) (Q : List Instruction) (m : Nat) :
    wsum f Q (m + 1) = wsum f Q m +
      (match Q[m]? with
        | some x => f x
        | none => 0) := by
  unfold wsum
  rw [List.range_succ, List.map_append, List.sum_append]
  simp

theorem wsum_cons (f : Instruction → Int) (y : Instruction)
    (ys : List Instruction) (m : Nat) :
    wsum f (y :: ys) (m + 1) = f y + wsum f ys m := by
  induction m with
  | zero => simp [wsum_succ, wsum_zero]
  | succ m ih =>
    rw [wsum_succ, ih, wsum_succ]
    rw [List.getElem?_cons_succ]
    ring

end brainfuck

namespace ir

/-- wrap32 is the identity on the i32 range. -/
theorem wrap32_id {x : Int} (h1 : -(2 ^ 31) ≤ x) (h2 : x < 2 ^ 31) :
    wrap32 x = x := by
  unfold wrap32
  omega

/-- wrap32 shifts its argument by a multiple of 2^32. -/
theorem wrap32_shift (x : Int) : ∃ t, wrap32 x = x + 2 ^ 32 * t := by
  refine ⟨-((x + 2 ^ 31) / 2 ^ 32), ?_⟩
  unfold wrap32
  omega

/-- Number of instructions consumed by `aggregate_byte_ops`. -/
def consumedB (agg : Int) (l : List brainfuck.Instruction) : Nat :=
  l.length - (aggregate_byte_ops agg l).2.length

/-- Number of instructions consumed by `aggregate_pointer_ops`. -/
def consumedP (agg : Int) (l : List brainfuck.Instruction) : Nat :=
  l.length - (aggregate_pointer_ops agg l).2.length

theorem aggregate_byte_ops_consumed (agg : Int) (l : List brainfuck.Instruction) :
    ∀ m, m < consumedB agg l →
      l[m]? = some brainfuck.Instruction.IncrementByte ∨
      l[m]? = some brainfuck.Instruction.DecrementByte := by
  induction l generalizing agg with
  | nil => intro m hm; simp [consumedB, aggregate_byte_ops] at hm
  | cons y ys ih =>
    intro m hm
    by_cases h1 : y = brainfuck.Instruction.IncrementByte
    · subst h1
      cases m with
      | zero => exact Or.inl (List.getElem?_cons_zero)
      | succ m =>
        rw [List.getElem?_cons_succ]
        refine ih (wrap32 (agg + 1)) m ?_
        have hsl := aggregate_byte_ops_sublist (wrap32 (agg + 1)) ys
        simp [consumedB, aggregate_byte_ops] at hm ⊢
        omega
    · by_cases h2 : y = brainfuck.Instruction.DecrementByte
      · subst h2
        cases m with
        | zero => exact Or.inr (List.getElem?_cons_zero)
        | succ m =>
          rw [List.getElem?_cons_succ]
          refine ih (wrap32 (agg - 1)) m ?_
          have hsl := aggregate_byte_ops_sublist (wrap32 (agg - 1)) ys
          simp [consumedB, aggregate_byte_ops] at hm ⊢
          omega
      · exfalso
        simp [consumedB, aggregate_byte_ops, h1, h2] at hm

theorem aggregate_pointer_ops_consumed (agg : Int)
    (l : List brainfuck.Instruction) :
    ∀ m, m < consumedP agg l →
      l[m]? = some brainfuck.Instruction.IncrementPointer ∨
      l[m]? = some brainfuck.Instruction.DecrementPointer := by
  induction l generalizing agg with
  | nil => intro m hm; simp [consumedP, aggregate_pointer_ops] at hm
  | cons y ys ih =>
    intro m hm
    by_cases h1 : y = brainfuck.Instruction.IncrementPointer
    · subst h1
      cases m with
      | zero => exact Or.inl (List.getElem?_cons_zero)
      | succ m =>
        rw [List.getElem?_cons_succ]
        refine ih (wrap32 (agg + 1)) m ?_
        have hsl := aggregate_pointer_ops_sublist (wrap32 (agg + 1)) ys
        simp [consumedP, aggregate_pointer_ops] at hm ⊢
        omega
    · by_cases h2 : y = brainfuck.Instruction.DecrementPointer
      · subst h2
        cases m with
        | zero => exact Or.inr (List.getElem?_cons_zero)
        | succ m =>
          rw [List.getElem?_cons_succ]
          refine ih (wrap32 (agg - 1)) m ?_
          have hsl := aggregate_pointer_ops_sublist (wrap32 (agg - 1)) ys
          simp [consumedP, aggregate_pointer_ops] at hm ⊢
          omega
      · exfalso
        simp [consumedP, aggregate_pointer_ops, h1, h2] at hm

theorem consumedB_cons_inc (agg : Int) (ys : List brainfuck.Instruction) :
    consumedB agg (brainfuck.Instruction.IncrementByte :: ys) =
      1 + consumedB (wrap32 (agg + 1)) ys := by
  have := aggregate_byte_ops_sublist (wrap32 (agg + 1)) ys
  simp [consumedB, aggregate_byte_ops]
  omega

theorem consumedB_cons_dec (agg : Int) (ys : List brainfuck.Instruction) :
    consumedB agg (brainfuck.Instruction.DecrementByte :: ys) =
      1 + consumedB (wrap32 (agg - 1)) ys := by
  have := aggregate_byte_ops_sublist (wrap32 (agg - 1)) ys
  simp [consumedB, aggregate_byte_ops]
  omega

theorem consumedP_cons_inc (agg : Int) (ys : List brainfuck.Instruction) :
    consumedP agg (brainfuck.Instruction.IncrementPointer :: ys) =
      1 + consumedP (wrap32 (agg + 1)) ys := by
  have := aggregate_pointer_ops_sublist (wrap32 (agg + 1)) ys
  simp [consumedP, aggregate_pointer_ops]
  omega

theorem consumedP_cons_dec (agg : Int) (ys : List brainfuck.Instruction) :
    consumedP agg (brainfuck.Instruction.DecrementPointer :: ys) =
      1 + consumedP (wrap32 (agg - 1)) ys := by
  have := aggregate_pointer_ops_sublist (wrap32 (agg - 1)) ys
  simp [consumedP, aggregate_pointer_ops]
  omega

/-- Truncating the input after at least the consumed run leaves the
aggregated value unchanged and truncates the leftover. -/
theorem aggregate_byte_ops_take (agg : Int) (l : List brainfuck.Instruction)
    (r : Nat) :
    aggregate_byte_ops agg (l.take (consumedB agg l + r)) =
      ((aggregate_byte_ops agg l).1, (aggregate_byte_ops agg l).2.take r) := by
  induction l generalizing agg with
  | nil => simp [consumedB, aggregate_byte_ops]
  | cons y ys ih =>
    by_cases h1 : y = brainfuck.Instruction.IncrementByte
    · subst h1
      have hres : ∀ L, aggregate_byte_ops agg
          (brainfuck.Instruction.IncrementByte :: L) =
          aggregate_byte_ops (wrap32 (agg + 1)) L := fun L => by
        simp [aggregate_byte_ops]
      rw [consumedB_cons_inc]
      have h2 : 1 + consumedB (wrap32 (agg + 1)) ys + r =
          (consumedB (wrap32 (agg + 1)) ys + r) + 1 := by omega
      rw [h2, List.take_succ_cons, hres, hres]
      exact ih (wrap32 (agg + 1))
    · by_cases h2 : y = brainfuck.Instruction.DecrementByte
      · subst h2
        have hres : ∀ L, aggregate_byte_ops agg
            (brainfuck.Instruction.DecrementByte :: L) =
            aggregate_byte_ops (wrap32 (agg - 1)) L := fun L => by
          simp [aggregate_byte_ops]
        rw [consumedB_cons_dec]
        have h3 : 1 + consumedB (wrap32 (agg - 1)) ys + r =
            (consumedB (wrap32 (agg - 1)) ys + r) + 1 := by omega
        rw [h3, List.take_succ_cons, hres, hres]
        exact ih (wrap32 (agg - 1))
      · have hres : ∀ L, aggregate_byte_ops agg (y :: L) = (agg, y :: L) :=
          fun L => by simp [aggregate_byte_ops, h1, h2]
        have hc0 : consumedB agg (y :: ys) = 0 := by
          simp [consumedB, hres]
        rw [hc0]
        cases r with
        | zero =>
          rw [Nat.zero_add, List.take_zero, hres]
          simp [aggregate_byte_ops]
        | succ r =>
          rw [Nat.zero_add, List.take_succ_cons, hres, hres]
          simp

theorem aggregate_pointer_ops_take (agg : Int) (l : List brainfuck.Instruction)
    (r : Nat) :
    aggregate_pointer_ops agg (l.take (consumedP agg l + r)) =
      ((aggregate_pointer_ops agg l).1,
        (aggregate_pointer_ops agg l).2.take r) := by
  induction l generalizing agg with
  | nil => simp [consumedP, aggregate_pointer_ops]
  | cons y ys ih =>
    by_cases h1 : y = brainfuck.Instruction.IncrementPointer
    · subst h1
      have hres : ∀ L, aggregate_pointer_ops agg
          (brainfuck.Instruction.IncrementPointer :: L) =
          aggregate_pointer_ops (wrap32 (agg + 1)) L := fun L => by
        simp [aggregate_pointer_ops]
      rw [consumedP_cons_inc]
      have h2 : 1 + consumedP (wrap32 (agg + 1)) ys + r =
          (consumedP (wrap32 (agg + 1)) ys + r) + 1 := by omega
      rw [h2, List.take_succ_cons, hres, hres]
      exact ih (wrap32 (agg + 1))
    · by_cases h2 : y = brainfuck.Instruction.DecrementPointer
      · subst h2
        have hres : ∀ L, aggregate_pointer_ops agg
            (brainfuck.Instruction.DecrementPointer :: L) =
            aggregate_pointer_ops (wrap32 (agg - 1)) L := fun L => by
          simp [aggregate_pointer_ops]
        rw [consumedP_cons_dec]
        have h3 : 1 + consumedP (wrap32 (agg - 1)) ys + r =
            (consumedP (wrap32 (agg - 1)) ys + r) + 1 := by omega
        rw [h3, List.take_succ_cons, hres, hres]
        exact ih (wrap32 (agg - 1))
      · have hres : ∀ L, aggregate_pointer_ops agg (y :: L) = (agg, y :: L) :=
          fun L => by simp [aggregate_pointer_ops, h1, h2]
        have hc0 : consumedP agg (y :: ys) = 0 := by
          simp [consumedP, hres]
        rw [hc0]
        cases r with
        | zero =>
          rw [Nat.zero_add, List.take_zero, hres]
          simp [aggregate_pointer_ops]
        | succ r =>
          rw [Nat.zero_add, List.take_succ_cons, hres, hres]
          simp

/-- On a list of pure byte operations the aggregation consumes everything. -/
theorem aggregate_byte_ops_all (agg : Int) (l : List brainfuck.Instruction)
    (h : ∀ m, m < l.length →
      l[m]? = some brainfuck.Instruction.IncrementByte ∨
      l[m]? = some brainfuck.Instruction.DecrementByte) :
    (aggregate_byte_ops agg l).2 = [] := by
  induction l generalizing agg with
  | nil => simp [aggregate_byte_ops]
  | cons y ys ih =>
    have h0 := h 0 (by simp)
    rw [List.getElem?_cons_zero] at h0
    have hys : ∀ m, m < ys.length →
        ys[m]? = some brainfuck.Instruction.IncrementByte ∨
        ys[m]? = some brainfuck.Instruction.DecrementByte := by
      intro m hm
      have := h (m + 1) (by simp; omega)
      rwa [List.getElem?_cons_succ] at this
    rcases h0 with h0 | h0 <;>
      (rcases Option.some_injective _ h0 with h0
       subst h0
       simp [aggregate_byte_ops]
       exact ih _ hys)

theorem aggregate_pointer_ops_all (agg : Int) (l : List brainfuck.Instruction)
    (h : ∀ m, m < l.length →
      l[m]? = some brainfuck.Instruction.IncrementPointer ∨
      l[m]? = some brainfuck.Instruction.DecrementPointer) :
    (aggregate_pointer_ops agg l).2 = [] := by
  induction l generalizing agg with
  | nil => simp [aggregate_pointer_ops]
  | cons y ys ih =>
    have h0 := h 0 (by simp)
    rw [List.getElem?_cons_zero] at h0
    have hys : ∀ m, m < ys.length →
        ys[m]? = some brainfuck.Instruction.IncrementPointer ∨
        ys[m]? = some brainfuck.Instruction.DecrementPointer := by
      intro m hm
      have := h (m + 1) (by simp; omega)
      rwa [List.getElem?_cons_succ] at this
    rcases h0 with h0 | h0 <;>
      (rcases Option.some_injective _ h0 with h0
       subst h0
       simp [aggregate_pointer_ops]
       exact ih _ hys)

/-- The aggregated i32 value is the true signed sum of the consumed run up to
a multiple of 2^32. -/
theorem aggregate_byte_ops_mod (agg : Int) (l : List brainfuck.Instruction) :
    ∃ t, (aggregate_byte_ops agg l).1 =
      agg + brainfuck.wsum brainfuck.byteDelta l (consumedB agg l) + 2 ^ 32 * t := by
  induction l generalizing agg with
  | nil =>
    exact ⟨0, by simp [aggregate_byte_ops, consumedB, brainfuck.wsum_zero]⟩
  | cons y ys ih =>
    by_cases h1 : y = brainfuck.Instruction.IncrementByte
    · subst h1
      rw [consumedB_cons_inc]
      have hc : 1 + consumedB (wrap32 (agg + 1)) ys =
          consumedB (wrap32 (agg + 1)) ys + 1 := by omega
      rw [hc, brainfuck.wsum_cons]
      obtain ⟨t, ht⟩ := ih (wrap32 (agg + 1))
      obtain ⟨u, hu⟩ := wrap32_shift (agg + 1)
      refine ⟨t + u, ?_⟩
      have hres : (aggregate_byte_ops agg
          (brainfuck.Instruction.IncrementByte :: ys)).1 =
          (aggregate_byte_ops (wrap32 (agg + 1)) ys).1 := by
        simp [aggregate_byte_ops]
      rw [hres, ht, hu]
      simp [brainfuck.byteDelta]
      ring
    · by_cases h2 : y = brainfuck.Instruction.DecrementByte
      · subst h2
        rw [consumedB_cons_dec]
        have hc : 1 + consumedB (wrap32 (agg - 1)) ys =
            consumedB (wrap32 (agg - 1)) ys + 1 := by omega
        rw [hc, brainfuck.wsum_cons]
        obtain ⟨t, ht⟩ := ih (wrap32 (agg - 1))
        obtain ⟨u, hu⟩ := wrap32_shift (agg - 1)
        refine ⟨t + u, ?_⟩
        have hres : (aggregate_byte_ops agg
            (brainfuck.Instruction.DecrementByte :: ys)).1 =
            (aggregate_byte_ops (wrap32 (agg - 1)) ys).1 := by
          simp [aggregate_byte_ops, h1]
        rw [hres, ht, hu]
        simp [brainfuck.byteDelta]
        ring
      · have hc0 : consumedB agg (y :: ys) = 0 := by
          simp [consumedB, aggregate_byte_ops, h1, h2]
        refine ⟨0, ?_⟩
        rw [hc0, brainfuck.wsum_zero]
        simp [aggregate_byte_ops, h1, h2]

/-- When all the partial sums stay inside the i32 range no wraparound occurs
and the aggregated value is exactly the signed sum of the consumed run. -/
theorem aggregate_pointer_ops_exact (agg : Int) (l : List brainfuck.Instruction)
    (hbound : ∀ m, m ≤ consumedP agg l →
      -(2 ^ 31) ≤ agg + brainfuck.wsum brainfuck.ptrDelta l m ∧
      agg + brainfuck.wsum brainfuck.ptrDelta l m < 2 ^ 31) :
    (aggregate_pointer_ops agg l).1 =
      agg + brainfuck.wsum brainfuck.ptrDelta l (consumedP agg l) := by
  induction l generalizing agg with
  | nil => simp [aggregate_pointer_ops, consumedP, brainfuck.wsum_zero]
  | cons y ys ih =>
    by_cases h1 : y = brainfuck.Instruction.IncrementPointer
    · subst h1
      have hcons := consumedP_cons_inc agg ys
      have hw1 : brainfuck.wsum brainfuck.ptrDelta
          (brainfuck.Instruction.IncrementPointer :: ys) 1 = 1 := by
        rw [show (1 : Nat) = 0 + 1 from rfl, brainfuck.wsum_cons,
          brainfuck.wsum_zero]
        simp [brainfuck.ptrDelta]
      have hb1 := hbound 1 (by omega)
      rw [hw1] at hb1
      have hid : wrap32 (agg + 1) = agg + 1 := wrap32_id (by omega) (by omega)
      have hres : (aggregate_pointer_ops agg
          (brainfuck.Instruction.IncrementPointer :: ys)).1 =
          (aggregate_pointer_ops (wrap32 (agg + 1)) ys).1 := by
        simp [aggregate_pointer_ops]
      rw [hres, hcons]
      have hc : 1 + consumedP (wrap32 (agg + 1)) ys =
          consumedP (wrap32 (agg + 1)) ys + 1 := by omega
      rw [hc, brainfuck.wsum_cons]
      have hih := ih (wrap32 (agg + 1)) ?_
      · rw [hih, hid]
        simp [brainfuck.ptrDelta]
        ring
      · intro m hm
        have := hbound (m + 1) (by omega)
        rw [brainfuck.wsum_cons] at this
        rw [hid]
        simp [brainfuck.ptrDelta] at this ⊢
        omega
    · by_cases h2 : y = brainfuck.Instruction.DecrementPointer
      · subst h2
        have hcons := consumedP_cons_dec agg ys
        have hw1 : brainfuck.wsum brainfuck.ptrDelta
            (brainfuck.Instruction.DecrementPointer :: ys) 1 = -1 := by
          rw [show (1 : Nat) = 0 + 1 from rfl, brainfuck.wsum_cons,
            brainfuck.wsum_zero]
          simp [brainfuck.ptrDelta]
        have hb1 := hbound 1 (by omega)
        rw [hw1] at hb1
        have hid : wrap32 (agg - 1) = agg - 1 := wrap32_id (by omega) (by omega)
        have hres : (aggregate_pointer_ops agg
            (brainfuck.Instruction.DecrementPointer :: ys)).1 =
            (aggregate_pointer_ops (wrap32 (agg - 1)) ys).1 := by
          simp [aggregate_pointer_ops, h1]
        rw [hres, hcons]
        have hc : 1 + consumedP (wrap32 (agg - 1)) ys =
            consumedP (wrap32 (agg - 1)) ys + 1 := by omega
        rw [hc, brainfuck.wsum_cons]
        have hih := ih (wrap32 (agg - 1)) ?_
        · rw [hih, hid]
          simp [brainfuck.ptrDelta]
          ring
        · intro m hm
          have := hbound (m + 1) (by omega)
          rw [brainfuck.wsum_cons] at this
          rw [hid]
          simp [brainfuck.ptrDelta] at this ⊢
          omega
      · have hc0 : consumedP agg (y :: ys) = 0 := by
          simp [consumedP, aggregate_pointer_ops, h1, h2]
        rw [hc0, brainfuck.wsum_zero]
        simp [aggregate_pointer_ops, h1, h2]

/-- The leftover of byte aggregation is the input with the consumed run
dropped. -/
theorem aggregate_byte_ops_drop (agg : Int) (l : List brainfuck.Instruction) :
    (aggregate_byte_ops agg l).2 = l.drop (consumedB agg l) := by
  induction l generalizing agg with
  | nil => simp [aggregate_byte_ops, consumedB]
  | cons y ys ih =>
    by_cases h1 : y = brainfuck.Instruction.IncrementByte
    · subst h1
      rw [consumedB_cons_inc]
      have h2 : 1 + consumedB (wrap32 (agg + 1)) ys =
          consumedB (wrap32 (agg + 1)) ys + 1 := by omega
      rw [h2, List.drop_succ_cons]
      simpa [aggregate_byte_ops] using ih (wrap32 (agg + 1))
    · by_cases h2 : y = brainfuck.Instruction.DecrementByte
      · subst h2
        rw [consumedB_cons_dec]
        have h3 : 1 + consumedB (wrap32 (agg - 1)) ys =
            consumedB (wrap32 (agg - 1)) ys + 1 := by omega
        rw [h3, List.drop_succ_cons]
        simpa [aggregate_byte_ops] using ih (wrap32 (agg - 1))
      · have hc0 : consumedB agg (y :: ys) = 0 := by
          simp [consumedB, aggregate_byte_ops, h1, h2]
        rw [hc0]
        simp [aggregate_byte_ops, h1, h2]

theorem aggregate_pointer_ops_drop (agg : Int) (l : List brainfuck.Instruction) :
    (aggregate_pointer_ops agg l).2 = l.drop (consumedP agg l) := by
  induction l generalizing agg with
  | nil => simp [aggregate_pointer_ops, consumedP]
  | cons y ys ih =>
    by_cases h1 : y = brainfuck.Instruction.IncrementPointer
    · subst h1
      rw [consumedP_cons_inc]
      have h2 : 1 + consumedP (wrap32 (agg + 1)) ys =
          consumedP (wrap32 (agg + 1)) ys + 1 := by omega
      rw [h2, List.drop_succ_cons]
      simpa [aggregate_pointer_ops] using ih (wrap32 (agg + 1))
    · by_cases h2 : y = brainfuck.Instruction.DecrementPointer
      · subst h2
        rw [consumedP_cons_dec]
        have h3 : 1 + consumedP (wrap32 (agg - 1)) ys =
            consumedP (wrap32 (agg - 1)) ys + 1 := by omega
        rw [h3, List.drop_succ_cons]
        simpa [aggregate_pointer_ops] using ih (wrap32 (agg - 1))
      · have hc0 : consumedP agg (y :: ys) = 0 := by
          simp [consumedP, aggregate_pointer_ops, h1, h2]
        rw [hc0]
        simp [aggregate_pointer_ops, h1, h2]

theorem pass1_nil : pass1 [] = [] := by
  rw [pass1.eq_def]

theorem pass1_cons_incByte (rest : List brainfuck.Instruction) :
    pass1 (brainfuck.Instruction.IncrementByte :: rest) =
      Instruction.IncrementByte (wrap32 (1 + (aggregate_byte_ops 0 rest).1)) ::
        pass1 (aggregate_byte_ops 0 rest).2 := by
  rw [pass1.eq_def]

theorem pass1_cons_decByte (rest : List brainfuck.Instruction) :
    pass1 (brainfuck.Instruction.DecrementByte :: rest) =
      Instruction.IncrementByte (wrap32 (-1 + (aggregate_byte_ops 0 rest).1)) ::
        pass1 (aggregate_byte_ops 0 rest).2 := by
  rw [pass1.eq_def]

theorem pass1_cons_incPtr (rest : List brainfuck.Instruction) :
    pass1 (brainfuck.Instruction.IncrementPointer :: rest) =
      Instruction.IncrementPointer (wrap32 (1 + (aggregate_pointer_ops 0 rest).1)) ::
        pass1 (aggregate_pointer_ops 0 rest).2 := by
  rw [pass1.eq_def]

theorem pass1_cons_decPtr (rest : List brainfuck.Instruction) :
    pass1 (brainfuck.Instruction.DecrementPointer :: rest) =
      Instruction.IncrementPointer (wrap32 (-1 + (aggregate_pointer_ops 0 rest).1)) ::
        pass1 (aggregate_pointer_ops 0 rest).2 := by
  rw [pass1.eq_def]

theorem pass1_cons_out (rest : List brainfuck.Instruction) :
    pass1 (brainfuck.Instruction.OutputByte :: rest) =
      Instruction.OutputByte :: pass1 rest := by
  rw [pass1.eq_def]

theorem pass1_cons_in (rest : List brainfuck.Instruction) :
    pass1 (brainfuck.Instruction.ReadByte :: rest) =
      Instruction.ReadByte :: pass1 rest := by
  rw [pass1.eq_def]

theorem pass1_cons_fwd (rest : List brainfuck.Instruction) :
    pass1 (brainfuck.Instruction.JumpForwardsIfZero :: rest) =
      Instruction.JumpForwardsIfZero 0 :: pass1 rest := by
  rw [pass1.eq_def]

theorem pass1_cons_back (rest : List brainfuck.Instruction) :
    pass1 (brainfuck.Instruction.JumpBackwardsIfNotZero :: rest) =
      Instruction.JumpBackwardsIfNotZero 0 :: pass1 rest := by
  rw [pass1.eq_def]

/-- Description of the first fusion run of a nonempty primitive program: its
kind, its entries, and how the payload of the emitted IR instruction relates
to the signed sum of the run (exactly for pointer runs whose partial sums are
small, modulo 256 for cell runs). -/
def RunContent (Q : List brainfuck.Instruction) (k : Nat) (i : Instruction) :
    Prop :=
  (∃ w, i = Instruction.IncrementByte w ∧
    (∀ m, m < k → Q[m]? = some brainfuck.Instruction.IncrementByte ∨
      Q[m]? = some brainfuck.Instruction.DecrementByte) ∧
    w % 256 = brainfuck.wsum brainfuck.byteDelta Q k % 256) ∨
  (∃ w, i = Instruction.IncrementPointer w ∧
    (∀ m, m < k → Q[m]? = some brainfuck.Instruction.IncrementPointer ∨
      Q[m]? = some brainfuck.Instruction.DecrementPointer) ∧
    ((∀ m, m ≤ k → -60000 ≤ brainfuck.wsum brainfuck.ptrDelta Q m ∧
        brainfuck.wsum brainfuck.ptrDelta Q m ≤ 60000) →
      w = brainfuck.wsum brainfuck.ptrDelta Q k)) ∨
  (k = 1 ∧ Q[0]? = some brainfuck.Instruction.OutputByte ∧
    i = Instruction.OutputByte) ∨
  (k = 1 ∧ Q[0]? = some brainfuck.Instruction.ReadByte ∧
    i = Instruction.ReadByte) ∨
  (k = 1 ∧ Q[0]? = some brainfuck.Instruction.JumpForwardsIfZero ∧
    i = Instruction.JumpForwardsIfZero 0) ∨
  (k = 1 ∧ Q[0]? = some brainfuck.Instruction.JumpBackwardsIfNotZero ∧
    i = Instruction.JumpBackwardsIfNotZero 0)

/-- Splitting off the first fusion run of a nonempty program: pass 1 turns it
into a single IR instruction, compositionally with any truncation at or
beyond the run. -/
theorem pass1_run_split (Q : List brainfuck.Instruction) (hne : Q ≠ []) :
    ∃ (k : Nat) (i : Instruction),
      1 ≤ k ∧ k ≤ Q.length ∧
      (∀ r, pass1 (Q.take (k + r)) = i :: pass1 ((Q.drop k).take r)) ∧
      (∀ q, 1 ≤ q → q ≤ k →
        ∃ j, pass1 (Q.take q) = [j] ∧ bw j = bw i) ∧
      RunContent Q k i := by
  obtain ⟨x, rest, rfl⟩ : ∃ x rest, Q = x :: rest := by
    cases Q with
    | nil => exact absurd rfl hne
    | cons x rest => exact ⟨x, rest, rfl⟩
  cases x with
  | IncrementByte =>
    set p := aggregate_byte_ops 0 rest with hp
    set c := consumedB 0 rest with hc
    refine ⟨1 + c, Instruction.IncrementByte (wrap32 (1 + p.1)), by omega, ?_, ?_, ?_, ?_⟩
    · have : c ≤ rest.length := by
        rw [hc]
        unfold consumedB
        omega
      simp
      omega
    · intro r
      have h1 : 1 + c + r = (c + r) + 1 := by omega
      rw [h1, List.take_succ_cons, pass1_cons_incByte,
        aggregate_byte_ops_take 0 rest r]
      have h2 : (brainfuck.Instruction.IncrementByte :: rest).drop (1 + c) =
          rest.drop c := by
        rw [show 1 + c = c + 1 from by omega, List.drop_succ_cons]
      rw [h2, ← aggregate_byte_ops_drop]
    · intro q hq1 hq2
      obtain ⟨q', rfl⟩ : ∃ q', q = q' + 1 := ⟨q - 1, by omega⟩
      rw [List.take_succ_cons, pass1_cons_incByte]
      have hall : (aggregate_byte_ops 0 (rest.take q')).2 = [] := by
        refine aggregate_byte_ops_all 0 _ ?_
        intro m hm
        have hmlt : m < q' := by
          have := List.length_take_le q' rest
          omega
        rw [List.getElem?_take_of_lt hmlt]
        exact aggregate_byte_ops_consumed 0 rest m (by omega)
      rw [hall, pass1_nil]
      exact ⟨_, rfl, rfl⟩
    · left
      obtain ⟨t, ht⟩ := aggregate_byte_ops_mod 0 rest
      rw [← hp, ← hc] at ht
      obtain ⟨u, hu⟩ := wrap32_shift (1 + p.1)
      refine ⟨wrap32 (1 + p.1), rfl, ?_, ?_⟩
      · intro m hm
        cases m with
        | zero => exact Or.inl List.getElem?_cons_zero
        | succ m =>
          rw [List.getElem?_cons_succ]
          exact aggregate_byte_ops_consumed 0 rest m (by omega)
      · rw [show 1 + c = c + 1 from by omega, brainfuck.wsum_cons]
        rw [hu, ht]
        simp [brainfuck.byteDelta]
        omega
  | DecrementByte =>
    set p := aggregate_byte_ops 0 rest with hp
    set c := consumedB 0 rest with hc
    refine ⟨1 + c, Instruction.IncrementByte (wrap32 (-1 + p.1)), by omega, ?_, ?_, ?_, ?_⟩
    · have : c ≤ rest.length := by
        rw [hc]
        unfold consumedB
        omega
      simp
      omega
    · intro r
      have h1 : 1 + c + r = (c + r) + 1 := by omega
      rw [h1, List.take_succ_cons, pass1_cons_decByte,
        aggregate_byte_ops_take 0 rest r]
      have h2 : (brainfuck.Instruction.DecrementByte :: rest).drop (1 + c) =
          rest.drop c := by
        rw [show 1 + c = c + 1 from by omega, List.drop_succ_cons]
      rw [h2, ← aggregate_byte_ops_drop]
    · intro q hq1 hq2
      obtain ⟨q', rfl⟩ : ∃ q', q = q' + 1 := ⟨q - 1, by omega⟩
      rw [List.take_succ_cons, pass1_cons_decByte]
      have hall : (aggregate_byte_ops 0 (rest.take q')).2 = [] := by
        refine aggregate_byte_ops_all 0 _ ?_
        intro m hm
        have hmlt : m < q' := by
          have := List.length_take_le q' rest
          omega
        rw [List.getElem?_take_of_lt hmlt]
        exact aggregate_byte_ops_consumed 0 rest m (by omega)
      rw [hall, pass1_nil]
      exact ⟨_, rfl, rfl⟩
    · left
      obtain ⟨t, ht⟩ := aggregate_byte_ops_mod 0 rest
      rw [← hp, ← hc] at ht
      obtain ⟨u, hu⟩ := wrap32_shift (-1 + p.1)
      refine ⟨wrap32 (-1 + p.1), rfl, ?_, ?_⟩
      · intro m hm
        cases m with
        | zero => exact Or.inr List.getElem?_cons_zero
        | succ m =>
          rw [List.getElem?_cons_succ]
          exact aggregate_byte_ops_consumed 0 rest m (by omega)
      · rw [show 1 + c = c + 1 from by omega, brainfuck.wsum_cons]
        rw [hu, ht]
        simp [brainfuck.byteDelta]
        omega
  | IncrementPointer =>
    set p := aggregate_pointer_ops 0 rest with hp
    set c := consumedP 0 rest with hc
    refine ⟨1 + c, Instruction.IncrementPointer (wrap32 (1 + p.1)), by omega, ?_, ?_, ?_, ?_⟩
    · have : c ≤ rest.length := by
        rw [hc]
        unfold consumedP
        omega
      simp
      omega
    · intro r
      have h1 : 1 + c + r = (c + r) + 1 := by omega
      rw [h1, List.take_succ_cons, pass1_cons_incPtr,
        aggregate_pointer_ops_take 0 rest r]
      have h2 : (brainfuck.Instruction.IncrementPointer :: rest).drop (1 + c) =
          rest.drop c := by
        rw [show 1 + c = c + 1 from by omega, List.drop_succ_cons]
      rw [h2, ← aggregate_pointer_ops_drop]
    · intro q hq1 hq2
      obtain ⟨q', rfl⟩ : ∃ q', q = q' + 1 := ⟨q - 1, by omega⟩
      rw [List.take_succ_cons, pass1_cons_incPtr]
      have hall : (aggregate_pointer_ops 0 (rest.take q')).2 = [] := by
        refine aggregate_pointer_ops_all 0 _ ?_
        intro m hm
        have hmlt : m < q' := by
          have := List.length_take_le q' rest
          omega
        rw [List.getElem?_take_of_lt hmlt]
        exact aggregate_pointer_ops_consumed 0 rest m (by omega)
      rw [hall, pass1_nil]
      exact ⟨_, rfl, rfl⟩
    · right; left
      refine ⟨wrap32 (1 + p.1), rfl, ?_, ?_⟩
      · intro m hm
        cases m with
        | zero => exact Or.inl List.getElem?_cons_zero
        | succ m =>
          rw [List.getElem?_cons_succ]
          exact aggregate_pointer_ops_consumed 0 rest m (by omega)
      · intro hbound
        have hd0 : brainfuck.wsum brainfuck.ptrDelta
            (brainfuck.Instruction.IncrementPointer :: rest) (c + 1) =
            1 + brainfuck.wsum brainfuck.ptrDelta rest c := by
          rw [brainfuck.wsum_cons]
          simp [brainfuck.ptrDelta]
        have hexact : p.1 = brainfuck.wsum brainfuck.ptrDelta rest c := by
          rw [hp, hc]
          have := aggregate_pointer_ops_exact 0 rest ?_
          · rw [this]
            ring
          · intro m hm
            have h2 := hbound (m + 1) (by omega)
            rw [brainfuck.wsum_cons] at h2
            simp only [brainfuck.ptrDelta] at h2
            omega
        have hk := hbound (1 + c) (le_refl _)
        rw [show 1 + c = c + 1 from by omega] at hk ⊢
        rw [hd0] at hk
        rw [hd0, hexact]
        exact wrap32_id (by omega) (by omega)
  | DecrementPointer =>
    set p := aggregate_pointer_ops 0 rest with hp
    set c := consumedP 0 rest with hc
    refine ⟨1 + c, Instruction.IncrementPointer (wrap32 (-1 + p.1)), by omega, ?_, ?_, ?_, ?_⟩
    · have : c ≤ rest.length := by
        rw [hc]
        unfold consumedP
        omega
      simp
      omega
    · intro r
      have h1 : 1 + c + r = (c + r) + 1 := by omega
      rw [h1, List.take_succ_cons, pass1_cons_decPtr,
        aggregate_pointer_ops_take 0 rest r]
      have h2 : (brainfuck.Instruction.DecrementPointer :: rest).drop (1 + c) =
          rest.drop c := by
        rw [show 1 + c = c + 1 from by omega, List.drop_succ_cons]
      rw [h2, ← aggregate_pointer_ops_drop]
    · intro q hq1 hq2
      obtain ⟨q', rfl⟩ : ∃ q', q = q' + 1 := ⟨q - 1, by omega⟩
      rw [List.take_succ_cons, pass1_cons_decPtr]
      have hall : (aggregate_pointer_ops 0 (rest.take q')).2 = [] := by
        refine aggregate_pointer_ops_all 0 _ ?_
        intro m hm
        have hmlt : m < q' := by
          have := List.length_take_le q' rest
          omega
        rw [List.getElem?_take_of_lt hmlt]
        exact aggregate_pointer_ops_consumed 0 rest m (by omega)
      rw [hall, pass1_nil]
      exact ⟨_, rfl, rfl⟩
    · right; left
      refine ⟨wrap32 (-1 + p.1), rfl, ?_, ?_⟩
      · intro m hm
        cases m with
        | zero => exact Or.inr List.getElem?_cons_zero
        | succ m =>
          rw [List.getElem?_cons_succ]
          exact aggregate_pointer_ops_consumed 0 rest m (by omega)
      · intro hbound
        have hd0 : brainfuck.wsum brainfuck.ptrDelta
            (brainfuck.Instruction.DecrementPointer :: rest) (c + 1) =
            -1 + brainfuck.wsum brainfuck.ptrDelta rest c := by
          rw [brainfuck.wsum_cons]
          simp [brainfuck.ptrDelta]
        have hexact : p.1 = brainfuck.wsum brainfuck.ptrDelta rest c := by
          rw [hp, hc]
          have := aggregate_pointer_ops_exact 0 rest ?_
          · rw [this]
            ring
          · intro m hm
            have h2 := hbound (m + 1) (by omega)
            rw [brainfuck.wsum_cons] at h2
            simp only [brainfuck.ptrDelta] at h2
            omega
        have hk := hbound (1 + c) (le_refl _)
        rw [show 1 + c = c + 1 from by omega] at hk ⊢
        rw [hd0] at hk
        rw [hd0, hexact]
        exact wrap32_id (by omega) (by omega)
  | OutputByte =>
    refine ⟨1, Instruction.OutputByte, le_refl _, by simp, ?_, ?_, ?_⟩
    · intro r
      rw [show 1 + r = r + 1 from by omega, List.take_succ_cons, pass1_cons_out]
      rfl
    · intro q hq1 hq2
      have : q = 1 := by omega
      subst this
      rw [show (1 : Nat) = 0 + 1 from rfl, List.take_succ_cons, List.take_zero,
        pass1_cons_out, pass1_nil]
      exact ⟨_, rfl, rfl⟩
    · right; right; left
      exact ⟨rfl, List.getElem?_cons_zero, rfl⟩
  | ReadByte =>
    refine ⟨1, Instruction.ReadByte, le_refl _, by simp, ?_, ?_, ?_⟩
    · intro r
      rw [show 1 + r = r + 1 from by omega, List.take_succ_cons, pass1_cons_in]
      rfl
    · intro q hq1 hq2
      have : q = 1 := by omega
      subst this
      rw [show (1 : Nat) = 0 + 1 from rfl, List.take_succ_cons, List.take_zero,
        pass1_cons_in, pass1_nil]
      exact ⟨_, rfl, rfl⟩
    · right; right; right; left
      exact ⟨rfl, List.getElem?_cons_zero, rfl⟩
  | JumpForwardsIfZero =>
    refine ⟨1, Instruction.JumpForwardsIfZero 0, le_refl _, by simp, ?_, ?_, ?_⟩
    · intro r
      rw [show 1 + r = r + 1 from by omega, List.take_succ_cons, pass1_cons_fwd]
      rfl
    · intro q hq1 hq2
      have : q = 1 := by omega
      subst this
      rw [show (1 : Nat) = 0 + 1 from rfl, List.take_succ_cons, List.take_zero,
        pass1_cons_fwd, pass1_nil]
      exact ⟨_, rfl, rfl⟩
    · right; right; right; right; left
      exact ⟨rfl, List.getElem?_cons_zero, rfl⟩
  | JumpBackwardsIfNotZero =>
    refine ⟨1, Instruction.JumpBackwardsIfNotZero 0, le_refl _, by simp, ?_, ?_, ?_⟩
    · intro r
      rw [show 1 + r = r + 1 from by omega, List.take_succ_cons, pass1_cons_back]
      rfl
    · intro q hq1 hq2
      have : q = 1 := by omega
      subst this
      rw [show (1 : Nat) = 0 + 1 from rfl, List.take_succ_cons, List.take_zero,
        pass1_cons_back, pass1_nil]
      exact ⟨_, rfl, rfl⟩
    · right; right; right; right; right
      exact ⟨rfl, List.getElem?_cons_zero, rfl⟩

/-- Index map from primitive positions to IR positions: the number of IR
instructions pass 1 generates for the first `q` primitive instructions. -/
def bmap (P : List brainfuck.Instruction) (q : Nat) : Nat :=
  (pass1 (P.take q)).length

/-- `q` is a fusion-run boundary: pass 1 treats the program
compositionally at `q`. -/
def Boundary (P : List brainfuck.Instruction) (q : Nat) : Prop :=
  ∀ r, pass1 (P.take (q + r)) = pass1 (P.take q) ++ pass1 ((P.drop q).take r)

theorem boundary_zero (P : List brainfuck.Instruction) : Boundary P 0 := by
  intro r
  simp [pass1_nil]

theorem bmap_zero (P : List brainfuck.Instruction) : bmap P 0 = 0 := by
  simp [bmap, pass1_nil]

theorem bmap_length (P : List brainfuck.Instruction) :
    bmap P P.length = (pass1 P).length := by
  unfold bmap
  rw [List.take_length]

/-- Balance of the first `q` entries vanishes when every entry there has
weight 0. -/
theorem brainfuck.pbal_flat (P : List brainfuck.Instruction) (q : Nat)
    (h : ∀ m, m < q → brainfuck.bwAt P m = 0) : brainfuck.pbal P q = 0 := by
  induction q with
  | zero => rfl
  | succ q ih =>
    rw [brainfuck.pbal_succ_bf, h q (by omega), ih (fun m hm => h m (by omega))]
    ring

theorem brainfuck.pbal_split (P : List brainfuck.Instruction) (k r : Nat) :
    brainfuck.pbal P (k + r) =
      brainfuck.pbal P k + brainfuck.pbal (P.drop k) r := by
  induction r with
  | zero => simp [brainfuck.pbal]
  | succ r ih =>
    have h1 : k + (r + 1) = (k + r) + 1 := by omega
    rw [h1, brainfuck.pbal_succ_bf, brainfuck.pbal_succ_bf, ih]
    have h2 : brainfuck.bwAt P (k + r) = brainfuck.bwAt (P.drop k) r := by
      unfold brainfuck.bwAt
      rw [List.getElem?_drop]
    rw [h2]
    ring

theorem pbal_cons (i : Instruction) (L : List Instruction) (m : Nat) :
    pbal (i :: L) (m + 1) = bw i + pbal L m := by
  induction m with
  | zero =>
    rw [pbal_succ]
    unfold bwAt
    simp [pbal_zero]
  | succ m ih =>
    rw [pbal_succ, ih, pbal_succ]
    have h2 : bwAt (i :: L) (m + 1) = bwAt L m := by
      unfold bwAt
      rw [List.getElem?_cons_succ]
    rw [h2]
    ring

/-- Transport of `bmap` across a leading fusion run. -/
theorem bmap_run (P : List brainfuck.Instruction) (k : Nat) (i : Instruction)
    (hrun : ∀ r, pass1 (P.take (k + r)) = i :: pass1 ((P.drop k).take r))
    (r : Nat) : bmap P (k + r) = 1 + bmap (P.drop k) r := by
  unfold bmap
  rw [hrun r]
  simp
  omega

/-- Transport of `Boundary` across a leading fusion run. -/
theorem boundary_run (P : List brainfuck.Instruction) (k : Nat)
    (i : Instruction)
    (hrun : ∀ r, pass1 (P.take (k + r)) = i :: pass1 ((P.drop k).take r))
    (q : Nat) (hB : Boundary (P.drop k) q) : Boundary P (k + q) := by
  intro r
  have h1 : k + q + r = k + (q + r) := by omega
  rw [h1, hrun (q + r), hB r, hrun q]
  rw [List.drop_drop]
  simp

/-- `bmap` of any position inside the leading run (strictly past its start)
is 1. -/
theorem bmap_mid (P : List brainfuck.Instruction) (k : Nat) (i : Instruction)
    (hmid : ∀ q, 1 ≤ q → q ≤ k → ∃ j, pass1 (P.take q) = [j] ∧ bw j = bw i)
    (q : Nat) (hq1 : 1 ≤ q) (hq2 : q ≤ k) : bmap P q = 1 := by
  obtain ⟨j, hj, _⟩ := hmid q hq1 hq2
  unfold bmap
  rw [hj]
  rfl

theorem bmap_mono_aux (n : Nat) :
    ∀ (P : List brainfuck.Instruction), P.length = n →
      ∀ q q', q ≤ q' → bmap P q ≤ bmap P q' := by
  induction n using Nat.strong_induction_on with
  | _ n ih =>
    intro P hlen q q' hqq
    cases hP : P with
    | nil =>
      subst hP
      simp [bmap]
    | cons x rest =>
      have hne : P ≠ [] := by rw [hP]; simp
      rw [← hP]
      obtain ⟨k, i, hk1, hk2, hrun, hmid, _⟩ := pass1_run_split P (by rw [hP]; simp)
      rcases Nat.lt_or_ge q' (k + 1) with hq' | hq'
      · -- both within the run (q ≤ q' ≤ k)
        rcases Nat.eq_zero_or_pos q with hq0 | hq0
        · subst hq0
          rw [bmap_zero]
          omega
        · rw [bmap_mid P k i hmid q hq0 (by omega),
            bmap_mid P k i hmid q' (by omega) (by omega)]
      · rcases Nat.lt_or_ge q (k + 1) with hq | hq
        · -- q within the run, q' beyond
          obtain ⟨r', rfl⟩ : ∃ r', q' = k + r' := ⟨q' - k, by omega⟩
          rw [bmap_run P k i hrun r']
          rcases Nat.eq_zero_or_pos q with hq0 | hq0
          · subst hq0
            rw [bmap_zero]
            omega
          · rw [bmap_mid P k i hmid q hq0 (by omega)]
            omega
        · obtain ⟨r1, rfl⟩ : ∃ r1, q = k + r1 := ⟨q - k, by omega⟩
          obtain ⟨r2, rfl⟩ : ∃ r2, q' = k + r2 := ⟨q' - k, by omega⟩
          rw [bmap_run P k i hrun r1, bmap_run P k i hrun r2]
          have hdec : (P.drop k).length < n := by
            rw [List.length_drop]
            omega
          have := ih (P.drop k).length hdec (P.drop k) rfl r1 r2 (by omega)
          omega

/-- `bmap` is monotone. -/
theorem bmap_mono (P : List brainfuck.Instruction) :
    ∀ q q', q ≤ q' → bmap P q ≤ bmap P q' :=
  bmap_mono_aux P.length P rfl

theorem pbal_commute_aux (n : Nat) :
    ∀ (P : List brainfuck.Instruction), P.length = n →
      ∀ q, q ≤ P.length → pbal (pass1 P) (bmap P q) = brainfuck.pbal P q := by
  induction n using Nat.strong_induction_on with
  | _ n ih =>
    intro P hlen q hq
    by_cases hP : P = []
    · subst hP
      have : q = 0 := by simpa using hq
      subst this
      rw [bmap_zero]
      rfl
    · obtain ⟨k, i, hk1, hk2, hrun, hmid, hcontent⟩ := pass1_run_split P hP
      have hT : pass1 P = i :: pass1 (P.drop k) := by
        have := hrun P.length
        rwa [List.take_of_length_le (by omega),
          List.take_of_length_le (by rw [List.length_drop]; omega)] at this
      have hw0 : brainfuck.pbal P k = bw i := by
        rcases hcontent with ⟨w, hi, hent, _⟩ | ⟨w, hi, hent, _⟩ |
          ⟨hk, h0, hi⟩ | ⟨hk, h0, hi⟩ | ⟨hk, h0, hi⟩ | ⟨hk, h0, hi⟩
        · subst hi
          rw [brainfuck.pbal_flat P k]
          · rfl
          · intro m hm
            unfold brainfuck.bwAt
            rcases hent m hm with he | he <;> rw [he] <;> rfl
        · subst hi
          rw [brainfuck.pbal_flat P k]
          · rfl
          · intro m hm
            unfold brainfuck.bwAt
            rcases hent m hm with he | he <;> rw [he] <;> rfl
        · subst hi hk
          rw [show (1 : Nat) = 0 + 1 from rfl, brainfuck.pbal_succ_bf]
          unfold brainfuck.bwAt
          rw [h0]
          rfl
        · subst hi hk
          rw [show (1 : Nat) = 0 + 1 from rfl, brainfuck.pbal_succ_bf]
          unfold brainfuck.bwAt
          rw [h0]
          rfl
        · subst hi hk
          rw [show (1 : Nat) = 0 + 1 from rfl, brainfuck.pbal_succ_bf]
          unfold brainfuck.bwAt
          rw [h0]
          rfl
        · subst hi hk
          rw [show (1 : Nat) = 0 + 1 from rfl, brainfuck.pbal_succ_bf]
          unfold brainfuck.bwAt
          rw [h0]
          rfl
      have hwflat : ∀ m, m < k → brainfuck.bwAt P m = 0 ∨ k = 1 := by
        intro m hm
        rcases hcontent with ⟨w, hi, hent, _⟩ | ⟨w, hi, hent, _⟩ |
          ⟨hk, _, _⟩ | ⟨hk, _, _⟩ | ⟨hk, _, _⟩ | ⟨hk, _, _⟩
        · left
          unfold brainfuck.bwAt
          rcases hent m hm with he | he <;> rw [he] <;> rfl
        · left
          unfold brainfuck.bwAt
          rcases hent m hm with he | he <;> rw [he] <;> rfl
        · right; exact hk
        · right; exact hk
        · right; exact hk
        · right; exact hk
      rcases Nat.lt_or_ge q (k + 1) with hqk | hqk
      · rcases Nat.eq_zero_or_pos q with hq0 | hq0
        · subst hq0
          rw [bmap_zero]
          rfl
        · rw [bmap_mid P k i hmid q hq0 (by omega)]
          rw [hT, show (1 : Nat) = 0 + 1 from rfl, pbal_cons, pbal_zero]
          -- primitive side: if the run is flat, balance is 0 = bw i; if the
          -- run is a bracket (k = 1, q = 1), balance is the bracket weight
          rcases Nat.eq_or_lt_of_le (show q ≤ k by omega) with hqe | hql
          · rw [hqe, hw0]
            ring
          · have hflat : ∀ m, m < q → brainfuck.bwAt P m = 0 := by
              intro m hm
              rcases hwflat m (by omega) with h | h
              · exact h
              · omega
            rw [brainfuck.pbal_flat P q hflat]
            have : brainfuck.pbal P k = 0 := by
              refine brainfuck.pbal_flat P k ?_
              intro m hm
              rcases hwflat m hm with h | h
              · exact h
              · omega
            rw [this] at hw0
            rw [← hw0]
            ring
      · obtain ⟨r, rfl⟩ : ∃ r, q = k + r := ⟨q - k, by omega⟩
        rw [bmap_run P k i hrun r, hT]
        rw [show 1 + bmap (P.drop k) r = bmap (P.drop k) r + 1 from by omega,
          pbal_cons]
        have hdec : (P.drop k).length < n := by
          rw [List.length_drop]
          omega
        rw [ih (P.drop k).length hdec (P.drop k) rfl r
          (by rw [List.length_drop]; omega)]
        rw [brainfuck.pbal_split P k r, hw0]

/-- The commuting square between primitive and IR prefix balances. -/
theorem pbal_commute (P : List brainfuck.Instruction) :
    ∀ q, q ≤ P.length → pbal (pass1 P) (bmap P q) = brainfuck.pbal P q :=
  pbal_commute_aux P.length P rfl

theorem bmap_surj_aux (n : Nat) :
    ∀ (P : List brainfuck.Instruction), P.length = n →
      ∀ m, m ≤ (pass1 P).length →
        ∃ q, q ≤ P.length ∧ bmap P q = m ∧
          pbal (pass1 P) m = brainfuck.pbal P q := by
  induction n using Nat.strong_induction_on with
  | _ n ih =>
    intro P hlen m hm
    by_cases hP : P = []
    · subst hP
      have : m = 0 := by simpa [pass1_nil] using hm
      subst this
      exact ⟨0, by simp, bmap_zero [], rfl⟩
    · obtain ⟨k, i, hk1, hk2, hrun, hmid, hcontent⟩ := pass1_run_split P hP
      cases m with
      | zero =>
        refine ⟨0, by omega, bmap_zero P, ?_⟩
        rw [pbal_zero]
        rfl
      | succ m =>
        have hT : pass1 P = i :: pass1 (P.drop k) := by
          have := hrun P.length
          rwa [List.take_of_length_le (by omega),
            List.take_of_length_le (by rw [List.length_drop]; omega)] at this
        have hm' : m ≤ (pass1 (P.drop k)).length := by
          rw [hT] at hm
          simpa using hm
        have hdec : (P.drop k).length < n := by
          rw [List.length_drop]
          omega
        obtain ⟨q', hq'len, hq'map, hq'bal⟩ :=
          ih (P.drop k).length hdec (P.drop k) rfl m hm'
        refine ⟨k + q', by rw [List.length_drop] at hq'len; omega, ?_, ?_⟩
        · rw [bmap_run P k i hrun q', hq'map]
          omega
        · have h1 := pbal_commute P (k + q')
            (by rw [List.length_drop] at hq'len; omega)
          rw [bmap_run P k i hrun q', hq'map] at h1
          rw [show 1 + m = m + 1 from by omega] at h1
          rw [show (m + 1 : Nat) = m + 1 from rfl, h1]

/-- Every IR index is the image under `bmap` of a primitive boundary with the
same prefix balance. -/
theorem bmap_surj (P : List brainfuck.Instruction) :
    ∀ m, m ≤ (pass1 P).length →
      ∃ q, q ≤ P.length ∧ bmap P q = m ∧
        pbal (pass1 P) m = brainfuck.pbal P q :=
  bmap_surj_aux P.length P rfl

theorem getElem_some_lt {α : Type} (l : List α) {q : Nat} {x : α}
    (h : l[q]? = some x) : q < l.length := by
  by_contra hc
  rw [List.getElem?_eq_none (by omega)] at h
  exact Option.noConfusion h

theorem bracket_boundary_aux (n : Nat) :
    ∀ (P : List brainfuck.Instruction), P.length = n → ∀ q,
      (P[q]? = some brainfuck.Instruction.JumpForwardsIfZero ∨
       P[q]? = some brainfuck.Instruction.JumpBackwardsIfNotZero) →
      Boundary P q ∧ Boundary P (q + 1) ∧
      bmap P (q + 1) = bmap P q + 1 ∧
      (P[q]? = some brainfuck.Instruction.JumpForwardsIfZero →
        (pass1 P)[bmap P q]? = some (Instruction.JumpForwardsIfZero 0)) ∧
      (P[q]? = some brainfuck.Instruction.JumpBackwardsIfNotZero →
        (pass1 P)[bmap P q]? = some (Instruction.JumpBackwardsIfNotZero 0)) := by
  induction n using Nat.strong_induction_on with
  | _ n ih =>
    intro P hlen q hq
    have hqlen : q < P.length := by
      rcases hq with h | h <;> exact getElem_some_lt P h
    have hPne : P ≠ [] := by
      intro hnil
      rw [hnil] at hqlen
      simp at hqlen
    obtain ⟨k, i, hk1, hk2, hrun, hmid, hcontent⟩ := pass1_run_split P hPne
    have hT : pass1 P = i :: pass1 (P.drop k) := by
      have := hrun P.length
      rwa [List.take_of_length_le (by omega),
        List.take_of_length_le (by rw [List.length_drop]; omega)] at this
    rcases Nat.lt_or_ge q k with hqk | hqk
    · -- inside the leading run: the run must be a single bracket at q = 0
      rcases hcontent with ⟨w, hi, hent, _⟩ | ⟨w, hi, hent, _⟩ |
        ⟨hk, h0, hi⟩ | ⟨hk, h0, hi⟩ | ⟨hk, h0, hi⟩ | ⟨hk, h0, hi⟩
      · rcases hq with h | h <;> rcases hent q hqk with he | he <;>
          rw [he] at h <;> simp at h
      · rcases hq with h | h <;> rcases hent q hqk with he | he <;>
          rw [he] at h <;> simp at h
      · subst hk
        have hq0 : q = 0 := by omega
        subst hq0
        rcases hq with h | h <;> rw [h0] at h <;> simp at h
      · subst hk
        have hq0 : q = 0 := by omega
        subst hq0
        rcases hq with h | h <;> rw [h0] at h <;> simp at h
      · -- opening bracket run: k = 1, i = fwd 0
        subst hk
        subst hi
        have hq0 : q = 0 := by omega
        subst hq0
        refine ⟨boundary_zero P, ?_, ?_, ?_, ?_⟩
        · exact boundary_run P 1 (Instruction.JumpForwardsIfZero 0) hrun 0
            (boundary_zero _)
        · have hb : bmap P 1 = 1 + bmap (P.drop 1) 0 :=
            bmap_run P 1 (Instruction.JumpForwardsIfZero 0) hrun 0
          rw [bmap_zero] at hb
          have h0' : bmap P 0 = 0 := bmap_zero P
          show bmap P 1 = bmap P 0 + 1
          omega
        · intro _
          rw [bmap_zero, hT]
          exact List.getElem?_cons_zero
        · intro hb
          rw [h0] at hb
          simp at hb
      · -- closing bracket run: k = 1, i = back 0
        subst hk
        subst hi
        have hq0 : q = 0 := by omega
        subst hq0
        refine ⟨boundary_zero P, ?_, ?_, ?_, ?_⟩
        · exact boundary_run P 1 (Instruction.JumpBackwardsIfNotZero 0) hrun 0
            (boundary_zero _)
        · have hb : bmap P 1 = 1 + bmap (P.drop 1) 0 :=
            bmap_run P 1 (Instruction.JumpBackwardsIfNotZero 0) hrun 0
          rw [bmap_zero] at hb
          have h0' : bmap P 0 = 0 := bmap_zero P
          show bmap P 1 = bmap P 0 + 1
          omega
        · intro hf
          rw [h0] at hf
          simp at hf
        · intro _
          rw [bmap_zero, hT]
          exact List.getElem?_cons_zero
    · -- past the leading run: recurse on the tail
      obtain ⟨q', rfl⟩ : ∃ q', q = k + q' := ⟨q - k, by omega⟩
      have hq' : (P.drop k)[q']? = some brainfuck.Instruction.JumpForwardsIfZero ∨
          (P.drop k)[q']? = some brainfuck.Instruction.JumpBackwardsIfNotZero := by
        rcases hq with h | h
        · left; rw [List.getElem?_drop]; exact h
        · right; rw [List.getElem?_drop]; exact h
      have hdec : (P.drop k).length < n := by
        rw [List.length_drop]
        omega
      obtain ⟨hB1, hB2, hbm, hf, hb⟩ := ih (P.drop k).length hdec (P.drop k) rfl q' hq'
      have e1 : bmap P (k + q') = 1 + bmap (P.drop k) q' := bmap_run P k i hrun q'
      refine ⟨boundary_run P k i hrun q' hB1, ?_, ?_, ?_, ?_⟩
      · exact boundary_run P k i hrun (q' + 1) hB2
      · have e2 : bmap P (k + q' + 1) = 1 + bmap (P.drop k) (q' + 1) :=
          bmap_run P k i hrun (q' + 1)
        omega
      · intro hfwd
        have hfd : (P.drop k)[q']? = some brainfuck.Instruction.JumpForwardsIfZero := by
          rw [List.getElem?_drop]; exact hfwd
        have hgot := hf hfd
        rw [e1, hT, show 1 + bmap (P.drop k) q' = bmap (P.drop k) q' + 1 from by omega,
          List.getElem?_cons_succ]
        exact hgot
      · intro hback
        have hbd : (P.drop k)[q']? = some brainfuck.Instruction.JumpBackwardsIfNotZero := by
          rw [List.getElem?_drop]; exact hback
        have hgot := hb hbd
        rw [e1, hT, show 1 + bmap (P.drop k) q' = bmap (P.drop k) q' + 1 from by omega,
          List.getElem?_cons_succ]
        exact hgot

/-- Bracket positions of the primitive program are run boundaries; `bmap`
advances by exactly one across them, and the IR entry there is the
corresponding 0-distance placeholder. -/
theorem bracket_boundary (P : List brainfuck.Instruction) (q : Nat)
    (hq : P[q]? = some brainfuck.Instruction.JumpForwardsIfZero ∨
      P[q]? = some brainfuck.Instruction.JumpBackwardsIfNotZero) :
    Boundary P q ∧ Boundary P (q + 1) ∧
    bmap P (q + 1) = bmap P q + 1 ∧
    (P[q]? = some brainfuck.Instruction.JumpForwardsIfZero →
      (pass1 P)[bmap P q]? = some (Instruction.JumpForwardsIfZero 0)) ∧
    (P[q]? = some brainfuck.Instruction.JumpBackwardsIfNotZero →
      (pass1 P)[bmap P q]? = some (Instruction.JumpBackwardsIfNotZero 0)) :=
  bracket_boundary_aux P.length P rfl q hq

/-- The canonical bracket pairing transports from the primitive program to
its pass-1 image along `bmap`. -/
theorem Matches_transport (P : List brainfuck.Instruction) {a b : Nat}
    (h : brainfuck.Matches P a b) :
    Matches (pass1 P) (bmap P a) (bmap P b) := by
  obtain ⟨hab, hblen, ha, hb, heq, hint⟩ := h
  obtain ⟨_, _, hbma, hfa, _⟩ := bracket_boundary P a (Or.inl ha)
  obtain ⟨_, _, hbmb, _, hbb⟩ := bracket_boundary P b (Or.inr hb)
  have hTa := hfa ha
  have hTb := hbb hb
  have hmlt := getElem_some_lt _ hTb
  refine ⟨?_, hmlt, ⟨0, hTa⟩, ⟨0, hTb⟩, ?_, ?_⟩
  · have h1 := bmap_mono P (a + 1) b hab
    omega
  · have h1 := pbal_commute P (b + 1) (by omega)
    have h2 := pbal_commute P a (by omega)
    rw [hbmb] at h1
    rw [h1, h2, heq]
  · intro m hm1 hm2
    obtain ⟨q, hqlen, hqm, hqb⟩ := bmap_surj P m (by omega)
    have hq1 : a < q := by
      by_contra hc
      have := bmap_mono P q a (by omega)
      omega
    have hq2 : q ≤ b := by
      by_contra hc
      have := bmap_mono P (b + 1) q (by omega)
      rw [hbmb] at this
      omega
    have hlt := hint q hq1 hq2
    have h2 := pbal_commute P a (by omega)
    rw [hqb, h2]
    exact hlt

end ir

namespace brainfuck

/-- Open-bracket nesting height after the first `q` primitive instructions:
grows on `[`, shrinks (not below 0) on `]`.  The nesting depth of a program
is the maximum of this over all of its prefixes. -/
def nestH (P : List Instruction) : Nat → Nat
  | 0 => 0
  | q + 1 =>
    match P[q]? with
    | some Instruction.JumpForwardsIfZero => nestH P q + 1
    | some Instruction.JumpBackwardsIfNotZero => nestH P q - 1
    | _ => nestH P q

/-- The prefix bracket balance is bounded by the nesting height. -/
theorem pbal_le_nestH (P : List Instruction) :
    ∀ q, pbal P q ≤ (nestH P q : Int) := by
  intro q
  induction q with
  | zero => simp [pbal, nestH]
  | succ q ih =>
    rw [pbal_succ_bf]
    unfold bwAt
    cases hq : P[q]? with
    | none =>
      simp only [nestH, hq]
      omega
    | some x => cases x <;> simp only [nestH, hq, bfw] <;> omega

end brainfuck

/-- The composite of the two u8 conversions used by `IncrementByte` in the IR
interpreter (`extended.wrapping_add(inc) as u8`) is plain arithmetic modulo
256. -/
theorem u8OfInt_wrap32 (z : Int) : u8OfInt (wrap32 z) = u8OfInt z := by
  unfold u8OfInt wrap32
  congr 1
  omega

/-! ### Wrapping-arithmetic facts used by the fusion simulation -/

theorem wAdd_small (a b : Nat) (h : a + b < 2 ^ 64) : wAdd a b = a + b := by
  unfold wAdd
  omega

theorem wSub_small (a b : Nat) (hba : b ≤ a) (ha : a < 2 ^ 64) :
    wSub a b = a - b := by
  unfold wSub
  omega

theorem wSub_zero_one_big : 30000 < wSub 0 1 := by
  unfold wSub
  omega

theorem wAdd_usize (p : Nat) (w : Int) (h0 : 0 ≤ (p : Int) + w)
    (h1 : (p : Int) + w < 2 ^ 64) :
    wAdd p (usizeOfI32 w) = ((p : Int) + w).toNat := by
  unfold wAdd usizeOfI32
  omega

theorem u8OfInt_shift (a s : Int) :
    u8OfInt ((u8OfInt a : Int) + s) = u8OfInt (a + s) := by
  unfold u8OfInt
  omega

theorem u8OfInt_congr (a b : Int) (h : a % 256 = b % 256) :
    u8OfInt a = u8OfInt b := by
  unfold u8OfInt
  omega

namespace brainfuck

/-- Weight sums shift across dropping the head entry. -/
theorem wsum_drop_succ (f : Instruction → Int) (P : List Instruction)
    (q k : Nat) (x : Instruction) (hx : P[q]? = some x) :
    wsum f (P.drop q) (k + 1) = f x + wsum f (P.drop (q + 1)) k := by
  have hq : q < P.length := ir.getElem_some_lt P hx
  have hdc : P.drop q = x :: P.drop (q + 1) := by
    rw [List.drop_eq_getElem_cons hq]
    have hg : P[q] = x := by
      have h1 := List.getElem?_eq_getElem hq
      rw [hx] at h1
      exact (Option.some.inj h1).symm
    rw [hg]
  rw [hdc, wsum_cons]

/-- Executing a fused run of byte increments under the direct interpreter:
`k` consecutive `+`/`-` instructions starting at a program position advance
the program counter by `k` and add the run's summed delta to the addressed
cell, modulo 256.  Nothing else changes and no error or panic can occur. -/
theorem byte_run_exec (P : List Instruction) (hP : P.length < 2 ^ 64) :
    ∀ (k q : Nat), 1 ≤ k → q + k ≤ P.length →
      (∀ m, m < k → P[q + m]? = some Instruction.IncrementByte ∨
        P[q + m]? = some Instruction.DecrementByte) →
      ∀ (fuel : Nat) (cells : Nat → Nat) (ptr : Nat)
        (input output out inp : List Nat),
        Vm.run fuel ⟨P, q, cells, ptr⟩ input output =
          RunResult.finished out inp →
        k ≤ fuel ∧
        Vm.run (fuel - k) ⟨P, q + k,
            Function.update cells ptr
              (u8OfInt ((cells ptr : Int) + wsum byteDelta (P.drop q) k)),
            ptr⟩ input output = RunResult.finished out inp := by
  intro k
  induction k with
  | zero => intro q h1; exact absurd h1 (by omega)
  | succ k ih =>
    intro q _ hqk hent fuel cells ptr input output out inp hrun
    have hlt : q < P.length := by omega
    cases fuel with
    | zero =>
      simp only [Vm.run, hlt, if_true] at hrun
      exact RunResult.noConfusion hrun
    | succ fuel =>
      have he0 := hent 0 (by omega)
      rw [Nat.add_zero] at he0
      simp only [Vm.run, hlt, if_true] at hrun
      rcases he0 with he | he
      · -- IncrementByte at q
        simp only [Vm.step, he] at hrun
        rw [wAdd_small q 1 (by omega)] at hrun
        rcases Nat.eq_zero_or_pos k with hk0 | hk0
        · subst hk0
          refine ⟨by omega, ?_⟩
          have hw1 : wsum byteDelta (P.drop q) (0 + 1) = 1 := by
            rw [wsum_drop_succ byteDelta P q 0 _ he, wsum_zero]
            rfl
          rw [hw1]
          exact hrun
        · have hent' : ∀ m, m < k →
              P[q + 1 + m]? = some Instruction.IncrementByte ∨
              P[q + 1 + m]? = some Instruction.DecrementByte := by
            intro m hm
            have := hent (m + 1) (by omega)
            rwa [show q + (m + 1) = q + 1 + m from by omega] at this
          obtain ⟨hkf, hfinal⟩ := ih (q + 1) hk0 (by omega) hent' fuel
            (Function.update cells ptr (u8OfInt ((cells ptr : Int) + 1)))
            ptr input output out inp hrun
          refine ⟨by omega, ?_⟩
          have hc1 : (Function.update cells ptr
              (u8OfInt ((cells ptr : Int) + 1))) ptr =
              u8OfInt ((cells ptr : Int) + 1) := by simp
          have hval : u8OfInt
              (((Function.update cells ptr
                  (u8OfInt ((cells ptr : Int) + 1))) ptr : Int) +
                wsum byteDelta (P.drop (q + 1)) k) =
              u8OfInt ((cells ptr : Int) +
                wsum byteDelta (P.drop q) (k + 1)) := by
            rw [hc1, u8OfInt_shift, wsum_drop_succ byteDelta P q k _ he]
            congr 1
            simp only [byteDelta]
            ring
          rw [hval] at hfinal
          have hcollapse : Function.update
              (Function.update cells ptr (u8OfInt ((cells ptr : Int) + 1)))
              ptr
              (u8OfInt ((cells ptr : Int) +
                wsum byteDelta (P.drop q) (k + 1))) =
              Function.update cells ptr
                (u8OfInt ((cells ptr : Int) +
                  wsum byteDelta (P.drop q) (k + 1))) := by
            simp
          rw [hcollapse] at hfinal
          rw [show fuel + 1 - (k + 1) = fuel - k from by omega,
            show q + (k + 1) = q + 1 + k from by omega]
          exact hfinal
      · -- DecrementByte at q
        simp only [Vm.step, he] at hrun
        rw [wAdd_small q 1 (by omega)] at hrun
        rcases Nat.eq_zero_or_pos k with hk0 | hk0
        · subst hk0
          refine ⟨by omega, ?_⟩
          have hw1 : wsum byteDelta (P.drop q) (0 + 1) = -1 := by
            rw [wsum_drop_succ byteDelta P q 0 _ he, wsum_zero]
            rfl
          rw [hw1]
          exact hrun
        · have hent' : ∀ m, m < k →
              P[q + 1 + m]? = some Instruction.IncrementByte ∨
              P[q + 1 + m]? = some Instruction.DecrementByte := by
            intro m hm
            have := hent (m + 1) (by omega)
            rwa [show q + (m + 1) = q + 1 + m from by omega] at this
          obtain ⟨hkf, hfinal⟩ := ih (q + 1) hk0 (by omega) hent' fuel
            (Function.update cells ptr (u8OfInt ((cells ptr : Int) - 1)))
            ptr input output out inp hrun
          refine ⟨by omega, ?_⟩
          have hc1 : (Function.update cells ptr
              (u8OfInt ((cells ptr : Int) - 1))) ptr =
              u8OfInt ((cells ptr : Int) - 1) := by simp
          have hval : u8OfInt
              (((Function.update cells ptr
                  (u8OfInt ((cells ptr : Int) - 1))) ptr : Int) +
                wsum byteDelta (P.drop (q + 1)) k) =
              u8OfInt ((cells ptr : Int) +
                wsum byteDelta (P.drop q) (k + 1)) := by
            rw [hc1, u8OfInt_shift, wsum_drop_succ byteDelta P q k _ he]
            congr 1
            simp only [byteDelta]
            ring
          rw [hval] at hfinal
          have hcollapse : Function.update
              (Function.update cells ptr (u8OfInt ((cells ptr : Int) - 1)))
              ptr
              (u8OfInt ((cells ptr : Int) +
                wsum byteDelta (P.drop q) (k + 1))) =
              Function.update cells ptr
                (u8OfInt ((cells ptr : Int) +
                  wsum byteDelta (P.drop q) (k + 1))) := by
            simp
          rw [hcollapse] at hfinal
          rw [show fuel + 1 - (k + 1) = fuel - k from by omega,
            show q + (k + 1) = q + 1 + k from by omega]
          exact hfinal

/-- Executing a fused run of pointer increments under the direct
interpreter: if the run completes (the surrounding execution finished), all
intermediate pointers stay inside `[0, 30000]` and the final pointer is the
starting pointer plus the run's summed delta. -/
theorem ptr_run_exec (P : List Instruction) (hP : P.length < 2 ^ 64) :
    ∀ (k q : Nat), q + k ≤ P.length →
      (∀ m, m < k → P[q + m]? = some Instruction.IncrementPointer ∨
        P[q + m]? = some Instruction.DecrementPointer) →
      ∀ (fuel : Nat) (cells : Nat → Nat) (ptr : Nat), ptr ≤ 30000 →
      ∀ (input output out inp : List Nat),
        Vm.run fuel ⟨P, q, cells, ptr⟩ input output =
          RunResult.finished out inp →
        k ≤ fuel ∧
        (∀ m, m ≤ k → 0 ≤ (ptr : Int) + wsum ptrDelta (P.drop q) m ∧
          (ptr : Int) + wsum ptrDelta (P.drop q) m ≤ 30000) ∧
        Vm.run (fuel - k) ⟨P, q + k, cells,
            ((ptr : Int) + wsum ptrDelta (P.drop q) k).toNat⟩ input output =
          RunResult.finished out inp := by
  intro k
  induction k with
  | zero =>
    intro q hqk hent fuel cells ptr hptr input output out inp hrun
    refine ⟨by omega, ?_, ?_⟩
    · intro m hm
      have hm0 : m = 0 := by omega
      subst hm0
      rw [wsum_zero]
      constructor <;> omega
    · have hpt : ((ptr : Int) + wsum ptrDelta (P.drop q) 0).toNat = ptr := by
        rw [wsum_zero]
        omega
      rw [hpt]
      exact hrun
  | succ k ih =>
    intro q hqk hent fuel cells ptr hptr input output out inp hrun
    have hlt : q < P.length := by omega
    cases fuel with
    | zero =>
      simp only [Vm.run, hlt, if_true] at hrun
      exact RunResult.noConfusion hrun
    | succ fuel =>
      have he0 := hent 0 (by omega)
      rw [Nat.add_zero] at he0
      simp only [Vm.run, hlt, if_true] at hrun
      have hent' : ∀ m, m < k →
          P[q + 1 + m]? = some Instruction.IncrementPointer ∨
          P[q + 1 + m]? = some Instruction.DecrementPointer := by
        intro m hm
        have := hent (m + 1) (by omega)
        rwa [show q + (m + 1) = q + 1 + m from by omega] at this
      rcases he0 with he | he
      · -- IncrementPointer at q
        simp only [Vm.step, he] at hrun
        rw [wAdd_small ptr 1 (by omega)] at hrun
        by_cases hbound : ptr + 1 > 30000
        · rw [if_pos hbound] at hrun
          simp at hrun
        · rw [if_neg hbound] at hrun
          rw [wAdd_small q 1 (by omega)] at hrun
          dsimp only at hrun
          obtain ⟨hkf, hbounds, hfinal⟩ := ih (q + 1) (by omega) hent' fuel
            cells (ptr + 1) (by omega) input output out inp hrun
          have hshift : ∀ m : Nat, wsum ptrDelta (P.drop q) (m + 1) =
              1 + wsum ptrDelta (P.drop (q + 1)) m := by
            intro m
            rw [wsum_drop_succ ptrDelta P q m _ he]
            rfl
          refine ⟨by omega, ?_, ?_⟩
          · intro m hm
            cases m with
            | zero =>
              rw [wsum_zero]
              constructor <;> omega
            | succ m =>
              have hb := hbounds m (by omega)
              rw [hshift m]
              constructor <;> omega
          · have hpt : ((ptr : Int) +
                wsum ptrDelta (P.drop q) (k + 1)).toNat =
                (((ptr + 1 : Nat) : Int) +
                  wsum ptrDelta (P.drop (q + 1)) k).toNat := by
              rw [hshift k]
              omega
            rw [hpt]
            rw [show fuel + 1 - (k + 1) = fuel - k from by omega,
              show q + (k + 1) = q + 1 + k from by omega]
            exact hfinal
      · -- DecrementPointer at q
        simp only [Vm.step, he] at hrun
        by_cases hz : ptr = 0
        · subst hz
          rw [if_pos wSub_zero_one_big] at hrun
          simp at hrun
        · rw [wSub_small ptr 1 (by omega) (by omega)] at hrun
          rw [if_neg (show ¬ (ptr - 1 > 30000) from by omega)] at hrun
          rw [wAdd_small q 1 (by omega)] at hrun
          dsimp only at hrun
          obtain ⟨hkf, hbounds, hfinal⟩ := ih (q + 1) (by omega) hent' fuel
            cells (ptr - 1) (by omega) input output out inp hrun
          have hshift : ∀ m : Nat, wsum ptrDelta (P.drop q) (m + 1) =
              -1 + wsum ptrDelta (P.drop (q + 1)) m := by
            intro m
            rw [wsum_drop_succ ptrDelta P q m _ he]
            rfl
          refine ⟨by omega, ?_, ?_⟩
          · intro m hm
            cases m with
            | zero =>
              rw [wsum_zero]
              constructor <;> omega
            | succ m =>
              have hb := hbounds m (by omega)
              rw [hshift m]
              constructor <;> omega
          · have hpt : ((ptr : Int) +
                wsum ptrDelta (P.drop q) (k + 1)).toNat =
                (((ptr - 1 : Nat) : Int) +
                  wsum ptrDelta (P.drop (q + 1)) k).toNat := by
              rw [hshift k]
              omega
            rw [hpt]
            rw [show fuel + 1 - (k + 1) = fuel - k from by omega,
              show q + (k + 1) = q + 1 + k from by omega]
            exact hfinal

end brainfuck

namespace ir

/-- At a run boundary inside the program, one whole fusion run can be
stepped across: the boundary moves by the run length `k`, `bmap` moves by
exactly one, and the IR instruction sitting at the boundary's image is the
run's fused instruction. -/
theorem boundary_step (P : List brainfuck.Instruction) (q : Nat)
    (hB : Boundary P q) (hq : q < P.length) :
    ∃ k i, 1 ≤ k ∧ q + k ≤ P.length ∧ Boundary P (q + k) ∧
      bmap P (q + k) = bmap P q + 1 ∧
      (pass1 P)[bmap P q]? = some i ∧
      RunContent (P.drop q) k i := by
  have hne : P.drop q ≠ [] := by
    intro h
    have := congrArg List.length h
    rw [List.length_drop] at this
    simp at this
    omega
  obtain ⟨k, i, hk1, hk2, hrun, hmid, hcontent⟩ := pass1_run_split (P.drop q) hne
  rw [List.length_drop] at hk2
  have hrun0 : pass1 ((P.drop q).take k) = [i] := by
    have := hrun 0
    simpa [pass1_nil] using this
  have htakeq : pass1 (P.take (q + k)) = pass1 (P.take q) ++ [i] := by
    have h0 := hB k
    rw [hrun0] at h0
    exact h0
  have hdd : (P.drop q).drop k = P.drop (q + k) := by
    rw [List.drop_drop, Nat.add_comm]
  refine ⟨k, i, hk1, by omega, ?_, ?_, ?_, hcontent⟩
  · intro r
    have h1 := hB (k + r)
    rw [show q + (k + r) = q + k + r from by omega] at h1
    rw [h1, hrun r, htakeq, hdd]
    simp
  · unfold bmap
    rw [htakeq]
    simp
  · have h3 : pass1 (P.drop q) = i :: pass1 ((P.drop q).drop k) := by
      have := hrun ((P.drop q).length)
      rwa [List.take_of_length_le (by omega),
        List.take_of_length_le (by rw [List.length_drop]; omega)] at this
    have hfull : pass1 P =
        pass1 (P.take q) ++ (i :: pass1 ((P.drop q).drop k)) := by
      have h1 := hB (P.length - q)
      rw [show q + (P.length - q) = P.length from by omega,
        List.take_length] at h1
      have h2 : (P.drop q).take (P.length - q) = P.drop q := by
        apply List.take_of_length_le
        rw [List.length_drop]
      rw [h2, h3] at h1
      exact h1
    rw [hfull]
    rw [List.getElem?_append_right
      (show (pass1 (P.take q)).length ≤ bmap P q from le_of_eq rfl)]
    have hz : bmap P q - (pass1 (P.take q)).length = 0 := by
      unfold bmap
      omega
    rw [hz]
    exact List.getElem?_cons_zero

theorem pass1_length_le_aux (n : Nat) :
    ∀ P : List brainfuck.Instruction, P.length = n →
      (pass1 P).length ≤ P.length := by
  induction n using Nat.strong_induction_on with
  | _ n ih =>
    intro P hlen
    by_cases hP : P = []
    · subst hP
      simp [pass1_nil]
    · obtain ⟨k, i, hk1, hk2, hrun, _, _⟩ := pass1_run_split P hP
      have hT : pass1 P = i :: pass1 (P.drop k) := by
        have := hrun P.length
        rwa [List.take_of_length_le (by omega),
          List.take_of_length_le (by rw [List.length_drop]; omega)] at this
      have hdec : (P.drop k).length < n := by
        rw [List.length_drop]
        omega
      have htail := ih (P.drop k).length hdec (P.drop k) rfl
      rw [List.length_drop] at htail
      rw [hT, List.length_cons]
      omega

/-- Pass 1 never lengthens the program. -/
theorem pass1_length_le (P : List brainfuck.Instruction) :
    (pass1 P).length ≤ P.length :=
  pass1_length_le_aux P.length P rfl

end ir

/-- Forward simulation of the direct interpreter by the IR interpreter
across the lowering.  From any run boundary, if the direct interpreter runs
to completion then the IR interpreter, started at the boundary's image with
the same tape and pointer, runs to completion with the same output and the
same leftover input. -/
theorem fusion_sim :
    ∀ (fuel : Nat) (P : List brainfuck.Instruction) (R : List ir.Instruction)
      (cells : Nat → Nat) (ptr q : Nat) (input output out inp : List Nat),
      P.length < 2 ^ 64 →
      ir.transform P = ir.TransformResult.ok R →
      ir.Boundary P q → q ≤ P.length → ptr ≤ 30000 →
      brainfuck.Vm.run fuel ⟨P, q, cells, ptr⟩ input output =
        RunResult.finished out inp →
      ∃ m, ir.Vm.run m ⟨R, ir.bmap P q, cells, ptr⟩ input output =
        RunResult.finished out inp := by
  intro fuel
  induction fuel using Nat.strong_induction_on with
  | _ fuel ih =>
    intro P R cells ptr q input output out inp hP64 hok hB hq hptr hrun
    have hps : ir.pass2 (ir.pass1 P) 0 [] = ir.TransformResult.ok R := hok
    obtain ⟨hlenRT, hpair, hclose, hkeep⟩ := ir.pass2_ok_spec hps
    have hTlen := ir.pass1_length_le P
    rcases Nat.eq_or_lt_of_le hq with hqe | hqlt
    · -- the boundary is the end of the program: both machines are finished
      subst hqe
      have hnlt : ¬ (P.length < P.length) := by omega
      have hfin : output = out ∧ input = inp := by
        cases fuel with
        | zero =>
          simp only [brainfuck.Vm.run, hnlt, if_false,
            RunResult.finished.injEq] at hrun
          exact hrun
        | succ fl =>
          simp only [brainfuck.Vm.run, hnlt, if_false,
            RunResult.finished.injEq] at hrun
          exact hrun
      obtain ⟨rfl, rfl⟩ := hfin
      refine ⟨0, ?_⟩
      have hbR : ir.bmap P P.length = R.length := by
        rw [ir.bmap_length]
        omega
      simp only [ir.Vm.run]
      rw [hbR, if_neg (lt_irrefl R.length)]
    · -- step across one fusion run
      obtain ⟨k, i, hk1, hk2, hB', hbm', hTq, hcontent⟩ :=
        ir.boundary_step P q hB hqlt
      have hmono := ir.bmap_mono P (q + k) P.length (by omega)
      rw [ir.bmap_length] at hmono
      have hpc : ir.bmap P q < R.length := by omega
      have hR64 : R.length < 2 ^ 64 := by omega
      rcases hcontent with ⟨w, hi, hent, hw⟩ | ⟨w, hi, hent, hw⟩ |
        ⟨hk, h0, hi⟩ | ⟨hk, h0, hi⟩ | ⟨hk, h0, hi⟩ | ⟨hk, h0, hi⟩
      · -- fused byte run
        subst hi
        have hentP : ∀ m, m < k →
            P[q + m]? = some brainfuck.Instruction.IncrementByte ∨
            P[q + m]? = some brainfuck.Instruction.DecrementByte := by
          intro m hm
          have := hent m hm
          rwa [List.getElem?_drop] at this
        obtain ⟨hkf, hrun'⟩ := brainfuck.byte_run_exec P hP64 k q hk1
          (by omega) hentP fuel cells ptr input output out inp hrun
        have hnofwd : ¬ ∃ b', ir.Matches (ir.pass1 P) (ir.bmap P q) b' := by
          rintro ⟨b', ⟨_, _, ⟨d, hd⟩, _, _, _⟩⟩
          rw [hTq] at hd
          simp at hd
        have hnoback : ¬ ∃ a', ir.Matches (ir.pass1 P) a' (ir.bmap P q) := by
          rintro ⟨a', ⟨_, _, _, ⟨d, hd⟩, _, _⟩⟩
          rw [hTq] at hd
          simp at hd
        have hRq : R[ir.bmap P q]? =
            some (ir.Instruction.IncrementByte w) := by
          rw [hkeep _ hnofwd hnoback]
          exact hTq
        obtain ⟨m', hm'⟩ := ih (fuel - k) (by omega) P R
          (Function.update cells ptr
            (u8OfInt ((cells ptr : Int) +
              brainfuck.wsum brainfuck.byteDelta (P.drop q) k)))
          ptr (q + k) input output out inp hP64 hok hB' (by omega) hptr hrun'
        refine ⟨m' + 1, ?_⟩
        simp only [ir.Vm.run, hpc, if_true, ir.Vm.step, hRq]
        rw [wAdd_small (ir.bmap P q) 1 (by omega)]
        have hcells : u8OfInt (wrap32 ((cells ptr : Int) + w)) =
            u8OfInt ((cells ptr : Int) +
              brainfuck.wsum brainfuck.byteDelta (P.drop q) k) := by
          rw [u8OfInt_wrap32]
          exact u8OfInt_congr _ _ (by omega)
        rw [hcells, ← hbm']
        exact hm'
      · -- fused pointer run
        subst hi
        have hentP : ∀ m, m < k →
            P[q + m]? = some brainfuck.Instruction.IncrementPointer ∨
            P[q + m]? = some brainfuck.Instruction.DecrementPointer := by
          intro m hm
          have := hent m hm
          rwa [List.getElem?_drop] at this
        obtain ⟨hkf, hbounds, hrun'⟩ := brainfuck.ptr_run_exec P hP64 k q
          (by omega) hentP fuel cells ptr hptr input output out inp hrun
        have hww : w = brainfuck.wsum brainfuck.ptrDelta (P.drop q) k := by
          apply hw
          intro m hm
          have := hbounds m hm
          constructor <;> omega
        subst hww
        have hbk := hbounds k (le_refl k)
        have hnofwd : ¬ ∃ b', ir.Matches (ir.pass1 P) (ir.bmap P q) b' := by
          rintro ⟨b', ⟨_, _, ⟨d, hd⟩, _, _, _⟩⟩
          rw [hTq] at hd
          simp at hd
        have hnoback : ¬ ∃ a', ir.Matches (ir.pass1 P) a' (ir.bmap P q) := by
          rintro ⟨a', ⟨_, _, _, ⟨d, hd⟩, _, _⟩⟩
          rw [hTq] at hd
          simp at hd
        have hRq : R[ir.bmap P q]? =
            some (ir.Instruction.IncrementPointer
              (brainfuck.wsum brainfuck.ptrDelta (P.drop q) k)) := by
          rw [hkeep _ hnofwd hnoback]
          exact hTq
        obtain ⟨m', hm'⟩ := ih (fuel - k) (by omega) P R cells
          (((ptr : Int) +
            brainfuck.wsum brainfuck.ptrDelta (P.drop q) k).toNat)
          (q + k) input output out inp hP64 hok hB' (by omega) (by omega)
          hrun'
        refine ⟨m' + 1, ?_⟩
        simp only [ir.Vm.run, hpc, if_true, ir.Vm.step, hRq]
        rw [wAdd_usize ptr
          (brainfuck.wsum brainfuck.ptrDelta (P.drop q) k)
          (by omega) (by omega)]
        rw [if_neg (show ¬ (((ptr : Int) +
            brainfuck.wsum brainfuck.ptrDelta (P.drop q) k).toNat > 30000)
          from by omega)]
        dsimp only
        rw [wAdd_small (ir.bmap P q) 1 (by omega), ← hbm']
        exact hm'
      · -- OutputByte
        subst hk
        subst hi
        have heP : P[q]? = some brainfuck.Instruction.OutputByte := by
          have h1 := h0
          rw [List.getElem?_drop] at h1
          rwa [Nat.add_zero] at h1
        cases fuel with
        | zero =>
          simp only [brainfuck.Vm.run, hqlt, if_true] at hrun
          exact RunResult.noConfusion hrun
        | succ fl =>
          simp only [brainfuck.Vm.run, hqlt, if_true] at hrun
          simp only [brainfuck.Vm.step, heP] at hrun
          rw [wAdd_small q 1 (by omega)] at hrun
          have hnofwd : ¬ ∃ b', ir.Matches (ir.pass1 P) (ir.bmap P q) b' := by
            rintro ⟨b', ⟨_, _, ⟨d, hd⟩, _, _, _⟩⟩
            rw [hTq] at hd
            simp at hd
          have hnoback : ¬ ∃ a', ir.Matches (ir.pass1 P) a' (ir.bmap P q) := by
            rintro ⟨a', ⟨_, _, _, ⟨d, hd⟩, _, _⟩⟩
            rw [hTq] at hd
            simp at hd
          have hRq : R[ir.bmap P q]? = some ir.Instruction.OutputByte := by
            rw [hkeep _ hnofwd hnoback]
            exact hTq
          obtain ⟨m', hm'⟩ := ih fl (by omega) P R cells ptr (q + 1) input
            (output ++ [cells ptr]) out inp hP64 hok hB' (by omega) hptr hrun
          refine ⟨m' + 1, ?_⟩
          simp only [ir.Vm.run, hpc, if_true, ir.Vm.step, hRq]
          rw [wAdd_small (ir.bmap P q) 1 (by omega), ← hbm']
          exact hm'
      · -- ReadByte
        subst hk
        subst hi
        have heP : P[q]? = some brainfuck.Instruction.ReadByte := by
          have h1 := h0
          rw [List.getElem?_drop] at h1
          rwa [Nat.add_zero] at h1
        cases fuel with
        | zero =>
          simp only [brainfuck.Vm.run, hqlt, if_true] at hrun
          exact RunResult.noConfusion hrun
        | succ fl =>
          simp only [brainfuck.Vm.run, hqlt, if_true] at hrun
          simp only [brainfuck.Vm.step, heP] at hrun
          cases hsr : sliceRead cells ptr input with
          | none =>
            rw [hsr] at hrun
            simp at hrun
          | some pr =>
            obtain ⟨cells', input'⟩ := pr
            rw [hsr] at hrun
            dsimp only at hrun
            have hnofwd : ¬ ∃ b', ir.Matches (ir.pass1 P) (ir.bmap P q) b' := by
              rintro ⟨b', ⟨_, _, ⟨d, hd⟩, _, _, _⟩⟩
              rw [hTq] at hd
              simp at hd
            have hnoback : ¬ ∃ a', ir.Matches (ir.pass1 P) a' (ir.bmap P q) := by
              rintro ⟨a', ⟨_, _, _, ⟨d, hd⟩, _, _⟩⟩
              rw [hTq] at hd
              simp at hd
            have hRq : R[ir.bmap P q]? = some ir.Instruction.ReadByte := by
              rw [hkeep _ hnofwd hnoback]
              exact hTq
            obtain ⟨m', hm'⟩ := ih fl (by omega) P R cells' ptr (q + 1)
              input' output out inp hP64 hok hB' (by omega) hptr hrun
            refine ⟨m' + 1, ?_⟩
            simp only [ir.Vm.run, hpc, if_true, ir.Vm.step, hRq]
            rw [hsr]
            dsimp only
            rw [wAdd_small (ir.bmap P q) 1 (by omega), ← hbm']
            exact hm'
      · -- opening bracket
        subst hk
        subst hi
        have heP : P[q]? = some brainfuck.Instruction.JumpForwardsIfZero := by
          have h1 := h0
          rw [List.getElem?_drop] at h1
          rwa [Nat.add_zero] at h1
        cases fuel with
        | zero =>
          simp only [brainfuck.Vm.run, hqlt, if_true] at hrun
          exact RunResult.noConfusion hrun
        | succ fl =>
          simp only [brainfuck.Vm.run, hqlt, if_true] at hrun
          simp only [brainfuck.Vm.step, heP] at hrun
          by_cases hc : cells ptr = 0
          · rw [if_pos hc] at hrun
            cases hscan : brainfuck.scanForward P q 1 with
            | none =>
              rw [hscan] at hrun
              simp at hrun
            | some b =>
              rw [hscan] at hrun
              dsimp only at hrun
              have hscanF : brainfuck.scanForwardFuel P (P.length - q) q 1 =
                  some b := by
                rw [← brainfuck.scanForward_eq_fuel]
                exact hscan
              have hbwq : brainfuck.bwAt P q = 1 := by
                unfold brainfuck.bwAt
                rw [heP]
                rfl
              have hmPq : brainfuck.Matches P q b :=
                brainfuck.scanForwardFuel_sound P q heP (P.length - q) q 1 b
                  (le_refl q)
                  (by rw [brainfuck.pbal_succ_bf, hbwq]; ring)
                  (by omega)
                  (by intro m h1 h2; omega)
                  hscanF
              have hmT := ir.Matches_transport P hmPq
              have hRq : R[ir.bmap P q]? =
                  some (ir.Instruction.JumpForwardsIfZero
                    (ir.bmap P b - ir.bmap P q)) := (hpair _ _ hmT).1
              have hPb : P[b]? =
                  some brainfuck.Instruction.JumpBackwardsIfNotZero :=
                hmPq.2.2.2.1
              obtain ⟨hBb, _, _, _, _⟩ := ir.bracket_boundary P b (Or.inr hPb)
              have hblen : b < P.length := hmPq.2.1
              obtain ⟨m', hm'⟩ := ih fl (by omega) P R cells ptr b input
                output out inp hP64 hok hBb (by omega) hptr hrun
              refine ⟨m' + 1, ?_⟩
              simp only [ir.Vm.run, hpc, if_true, ir.Vm.step, hRq]
              rw [if_pos hc]
              have hmlt : ir.bmap P q < ir.bmap P b := hmT.1
              have hmblen : ir.bmap P b < (ir.pass1 P).length := hmT.2.1
              rw [wAdd_small (ir.bmap P q) (ir.bmap P b - ir.bmap P q)
                (by omega)]
              rw [show ir.bmap P q + (ir.bmap P b - ir.bmap P q) =
                ir.bmap P b from by omega]
              exact hm'
          · rw [if_neg hc] at hrun
            rw [wAdd_small q 1 (by omega)] at hrun
            dsimp only at hrun
            obtain ⟨d, hRq⟩ : ∃ d, R[ir.bmap P q]? =
                some (ir.Instruction.JumpForwardsIfZero d) := by
              by_cases hex : ∃ b', ir.Matches (ir.pass1 P) (ir.bmap P q) b'
              · obtain ⟨b', hmb⟩ := hex
                exact ⟨b' - ir.bmap P q, (hpair _ _ hmb).1⟩
              · have hnoback : ¬ ∃ a',
                    ir.Matches (ir.pass1 P) a' (ir.bmap P q) := by
                  rintro ⟨a', ⟨_, _, _, ⟨d', hd'⟩, _, _⟩⟩
                  rw [hTq] at hd'
                  simp at hd'
                refine ⟨0, ?_⟩
                rw [hkeep _ hex hnoback]
                exact hTq
            obtain ⟨m', hm'⟩ := ih fl (by omega) P R cells ptr (q + 1) input
              output out inp hP64 hok hB' (by omega) hptr hrun
            refine ⟨m' + 1, ?_⟩
            simp only [ir.Vm.run, hpc, if_true, ir.Vm.step, hRq]
            rw [if_neg hc]
            dsimp only
            rw [wAdd_small (ir.bmap P q) 1 (by omega), ← hbm']
            exact hm'
      · -- closing bracket
        subst hk
        subst hi
        have heP : P[q]? =
            some brainfuck.Instruction.JumpBackwardsIfNotZero := by
          have h1 := h0
          rw [List.getElem?_drop] at h1
          rwa [Nat.add_zero] at h1
        cases fuel with
        | zero =>
          simp only [brainfuck.Vm.run, hqlt, if_true] at hrun
          exact RunResult.noConfusion hrun
        | succ fl =>
          simp only [brainfuck.Vm.run, hqlt, if_true] at hrun
          simp only [brainfuck.Vm.step, heP] at hrun
          by_cases hc : cells ptr = 0
          · rw [if_neg (show ¬ (cells ptr ≠ 0) from fun h => h hc)] at hrun
            rw [wAdd_small q 1 (by omega)] at hrun
            dsimp only at hrun
            obtain ⟨d, hRq⟩ : ∃ d, R[ir.bmap P q]? =
                some (ir.Instruction.JumpBackwardsIfNotZero d) := by
              by_cases hex : ∃ a', ir.Matches (ir.pass1 P) a' (ir.bmap P q)
              · obtain ⟨a', hma⟩ := hex
                exact ⟨ir.bmap P q - a', (hpair _ _ hma).2⟩
              · have hnofwd : ¬ ∃ b',
                    ir.Matches (ir.pass1 P) (ir.bmap P q) b' := by
                  rintro ⟨b', ⟨_, _, ⟨d', hd'⟩, _, _, _⟩⟩
                  rw [hTq] at hd'
                  simp at hd'
                refine ⟨0, ?_⟩
                rw [hkeep _ hnofwd hex]
                exact hTq
            obtain ⟨m', hm'⟩ := ih fl (by omega) P R cells ptr (q + 1) input
              output out inp hP64 hok hB' (by omega) hptr hrun
            refine ⟨m' + 1, ?_⟩
            simp only [ir.Vm.run, hpc, if_true, ir.Vm.step, hRq]
            rw [if_neg (show ¬ (cells ptr ≠ 0) from fun h => h hc)]
            dsimp only
            rw [wAdd_small (ir.bmap P q) 1 (by omega), ← hbm']
            exact hm'
          · rw [if_pos hc] at hrun
            cases hscan : brainfuck.scanBackward P q 1 with
            | none =>
              rw [hscan] at hrun
              simp at hrun
            | some a =>
              rw [hscan] at hrun
              dsimp only at hrun
              have hmPq : brainfuck.Matches P a q :=
                brainfuck.scanBackward_sound P q hqlt heP q 1 a (le_refl q)
                  (by ring)
                  (by omega)
                  (by
                    intro m h1 h2
                    have hmq : m = q := by omega
                    subst hmq
                    exact le_refl _)
                  hscan
              have hmT := ir.Matches_transport P hmPq
              have hRq : R[ir.bmap P q]? =
                  some (ir.Instruction.JumpBackwardsIfNotZero
                    (ir.bmap P q - ir.bmap P a)) := (hpair _ _ hmT).2
              have hPa : P[a]? =
                  some brainfuck.Instruction.JumpForwardsIfZero :=
                hmPq.2.2.1
              obtain ⟨hBa, _, _, _, _⟩ := ir.bracket_boundary P a (Or.inl hPa)
              have halt : a < q := hmPq.1
              obtain ⟨m', hm'⟩ := ih fl (by omega) P R cells ptr a input
                output out inp hP64 hok hBa (by omega) hptr hrun
              refine ⟨m' + 1, ?_⟩
              simp only [ir.Vm.run, hpc, if_true, ir.Vm.step, hRq]
              rw [if_pos hc]
              have hmlt : ir.bmap P a < ir.bmap P q := hmT.1
              rw [wSub_small (ir.bmap P q) (ir.bmap P q - ir.bmap P a)
                (by omega) (by omega)]
              rw [show ir.bmap P q - (ir.bmap P q - ir.bmap P a) =
                ir.bmap P a from by omega]
              exact hm'

namespace x86

/-- Bytes outside the written range are untouched. -/
theorem writeBytes_frame (bytes : List Nat) :
    ∀ (B : Nat → Nat) (start pos : Nat),
      pos < start ∨ start + bytes.length ≤ pos →
      writeBytes B start bytes pos = B pos := by
  induction bytes with
  | nil => intro B start pos _; rfl
  | cons b bs ih =>
    intro B start pos hpos
    have hlen : (b :: bs).length = bs.length + 1 := rfl
    simp only [writeBytes]
    rw [ih _ _ _ (by omega)]
    rw [Function.update_noteq (by omega)]

/-- Bytes inside the written range read back the written list. -/
theorem writeBytes_read (bytes : List Nat) :
    ∀ (B : Nat → Nat) (start j : Nat), j < bytes.length →
      writeBytes B start bytes (start + j) = bytes.getD j 0 := by
  induction bytes with
  | nil => intro B start j h; simp at h
  | cons b bs ih =>
    intro B start j hj
    simp only [writeBytes]
    cases j with
    | zero =>
      rw [writeBytes_frame bs _ _ _ (Or.inl (by omega))]
      simp
    | succ j =>
      rw [show start + (j + 1) = (start + 1) + j from by omega]
      rw [ih _ _ _ (by simpa using hj)]
      rfl

end x86

namespace jit

/-- The 4-byte displacement slots of the recorded jumps are pairwise
disjoint (each recorded `cmp`+`jcc` pair occupies its own 6-byte region in
the emitted code, so this holds for every jump map the emission loop
produces). -/
def PatchDisjoint (L : List (Nat × JumpInfo)) : Prop :=
  L.Pairwise (fun e1 e2 => e1.2.asm_offset + 6 ≤ e2.2.asm_offset ∨
    e2.2.asm_offset + 6 ≤ e1.2.asm_offset)

/-- The patch pass leaves bytes outside the displacement slots of its work
list unchanged. -/
theorem patch_frame (J : List (Nat × JumpInfo)) :
    ∀ (L : List (Nat × JumpInfo)) (B buf : Nat → Nat),
      patch J B L = some buf →
      ∀ pos, (∀ l ∈ L, pos < l.2.asm_offset + 2 ∨ l.2.asm_offset + 6 ≤ pos) →
        buf pos = B pos := by
  intro L
  induction L with
  | nil =>
    intro B buf h pos _
    simp only [patch, Option.some.injEq] at h
    rw [← h]
  | cons e rest ih =>
    intro B buf h pos hpos
    obtain ⟨key, ji⟩ := e
    simp only [patch] at h
    cases hlk : J.lookup ji.target with
    | none =>
      rw [hlk] at h
      exact Option.noConfusion h
    | some t =>
      rw [hlk] at h
      dsimp only at h
      by_cases hov : ((t.asm_offset : Int) - (ji.asm_offset : Int)) <
          -(2 ^ 31) ∨ (2 ^ 31 : Int) ≤ (t.asm_offset : Int) - (ji.asm_offset : Int)
      · rw [if_pos hov] at h
        exact Option.noConfusion h
      · rw [if_neg hov] at h
        by_cases hsz : ji.asm_offset + 5 < BUF_SIZE
        · rw [if_pos hsz] at h
          have hrest := ih _ _ h pos (fun l hl => hpos l (by simp [hl]))
          rw [hrest]
          refine x86.writeBytes_frame _ _ _ _ ?_
          have h0 := hpos (key, ji) (by simp)
          have h0' : pos < ji.asm_offset + 2 ∨ ji.asm_offset + 6 ≤ pos := h0
          have hlen4 : (x86.le_bytes32i
              ((t.asm_offset : Int) - (ji.asm_offset : Int))).length = 4 := rfl
          omega
        · rw [if_neg hsz] at h
          exact Option.noConfusion h

/-- Specification of the patch pass: for every entry of a pairwise-disjoint
work list, the partner lookup succeeded and the final buffer holds, at the
entry's displacement slot `asm_offset + 2`, the little-endian i32 encoding
of `target.asm_offset - asm_offset`. -/
theorem patch_spec (J : List (Nat × JumpInfo)) :
    ∀ (L : List (Nat × JumpInfo)) (B buf : Nat → Nat),
      PatchDisjoint L →
      patch J B L = some buf →
      ∀ l ∈ L, ∃ t, J.lookup l.2.target = some t ∧
        ∀ j, j < 4 →
          buf (l.2.asm_offset + 2 + j) =
            (x86.le_bytes32i ((t.asm_offset : Int) -
              (l.2.asm_offset : Int))).getD j 0 := by
  intro L
  induction L with
  | nil =>
    intro B buf _ _ l hl
    simp at hl
  | cons e rest ih =>
    intro B buf hdisj h l hl
    obtain ⟨key, ji⟩ := e
    simp only [patch] at h
    cases hlk : J.lookup ji.target with
    | none =>
      rw [hlk] at h
      exact Option.noConfusion h
    | some t =>
      rw [hlk] at h
      dsimp only at h
      by_cases hov : ((t.asm_offset : Int) - (ji.asm_offset : Int)) <
          -(2 ^ 31) ∨ (2 ^ 31 : Int) ≤ (t.asm_offset : Int) - (ji.asm_offset : Int)
      · rw [if_pos hov] at h
        exact Option.noConfusion h
      · rw [if_neg hov] at h
        by_cases hsz : ji.asm_offset + 5 < BUF_SIZE
        · rw [if_pos hsz] at h
          rcases List.mem_cons.mp hl with hl0 | hlrest
          · subst hl0
            refine ⟨t, hlk, ?_⟩
            intro j hj
            have hframe := patch_frame J rest _ buf h
              (ji.asm_offset + 2 + j) ?_
            · rw [hframe,
                show ji.asm_offset + 2 + j = (ji.asm_offset + 2) + j from rfl,
                x86.writeBytes_read _ _ _ _ (by
                  have hlen4 : (x86.le_bytes32i ((t.asm_offset : Int) -
                    (ji.asm_offset : Int))).length = 4 := rfl
                  omega)]
            · intro l' hl'
              have hd := (List.pairwise_cons.mp hdisj).1 l' hl'
              have hd' : ji.asm_offset + 6 ≤ l'.2.asm_offset ∨
                  l'.2.asm_offset + 6 ≤ ji.asm_offset := hd
              omega
          · exact ih _ _ (List.pairwise_cons.mp hdisj).2 h l hlrest
        · rw [if_neg hsz] at h
          exact Option.noConfusion h

end jit

end Bfr

open Bfr

/-! ## Claim theorems -/

/-- C1: the spec says every unbalanced program is rejected with the
unbalanced-brackets error, in particular lower("["), lower("]") and
lower("[[]") all fail.  The code only fails when a closing bracket pops an
empty stack: it never checks that the stack is empty after the scan, so
lower("[") and lower("[[]") succeed, returning IR whose unmatched opening
brackets keep their 0-distance placeholder.  Only lower("]") fails. -/
theorem c1_missing_empty_stack_check :
    ir.transform [brainfuck.Instruction.JumpForwardsIfZero] =
      ir.TransformResult.ok [ir.Instruction.JumpForwardsIfZero 0] ∧
    ir.transform [brainfuck.Instruction.JumpBackwardsIfNotZero] =
      ir.TransformResult.error ir.TransformError.NoMatchingJump ∧
    ir.transform [brainfuck.Instruction.JumpForwardsIfZero,
      brainfuck.Instruction.JumpForwardsIfZero,
      brainfuck.Instruction.JumpBackwardsIfNotZero] =
      ir.TransformResult.ok [ir.Instruction.JumpForwardsIfZero 0,
        ir.Instruction.JumpForwardsIfZero 1,
        ir.Instruction.JumpBackwardsIfNotZero 1] := by
  refine ⟨?_, ?_, ?_⟩ <;> rw [ir.transform_eq_fuel] <;> decide

/-- C2: the spec requires a `PointerOutOfBounds` panic whenever the moved
data pointer would leave `[0, 30000)`.  Both interpreters compare the new
pointer with `> 30000` instead of `≥ 30000`, so moving the pointer from 29999
to 30000 (one past the last tape cell) succeeds without a panic in both the
IR interpreter (`PtrAdd(1)`) and the direct interpreter
(`IncrementPointer`), after which the tape access of a subsequent cell
instruction would be out of bounds. -/
theorem c2_pointer_bounds_off_by_one :
    (ir.Vm.step
        { program := [ir.Instruction.IncrementPointer 1]
          program_counter := 0
          cells := fun _ => 0
          data_pointer := 29999 } [] [] =
      StepResult.ok
        ({ program := [ir.Instruction.IncrementPointer 1]
           program_counter := 1
           cells := fun _ => 0
           data_pointer := 30000 }, [], [])) ∧
    (brainfuck.Vm.step
        { program := [brainfuck.Instruction.IncrementPointer]
          program_counter := 0
          cells := fun _ => 0
          data_pointer := 29999 } [] [] =
      StepResult.ok
        ({ program := [brainfuck.Instruction.IncrementPointer]
           program_counter := 1
           cells := fun _ => 0
           data_pointer := 30000 }, [], [])) ∧
    ¬ (30000 < 30000) := by
  refine ⟨rfl, ?_, by decide⟩
  rw [brainfuck.Vm.step_eq_fuel]
  rfl

/-- C3: the spec requires `ReadByte` to read exactly one byte into `tape[p]`
for every `p`, writing 0 on end of input.  The code reads into the slice
`cells[p..1]`: with `p = 1` that slice is empty and no byte is consumed, with
`p = 2` (or larger) the slice bounds are invalid and the step panics, and at
end of input the cell keeps its previous value instead of being set to 0. -/
theorem c3_read_byte_slice_bug :
    (ir.Vm.step
        { program := [ir.Instruction.ReadByte]
          program_counter := 0
          cells := fun _ => 0
          data_pointer := 1 } [7] [] =
      StepResult.ok
        ({ program := [ir.Instruction.ReadByte]
           program_counter := 1
           cells := fun _ => 0
           data_pointer := 1 }, [7], [])) ∧
    (ir.Vm.step
        { program := [ir.Instruction.ReadByte]
          program_counter := 0
          cells := fun n => if n = 0 then 5 else 0
          data_pointer := 0 } [] [] =
      StepResult.ok
        ({ program := [ir.Instruction.ReadByte]
           program_counter := 1
           cells := fun n => if n = 0 then 5 else 0
           data_pointer := 0 }, [], [])) ∧
    (ir.Vm.step
        { program := [ir.Instruction.ReadByte]
          program_counter := 0
          cells := fun _ => 0
          data_pointer := 2 } [7] [] =
      StepResult.panicked) ∧
    (5 : Nat) ≠ 0 := by
  exact ⟨rfl, rfl, rfl, by decide⟩

/-- C6: the spec says the single-operand emitters prefix `0x41` exactly when
the register is R8 or higher.  `rex_rm` compares with `>` instead of `≥`, so
R8 itself gets no REX.B prefix: `push(R8)` emits `[0xff, 0xf0]`, which is the
encoding of `push rax`, while `push(R9)` is correctly prefixed.  The same
comparison is used by `pop` and `call64`. -/
theorem c6_rex_rm_strict_comparison :
    x86.rex_rm x86.Register.R8 = none ∧
    x86.push x86.Register.R8 = [0xff, 0xf0] ∧
    x86.pop x86.Register.R8 = [0x8f, 0xc0] ∧
    x86.call64 x86.Register.R8 = [0xff, 0xd0] ∧
    x86.push x86.Register.R9 = [0x41, 0xff, 0xf1] ∧
    x86.push x86.Register.Rax = [0xff, 0xf0] ∧
    x86.Register.R8.code ≤ x86.Register.R8.code := by
  decide

/-- C7: the spec requires `|Δ| ≤ 255` per emission and larger deltas to be
split into several emissions whose immediates sum to Δ.  The code never
splits: it emits a single instruction whose imm8 is `Δ as u8`
(truncation modulo 256), so `PtrAdd(256)` emits the single instruction
`add rdi, 0` (bytes `48 83 c7 00` at offsets 23..26, right after the
23-byte prologue), whose combined effect adds 0 rather than 256. -/
theorem c7_truncated_imm8_no_split :
    (match jit.transform [ir.Instruction.IncrementPointer 256] with
      | some (buf, _, sz) => ([buf 23, buf 24, buf 25, buf 26], sz)
      | none => ([], 0)) =
      ([0x48, 0x83, 0xc7, 0x00], 38) ∧
    x86.addu8_reg x86.Register.Rdi (u8OfInt 256) = [0x48, 0x83, 0xc7, 0x00] ∧
    u8OfInt 256 = 0 ∧ (256 : Int) ≠ 0 := by
  refine ⟨by decide, by decide, by decide, by decide⟩

/-- C9: `CellAdd(Δ)` in the IR interpreter sets the addressed cell to
`(tape[p] + Δ) mod 256` (the source computes `(tape[p] as i32)
.wrapping_add(Δ) as u8`, which is the same residue), leaves the pointer and
the streams alone, and advances the program counter; in particular
`CellAdd(256)` leaves any in-range cell unchanged and `CellAdd(-1)` turns a
zero cell into 255. -/
theorem c9_cell_add_mod_256 :
    (∀ (vm : ir.Vm) (input output : List Nat) (inc : Int),
      vm.program[vm.program_counter]? = some (ir.Instruction.IncrementByte inc) →
      ir.Vm.step vm input output = StepResult.ok
        ({ vm with
            cells := Function.update vm.cells vm.data_pointer
              ((((vm.cells vm.data_pointer : Int) + inc) % 256).toNat)
            program_counter := wAdd vm.program_counter 1 }, input, output)) ∧
    (∀ (vm : ir.Vm) (input output : List Nat),
      vm.program[vm.program_counter]? = some (ir.Instruction.IncrementByte 256) →
      vm.cells vm.data_pointer < 256 →
      ir.Vm.step vm input output = StepResult.ok
        ({ vm with program_counter := wAdd vm.program_counter 1 },
          input, output)) ∧
    (∀ (vm : ir.Vm) (input output : List Nat),
      vm.program[vm.program_counter]? = some (ir.Instruction.IncrementByte (-1)) →
      vm.cells vm.data_pointer = 0 →
      ir.Vm.step vm input output = StepResult.ok
        ({ vm with
            cells := Function.update vm.cells vm.data_pointer 255
            program_counter := wAdd vm.program_counter 1 }, input, output)) := by
  have main : ∀ (vm : ir.Vm) (input output : List Nat) (inc : Int),
      vm.program[vm.program_counter]? = some (ir.Instruction.IncrementByte inc) →
      ir.Vm.step vm input output = StepResult.ok
        ({ vm with
            cells := Function.update vm.cells vm.data_pointer
              ((((vm.cells vm.data_pointer : Int) + inc) % 256).toNat)
            program_counter := wAdd vm.program_counter 1 }, input, output) := by
    intro vm input output inc h
    unfold ir.Vm.step
    rw [h]
    simp only [u8OfInt_wrap32]
    unfold u8OfInt
    rfl
  refine ⟨main, ?_, ?_⟩
  · intro vm input output h hlt
    rw [main vm input output 256 h]
    have h256 : (((vm.cells vm.data_pointer : Int) + 256) % 256).toNat =
        vm.cells vm.data_pointer := by omega
    rw [h256, Function.update_eq_self]
  · intro vm input output h h0
    rw [main vm input output (-1) h]
    rw [h0]
    rfl

/-- Witness for C9 at a concrete state: `CellAdd(300)` on a cell holding 200
yields `(200 + 300) mod 256 = 244`; `CellAdd(256)` on a cell holding 7 is a
no-op; `CellAdd(-1)` on a zero cell yields 255. -/
theorem c9_cell_add_mod_256_witness :
    (ir.Vm.step
        { program := [ir.Instruction.IncrementByte 300]
          program_counter := 0
          cells := fun _ => 200
          data_pointer := 0 } [] [] =
      StepResult.ok
        ({ program := [ir.Instruction.IncrementByte 300]
           program_counter := 1
           cells := Function.update (fun _ => 200) 0 244
           data_pointer := 0 }, [], [])) ∧
    (ir.Vm.step
        { program := [ir.Instruction.IncrementByte 256]
          program_counter := 0
          cells := fun _ => 7
          data_pointer := 0 } [] [] =
      StepResult.ok
        ({ program := [ir.Instruction.IncrementByte 256]
           program_counter := 1
           cells := fun _ => 7
           data_pointer := 0 }, [], [])) ∧
    (ir.Vm.step
        { program := [ir.Instruction.IncrementByte (-1)]
          program_counter := 0
          cells := fun _ => 0
          data_pointer := 0 } [] [] =
      StepResult.ok
        ({ program := [ir.Instruction.IncrementByte (-1)]
           program_counter := 1
           cells := Function.update (fun _ => 0) 0 255
           data_pointer := 0 }, [], [])) := by
  refine ⟨?_, ?_, ?_⟩
  · have := c9_cell_add_mod_256.1
      { program := [ir.Instruction.IncrementByte 300]
        program_counter := 0
        cells := fun _ => 200
        data_pointer := 0 } [] [] 300 rfl
    simpa using this
  · have := c9_cell_add_mod_256.2.1
      { program := [ir.Instruction.IncrementByte 256]
        program_counter := 0
        cells := fun _ => 7
        data_pointer := 0 } [] [] rfl (by decide)
    simpa using this
  · have := c9_cell_add_mod_256.2.2
      { program := [ir.Instruction.IncrementByte (-1)]
        program_counter := 0
        cells := fun _ => 0
        data_pointer := 0 } [] [] rfl rfl
    simpa using this

/-- C8 counterexample: the pairing invariant does not hold for every
successful run of the lowerer.  Lowering the single-instruction program "["
succeeds (the missing empty-stack check, cf. C1) and returns an IR sequence
whose opening jump keeps its placeholder distance 0, which is not strictly
positive and whose "partner" slot `0 + 0` holds the opening jump itself
rather than a closing jump. -/
theorem c8_pairing_counterexample :
    ∃ R, ir.transform [brainfuck.Instruction.JumpForwardsIfZero] =
        ir.TransformResult.ok R ∧
      R[0]? = some (ir.Instruction.JumpForwardsIfZero 0) ∧
      R[0 + 0]? ≠ some (ir.Instruction.JumpBackwardsIfNotZero 0) := by
  refine ⟨[ir.Instruction.JumpForwardsIfZero 0], ?_, rfl, by decide⟩
  rw [ir.transform_eq_fuel]
  decide

/-- C8 (amended): for every bracket-balanced primitive program (final
balance 0, all prefix balances nonnegative — exactly the programs on which
the lowerer's missing final stack check cannot fire), a successful lowering
produces an IR sequence in which position `i` holds `JmpFwdIfZero d` exactly
when position `i + d` holds `JmpBackIfNonZero d`, every such distance is
strictly positive, and both partners lie inside the sequence. -/
theorem c8_pairing_amended (P : List brainfuck.Instruction)
    (R : List ir.Instruction)
    (hend : brainfuck.pbal P P.length = 0)
    (hpos : ∀ q, q ≤ P.length → 0 ≤ brainfuck.pbal P q)
    (hok : ir.transform P = ir.TransformResult.ok R) :
    (∀ i d, R[i]? = some (ir.Instruction.JumpForwardsIfZero d) →
      0 < d ∧ i + d < R.length ∧
      R[i + d]? = some (ir.Instruction.JumpBackwardsIfNotZero d)) ∧
    (∀ j d, R[j]? = some (ir.Instruction.JumpBackwardsIfNotZero d) →
      0 < d ∧ d ≤ j ∧
      R[j - d]? = some (ir.Instruction.JumpForwardsIfZero d)) := by
  unfold ir.transform at hok
  obtain ⟨hlen, hpair, hclose, hkeep⟩ := ir.pass2_ok_spec hok
  have hTend : ir.pbal (ir.pass1 P) (ir.pass1 P).length = 0 := by
    have h1 := ir.pbal_commute P P.length (le_refl _)
    rw [ir.bmap_length, hend] at h1
    exact h1
  have hTpos : ∀ m, m ≤ (ir.pass1 P).length → 0 ≤ ir.pbal (ir.pass1 P) m := by
    intro m hm
    obtain ⟨q, hqlen, _, hqb⟩ := ir.bmap_surj P m hm
    rw [hqb]
    exact hpos q hqlen
  have hopenmatch : ∀ i, i < (ir.pass1 P).length → ir.IsFwdAt (ir.pass1 P) i →
      ∃ b, ir.Matches (ir.pass1 P) i b := by
    intro i hi hfwd
    rcases ir.match_or_vis hfwd (ir.pass1 P).length hi with ⟨b, _, hm⟩ | hvis
    · exact ⟨b, hm⟩
    · exfalso
      have h1 := hvis.2.2 (ir.pass1 P).length hi (le_refl _)
      have h2 := hTpos i (by omega)
      rw [hTend] at h1
      omega
  constructor
  · intro i d hRi
    have hiT : i < (ir.pass1 P).length := by
      have := ir.getElem_some_lt R hRi
      omega
    by_cases hm : ∃ b, ir.Matches (ir.pass1 P) i b
    · obtain ⟨b, hmb⟩ := hm
      obtain ⟨hfw, hbw⟩ := hpair i b hmb
      rw [hRi] at hfw
      simp only [Option.some.injEq, ir.Instruction.JumpForwardsIfZero.injEq] at hfw
      obtain ⟨hib, hbT, _, _, _, _⟩ := hmb
      subst hfw
      refine ⟨by omega, by omega, ?_⟩
      have hb' : i + (b - i) = b := by omega
      rw [hb']
      exact hbw
    · by_cases hm2 : ∃ a, ir.Matches (ir.pass1 P) a i
      · obtain ⟨a, hma⟩ := hm2
        have hc := (hpair a i hma).2
        rw [hRi] at hc
        simp at hc
      · have hkeep' := hkeep i hm hm2
        have hTi : (ir.pass1 P)[i]? =
            some (ir.Instruction.JumpForwardsIfZero d) := by
          rw [← hkeep']
          exact hRi
        exact absurd (hopenmatch i hiT ⟨d, hTi⟩) hm
  · intro j d hRj
    have hjT : j < (ir.pass1 P).length := by
      have := ir.getElem_some_lt R hRj
      omega
    by_cases hm : ∃ a, ir.Matches (ir.pass1 P) a j
    · obtain ⟨a, hma⟩ := hm
      obtain ⟨hfw, hbw⟩ := hpair a j hma
      rw [hRj] at hbw
      simp only [Option.some.injEq,
        ir.Instruction.JumpBackwardsIfNotZero.injEq] at hbw
      obtain ⟨haj, _, _, _, _, _⟩ := hma
      subst hbw
      refine ⟨by omega, by omega, ?_⟩
      have ha' : j - (j - a) = a := by omega
      rw [ha']
      exact hfw
    · by_cases hm2 : ∃ b, ir.Matches (ir.pass1 P) j b
      · obtain ⟨b, hmb⟩ := hm2
        have hc := (hpair j b hmb).1
        rw [hRj] at hc
        simp at hc
      · have hkeep' := hkeep j hm2 hm
        have hTj : (ir.pass1 P)[j]? =
            some (ir.Instruction.JumpBackwardsIfNotZero d) := by
          rw [← hkeep']
          exact hRj
        exact absurd (hclose j hjT ⟨d, hTj⟩) hm

theorem c8_pairing_amended_witness :
    0 < 1 ∧
    0 + 1 < ([ir.Instruction.JumpForwardsIfZero 1,
      ir.Instruction.JumpBackwardsIfNotZero 1] : List ir.Instruction).length ∧
    ([ir.Instruction.JumpForwardsIfZero 1,
      ir.Instruction.JumpBackwardsIfNotZero 1] :
        List ir.Instruction)[0 + 1]? =
      some (ir.Instruction.JumpBackwardsIfNotZero 1) :=
  (c8_pairing_amended
    [brainfuck.Instruction.JumpForwardsIfZero,
      brainfuck.Instruction.JumpBackwardsIfNotZero]
    [ir.Instruction.JumpForwardsIfZero 1,
      ir.Instruction.JumpBackwardsIfNotZero 1]
    (by decide) (by decide) (by rw [ir.transform_eq_fuel]; decide)).1 0 1 rfl

/-- C10: the lowerer's bracket stack has fixed capacity 32, so a program of
33 nested opening brackets makes `transform` panic on the push of the 33rd
bracket, while no program whose open-bracket nesting height stays at or
below 32 can reach the panicking push. -/
theorem c10_bracket_stack_capacity :
    ir.transform
        (List.replicate 33 brainfuck.Instruction.JumpForwardsIfZero) =
      ir.TransformResult.panicked ∧
    ∀ P : List brainfuck.Instruction,
      (∀ q, q ≤ P.length → brainfuck.nestH P q ≤ 32) →
      ir.transform P ≠ ir.TransformResult.panicked := by
  constructor
  · rw [ir.transform_eq_fuel]
    decide
  · intro P hnest
    unfold ir.transform
    apply ir.pass2_no_panic
    intro m hm
    obtain ⟨q, hqlen, _, hqb⟩ := ir.bmap_surj P m hm
    have h1 := brainfuck.pbal_le_nestH P q
    have h2 := hnest q hqlen
    rw [hqb]
    omega

theorem c10_bracket_stack_capacity_witness :
    ir.transform [brainfuck.Instruction.JumpForwardsIfZero,
      brainfuck.Instruction.JumpBackwardsIfNotZero] ≠
      ir.TransformResult.panicked :=
  c10_bracket_stack_capacity.2
    [brainfuck.Instruction.JumpForwardsIfZero,
      brainfuck.Instruction.JumpBackwardsIfNotZero]
    (by decide)

/-- C4: fusion correctness.  For every primitive program that the lowerer
accepts and every input, if the direct interpreter runs the program to
completion then the IR interpreter runs the lowered program to completion
with the identical output transcript and the identical leftover input (hence
the identical consumed input prefix).  The length bound reflects that a
realizable program's length fits in a usize, which the interpreters' wrapping
program-counter arithmetic relies on. -/
theorem c4_fusion_refinement (P : List brainfuck.Instruction)
    (R : List ir.Instruction) (fuel : Nat) (input out inp : List Nat)
    (hP64 : P.length < 2 ^ 64)
    (hok : ir.transform P = ir.TransformResult.ok R)
    (hrun : brainfuck.Vm.run fuel (brainfuck.Vm.new P) input [] =
      RunResult.finished out inp) :
    ∃ m, ir.Vm.run m (ir.Vm.new R) input [] = RunResult.finished out inp := by
  obtain ⟨m, hm⟩ := fusion_sim fuel P R (fun _ => 0) 0 0 input [] out inp
    hP64 hok (ir.boundary_zero P) (by omega) (by omega) hrun
  refine ⟨m, ?_⟩
  rw [ir.bmap_zero] at hm
  exact hm

theorem c4_fusion_refinement_witness :
    ∃ m, ir.Vm.run m (ir.Vm.new [ir.Instruction.OutputByte]) [] [] =
      RunResult.finished [0] [] :=
  c4_fusion_refinement [brainfuck.Instruction.OutputByte]
    [ir.Instruction.OutputByte] 1 [] [0] []
    (by decide)
    (by rw [ir.transform_eq_fuel]; decide)
    (by decide)

/-- C5 counterexample: the patch pass does not write
`LE(target.asm_offset - (asm_offset + 6))`.  For the IR program
`[JmpFwdIfZero 1, JmpBackIfNonZero 1]` the JIT records its two jumps at
asm offsets 26 and 35; the four bytes patched at offset 26 + 2 are
`[9, 0, 0, 0]`, the encoding of `35 - 26`, while the claim's formula
`35 - (26 + 6) = 3` would encode to `[3, 0, 0, 0]`. -/
theorem c5_rel32_counterexample :
    (jit.transform [ir.Instruction.JumpForwardsIfZero 1,
        ir.Instruction.JumpBackwardsIfNotZero 1]).map
      (fun r => (r.2.1, r.1 28, r.1 29, r.1 30, r.1 31)) =
      some ([(0, ⟨26, 1⟩), (1, ⟨35, 0⟩)], 9, 0, 0, 0) ∧
    x86.le_bytes32i ((35 : Int) - 26) = [9, 0, 0, 0] ∧
    x86.le_bytes32i ((35 : Int) - (26 + 6)) ≠ [9, 0, 0, 0] :=
  ⟨by decide, by decide, by decide⟩

/-- C5 (amended): in the JIT patch pass, for every recorded jump entry of a
work list whose displacement slots are pairwise disjoint (as the emission
loop guarantees, each `cmp`+`jcc` pair occupying its own region), the four
bytes written over the placeholder at `asm_offset + 2` are the little-endian
signed 32-bit encoding of `target_info.asm_offset - asm_offset` — without
the `- 6` adjustment stated in the spec. -/
theorem c5_patch_rel32_amended (J : List (Nat × jit.JumpInfo))
    (B buf : Nat → Nat)
    (hdisj : jit.PatchDisjoint J)
    (hpatch : jit.patch J B J = some buf) :
    ∀ l ∈ J, ∃ t, J.lookup l.2.target = some t ∧
      ∀ j, j < 4 →
        buf (l.2.asm_offset + 2 + j) =
          (x86.le_bytes32i ((t.asm_offset : Int) -
            (l.2.asm_offset : Int))).getD j 0 :=
  jit.patch_spec J J B buf hdisj hpatch

theorem c5_patch_rel32_amended_witness :
    ∃ buf, jit.patch [(0, ⟨26, 1⟩), (1, ⟨35, 0⟩)] (fun _ => 0)
        [(0, ⟨26, 1⟩), (1, ⟨35, 0⟩)] = some buf ∧
      buf 28 = 9 := by
  cases hp : jit.patch [(0, (⟨26, 1⟩ : jit.JumpInfo)), (1, ⟨35, 0⟩)]
      (fun _ => 0) [(0, ⟨26, 1⟩), (1, ⟨35, 0⟩)] with
  | none =>
    exfalso
    have hs : (jit.patch [(0, (⟨26, 1⟩ : jit.JumpInfo)), (1, ⟨35, 0⟩)]
        (fun _ => 0) [(0, ⟨26, 1⟩), (1, ⟨35, 0⟩)]).isSome = true := by decide
    rw [hp] at hs
    simp at hs
  | some buf =>
    refine ⟨buf, rfl, ?_⟩
    obtain ⟨t, hlkp, hbytes⟩ := c5_patch_rel32_amended
      [(0, ⟨26, 1⟩), (1, ⟨35, 0⟩)] (fun _ => 0) buf
      (by simp [jit.PatchDisjoint, List.pairwise_cons]) hp (0, ⟨26, 1⟩)
      (by simp)
    have ht : t = ⟨35, 0⟩ := by
      have hlkp' : ([(0, (⟨26, 1⟩ : jit.JumpInfo)),
          (1, ⟨35, 0⟩)].lookup 1) = some t := hlkp
      have hv : ([(0, (⟨26, 1⟩ : jit.JumpInfo)),
          (1, ⟨35, 0⟩)].lookup 1) = some (⟨35, 0⟩ : jit.JumpInfo) := by decide
      rw [hv] at hlkp'
      exact (Option.some.inj hlkp').symm
    subst ht
    have h28 : buf (26 + 2 + 0) =
        (x86.le_bytes32i ((35 : Int) - (26 : Int))).getD 0 0 := hbytes 0 (by omega)
    have hval : (x86.le_bytes32i ((35 : Int) - (26 : Int))).getD 0 0 = 9 := by
      decide
    rw [show (28 : Nat) = 26 + 2 + 0 from rfl, h28, hval]
